import Mathlib

/-!
# syslogmako: a shallow embedding of the cursor-driven line decoder

The development follows `syslogmako.go`.  A Go byte slice or string is a list
of natural numbers (one number per byte), the parser object is a record that
is passed in and returned, and a run-time panic of the Go program (an index or
a slice bound out of range) is a `Fault`.

Library code that the package calls but does not define (`time`,
`encoding/json`) enters as the fields of an `Env`.
-/

set_option autoImplicit false
set_option maxRecDepth 100000

namespace Syslogmako

/-! ## Bytes and run-time faults -/

/-- Byte view of an ASCII string literal: one number per character. -/
def bytesOf (s : String) : List Nat := s.toList.map Char.toNat

/-- What stops a Go run short of a normal return.  `outOfFuel` belongs to the
embedding only: it is the answer of a loop model whose step budget ran out. -/
inductive Fault where
  | indexOutOfRange
  | sliceBounds
  | outOfFuel
  deriving DecidableEq, Repr

/-- The result of a run: a value, or the fault that ended it. -/
inductive Run (α : Type) where
  | ok (a : α)
  | fault (f : Fault)
  deriving DecidableEq, Repr

/-- Go error values met by the package: the two sentinels of the root package
that the code names, and the errors that library code hands back (told apart
by a tag; none of them is one of the sentinels). -/
inductive GoError where
  | ErrEOL
  | ErrTimestampUnknownFormat
  | library (tag : Nat)
  deriving DecidableEq, Repr

/-- The Go expression `buff[lo:hi]`: it panics unless `lo ≤ hi ≤ cap(buff)`;
the capacity is taken to be the length. -/
def slice (buff : List Nat) (lo hi : Nat) : Run (List Nat) :=
  if lo ≤ hi ∧ hi ≤ buff.length then .ok ((buff.take hi).drop lo) else .fault .sliceBounds

/-! ## Data model -/

/-- A calendar time in UTC, by its civil fields (`time.Time` as the package
reads it through `Year()`, `Month()`, ... ). -/
structure Time where
  year : Int
  month : Int
  day : Int
  hour : Int
  minute : Int
  second : Int
  nanosecond : Int
  deriving DecidableEq, Repr

/-- Modelled from the spec: the record `mako.JSON` (package `mako`, not among
the sources).  The field names are the ones `Dump` reads; the spec gives
strings for all of them but the numeric level value and the schema version. -/
structure MakoJSON where
  Timestamp : List Nat
  LoggerName : List Nat
  Level : List Nat
  LevelValue : Int
  Message : List Nat
  ServiceEnvironment : List Nat
  ServiceName : List Nat
  ServicePipeline : List Nat
  ServiceVersion : List Nat
  ThreadName : List Nat
  Version : Int
  deriving DecidableEq, Repr

/-- The Go zero value of `mako.JSON`. -/
def MakoJSON.zero : MakoJSON := ⟨[], [], [], 0, [], [], [], [], [], [], 0⟩

/-- The Go struct `header`. -/
structure header where
  timestamp : Time
  hostname : List Nat
  deriving DecidableEq, Repr

/-- The Go struct `rfc3164Message`. -/
structure rfc3164Message where
  app : List Nat
  pid : List Nat
  content : List Nat
  mako : MakoJSON
  deriving DecidableEq, Repr

/-- The zero value of `time.Time` as its civil fields show it
(January 1, year 1, 00:00:00 UTC). -/
def Time.zero : Time := ⟨1, 1, 1, 0, 0, 0, 0⟩

/-- The Go zero value of `header`. -/
def header.zero : header := ⟨Time.zero, []⟩

/-- The Go zero value of `rfc3164Message`. -/
def rfc3164Message.zero : rfc3164Message := ⟨[], [], [], MakoJSON.zero⟩

/-- The Go struct `Parser`. -/
structure Parser where
  buff : List Nat
  cursor : Nat
  l : Nat
  version : Int
  header : header
  message : rfc3164Message
  hostname : List Nat
  deriving DecidableEq, Repr

/-- `NewParser`: cursor 0, `l` the length of the buffer, every other field zero. -/
def NewParser (buff : List Nat) : Parser :=
  { buff := buff, cursor := 0, l := buff.length, version := 0,
    header := header.zero, message := rfc3164Message.zero, hostname := [] }

/-- `Hostname`: pins the host name. -/
def Hostname (p : Parser) (hostname : List Nat) : Parser :=
  { p with hostname := hostname }

/-! ## parseApp -/

/-- The local variables of `parseApp` that live across iterations, with the cursor. -/
structure AppScan where
  cursor : Nat
  origin : Nat
  app : List Nat
  pid : List Nat
  foundApp : Bool
  foundPid : Bool
  deriving DecidableEq, Repr

/-- The loop of `parseApp`; `origin` is the Go variable `from`.  One unit of
fuel pays for one iteration. -/
def parseAppLoop (buff : List Nat) : Nat → AppScan → Run AppScan
  | 0, _ => .fault .outOfFuel
  | fuel + 1, s =>
    match buff[s.cursor]? with
    | none => .fault .indexOutOfRange
    | some b =>
      if b = 91 then
        -- openBracket
        match slice buff s.origin s.cursor with
        | .fault f => .fault f
        | .ok app =>
          parseAppLoop buff fuel
            { s with app := app, origin := s.cursor, foundApp := true, cursor := s.cursor + 1 }
      else if b = 93 then
        -- closeBracket
        if !s.foundApp then
          match slice buff s.origin s.cursor with
          | .fault f => .fault f
          | .ok app => .ok { s with app := app, foundApp := true, cursor := s.cursor + 2 }
        else if !s.foundPid then
          match slice buff (s.origin + 1) s.cursor with
          | .fault f => .fault f
          | .ok pid => .ok { s with pid := pid, foundPid := true, cursor := s.cursor + 2 }
        else .ok { s with cursor := s.cursor + 2 }
      else if b = 58 ∨ b = 32 then
        -- endOfTag
        if !s.foundApp then
          match slice buff s.origin s.cursor with
          | .fault f => .fault f
          | .ok app => .ok { s with app := app, foundApp := true, cursor := s.cursor + 1 }
        else if !s.foundPid then
          match slice buff s.origin s.cursor with
          | .fault f => .fault f
          | .ok pid => .ok { s with pid := pid, foundPid := true, cursor := s.cursor + 1 }
        else .ok { s with cursor := s.cursor + 1 }
      else
        parseAppLoop buff fuel { s with cursor := s.cursor + 1 }

/-- The test `p.cursor < p.l && p.buff[p.cursor] == ' '` followed by `p.cursor++`:
the cursor after the optional skip of one space. -/
def skipSpace (buff : List Nat) (l cursor : Nat) : Run Nat :=
  if cursor < l then
    match buff[cursor]? with
    | none => .fault .indexOutOfRange
    | some b => .ok (if b = 32 then cursor + 1 else cursor)
  else .ok cursor

/-- `parseApp`: the tag, the process id, the error (always nil) and the parser
with its cursor moved.  Every iteration moves the cursor by one and reads
`buff[cursor]`, so `len(buff) - cursor + 1` iterations are the most a run can make. -/
def parseApp (p : Parser) : Run ((List Nat × List Nat × Option GoError) × Parser) :=
  match parseAppLoop p.buff (p.buff.length - p.cursor + 1)
      ⟨p.cursor, p.cursor, [], [], false, false⟩ with
  | .fault f => .fault f
  | .ok s =>
    match skipSpace p.buff p.l s.cursor with
    | .fault f => .fault f
    | .ok c => .ok ((s.app, s.pid, none), { p with cursor := c })

/-! ## parseContent -/

/-- `bytes.TrimLeft` for a one-byte cutset. -/
def trimLeftByte (c : Nat) : List Nat → List Nat
  | [] => []
  | b :: bs => if b = c then trimLeftByte c bs else b :: bs

/-- `bytes.TrimRight` for a one-byte cutset. -/
def trimRightByte (c : Nat) (s : List Nat) : List Nat :=
  (trimLeftByte c s.reverse).reverse

/-- `bytes.Trim(s, " ")`: for a cutset of one ASCII byte the library trims the
right end and then the left end. -/
def trimSpace (s : List Nat) : List Nat :=
  trimLeftByte 32 (trimRightByte 32 s)

/-- `parseContent`: the content, the error and the parser with its cursor moved. -/
def parseContent (p : Parser) : Run ((List Nat × Option GoError) × Parser) :=
  if p.cursor > p.l then
    .ok (([], some .ErrEOL), p)
  else
    match slice p.buff p.cursor p.l with
    | .fault f => .fault f
    | .ok rest =>
      let content := trimSpace rest
      .ok ((content, some .ErrEOL), { p with cursor := p.cursor + content.length })

/-! ## Library code taken as parameters -/

/-- The library functions the package calls.  Each field stands for one call
of the Go standard library as the package makes it. -/
structure Env where
  /-- `time.ParseInLocation(layout, value, time.UTC)`; `none` when it returns an error. -/
  parseInLocation : List Nat → List Nat → Option Time
  /-- `time.Now().Year()`. -/
  nowYear : Int
  /-- `time.Date(year, month, day, hour, min, sec, nsec, loc)` at the location of the argument. -/
  date : Int → Int → Int → Int → Int → Int → Int → Time
  /-- `time.Parse(time.RFC3339, value)`; `none` when it returns an error. -/
  parseRFC3339 : List Nat → Option Time
  /-- `Time.Unix()`: seconds since the epoch. -/
  unix : Time → Int
  /-- `json.NewDecoder(r).Decode(&m)` on a zero `m`: the record after the call
  and the tag of the error, if the call returned one. -/
  jsonDecode : List Nat → MakoJSON × Option Nat
  /-- The constant `syslogparser.NoVersion` of the root package. -/
  NoVersion : Int

/-! ## parseTimestamp -/

/-- The layouts tried by `parseTimestamp`, in order. -/
def tsFmts : List (List Nat) :=
  [bytesOf "Jan 02 15:04:05", bytesOf "Jan  2 15:04:05"]

/-- `fixTimestampIfNeeded`. -/
def fixTimestampIfNeeded (env : Env) (ts : Time) : Time :=
  let y := if ts.year = 0 then env.nowYear else ts.year
  env.date y ts.month ts.day ts.hour ts.minute ts.second ts.nanosecond

/-- The locals `ts`, `tsFmtLen` and `found` of `parseTimestamp`. -/
structure TsScan where
  ts : Time
  tsFmtLen : Nat
  found : Bool
  deriving DecidableEq, Repr

/-- The `for _, tsFmt := range tsFmts` loop of `parseTimestamp`.  A failed
library parse hands back the zero time, which the assignment stores in `ts`. -/
def tsLoop (env : Env) (p : Parser) : List (List Nat) → TsScan → Run TsScan
  | [], s => .ok s
  | tsFmt :: rest, s =>
    if p.cursor + tsFmt.length > p.l then
      tsLoop env p rest { s with tsFmtLen := tsFmt.length }
    else
      match slice p.buff p.cursor (tsFmt.length + p.cursor) with
      | .fault f => .fault f
      | .ok sub =>
        match env.parseInLocation tsFmt sub with
        | some t => .ok { ts := t, tsFmtLen := tsFmt.length, found := true }
        | none => tsLoop env p rest { s with ts := Time.zero, tsFmtLen := tsFmt.length }

/-- `parseTimestamp`: the time, the error and the parser with its cursor moved. -/
def parseTimestamp (env : Env) (p : Parser) : Run ((Time × Option GoError) × Parser) :=
  match tsLoop env p tsFmts ⟨Time.zero, 0, false⟩ with
  | .fault f => .fault f
  | .ok s =>
    if !s.found then
      match skipSpace p.buff p.l s.tsFmtLen with
      | .fault f => .fault f
      | .ok c => .ok ((s.ts, some .ErrTimestampUnknownFormat), { p with cursor := c })
    else
      match skipSpace p.buff p.l (p.cursor + s.tsFmtLen) with
      | .fault f => .fault f
      | .ok c => .ok ((fixTimestampIfNeeded env s.ts, none), { p with cursor := c })

/-! ## parseHostname and parseHeader -/

/-- The forward scan of `ParseHostname`: the index of the next space at or
after `pos`, or `l` when there is none. -/
def hostnameEnd (buff : List Nat) (l : Nat) : Nat → Nat → Run Nat
  | 0, pos => if pos < l then .fault .outOfFuel else .ok pos
  | fuel + 1, pos =>
    if pos < l then
      match buff[pos]? with
      | none => .fault .indexOutOfRange
      | some b => if b = 32 then .ok pos else hostnameEnd buff l fuel (pos + 1)
    else .ok pos

/-- Modelled from the spec: `syslogparser.ParseHostname` (root package, not
among the sources).  The spec: scan forward from the cursor to the next space,
advancing the cursor past the separator.  The host name is the bytes before the
space; with no space before `l` the scan ends at `l`.  The spec names no input
on which the scan fails. -/
def ParseHostname (buff : List Nat) (cursor l : Nat) : Run ((List Nat × Option GoError) × Nat) :=
  match hostnameEnd buff l (l - cursor) cursor with
  | .fault f => .fault f
  | .ok stop =>
    match slice buff cursor stop with
    | .fault f => .fault f
    | .ok hostname => .ok ((hostname, none), if stop < l then stop + 1 else stop)

/-- `parseHostname`. -/
def parseHostname (p : Parser) : Run ((List Nat × Option GoError) × Parser) :=
  if p.hostname ≠ [] then
    .ok ((p.hostname, none), p)
  else
    match ParseHostname p.buff p.cursor p.l with
    | .fault f => .fault f
    | .ok (r, c) => .ok (r, { p with cursor := c })

/-- `parseHeader`. -/
def parseHeader (env : Env) (p : Parser) : Run ((header × Option GoError) × Parser) :=
  match parseTimestamp env p with
  | .fault f => .fault f
  | .ok ((_, some err), p1) => .ok ((header.zero, some err), p1)
  | .ok ((ts, none), p1) =>
    match parseHostname p1 with
    | .fault f => .fault f
    | .ok ((_, some err), p2) => .ok ((header.zero, some err), p2)
    | .ok ((hostname, none), p2) => .ok (({ timestamp := ts, hostname := hostname }, none), p2)

/-! ## preProcess -/

/-- `strings.HasPrefix(s, pre)`. -/
def hasPrefix : List Nat → List Nat → Bool
  | _, [] => true
  | [], _ :: _ => false
  | a :: s, b :: t => if a = b then hasPrefix s t else false

/-- The old/new pairs given to `strings.NewReplacer`, in argument order. -/
def replacerPairs : List (List Nat × List Nat) :=
  [ (bytesOf "\"level\":10,", bytesOf "\"level\":\"TRACE\","),
    (bytesOf "\"level\":20,", bytesOf "\"level\":\"DEBUG\","),
    (bytesOf "\"level\":30,", bytesOf "\"level\":\"INFO\","),
    (bytesOf "\"level\":40,", bytesOf "\"level\":\"WARN\","),
    (bytesOf "\"level\":50,", bytesOf "\"level\":\"ERROR\","),
    (bytesOf "\"level\":60,", bytesOf "\"level\":\"ERROR\","),
    (bytesOf "\"@timestamp\"", bytesOf "\"timestamp\""),
    (bytesOf "\"@version\"", bytesOf "\"version\"") ]

/-- The lookup of the generic replacer at one position: the first pair, in
argument order, whose old string starts the text. -/
def lookup (s : List Nat) : Option (List Nat × List Nat) :=
  replacerPairs.find? (fun kv => hasPrefix s kv.1)

/-- `Replacer.Replace` of the generic algorithm: left to right, no overlapping
matches.  After a match the bytes of the old string are passed over (`skip`
counts the ones still to pass). -/
def replaceFrom : Nat → List Nat → List Nat
  | _, [] => []
  | skip + 1, _ :: cs => replaceFrom skip cs
  | 0, c :: cs =>
    match lookup (c :: cs) with
    | some kv => kv.2 ++ replaceFrom (kv.1.length - 1) cs
    | none => c :: replaceFrom 0 cs

/-- `replacer.Replace(in)`. -/
def Replace (s : List Nat) : List Nat := replaceFrom 0 s

/-- The literal head of the pattern `reVersionStrung`. -/
def versionOpen : List Nat := bytesOf "\"version\":\""

/-- The replacement text of the second pass (it holds no `$`, so it is copied as it is). -/
def versionZero : List Nat := bytesOf "\"version\":0"

/-- The tail `[^"]+"` of the pattern, read from the head of `s`: the length of
the run of bytes other than the quote, when a quote ends that run. -/
def quotedRun : List Nat → Option Nat
  | [] => none
  | c :: cs => if c = 34 then some 0 else (quotedRun cs).map (· + 1)

/-- The match of `reVersionStrung` that starts at the head of `s`, by its length.
The class excludes the quote and the pattern ends in one, so a start has at
most one match. -/
def matchVersionStrung (s : List Nat) : Option Nat :=
  if hasPrefix s versionOpen then
    match quotedRun (s.drop versionOpen.length) with
    | some (n + 1) => some (versionOpen.length + (n + 1) + 1)
    | _ => none
  else none

/-- `reVersionStrung.ReplaceAllString(s, "\"version\":0")`: leftmost matches,
none overlapping. -/
def replaceAllFrom : Nat → List Nat → List Nat
  | _, [] => []
  | skip + 1, _ :: cs => replaceAllFrom skip cs
  | 0, c :: cs =>
    match matchVersionStrung (c :: cs) with
    | some n => versionZero ++ replaceAllFrom (n - 1) cs
    | none => c :: replaceAllFrom 0 cs

/-- `reVersionStrung.ReplaceAllString(out, "\"version\":0")`. -/
def ReplaceAllString (s : List Nat) : List Nat := replaceAllFrom 0 s

/-- `preProcess`: the text the returned reader yields. -/
def preProcess (s : List Nat) : List Nat :=
  ReplaceAllString (Replace s)

/-! ## parseMessage and Parse -/

/-- `parseMessage`. -/
def parseMessage (env : Env) (p : Parser) :
    Run ((rfc3164Message × Option GoError) × Parser) :=
  match parseApp p with
  | .fault f => .fault f
  | .ok ((_, _, some err), p1) => .ok ((rfc3164Message.zero, some err), p1)
  | .ok ((app, pid, none), p1) =>
    match parseContent p1 with
    | .fault f => .fault f
    | .ok ((content, err), p2) =>
      if err ≠ some .ErrEOL then
        .ok ((rfc3164Message.zero, err), p2)
      else
        match env.jsonDecode (preProcess content) with
        | (mako, some tag) =>
          .ok (({ app := app, pid := pid, content := content, mako := mako },
            some (.library tag)), p2)
        | (mako, none) =>
          .ok (({ app := app, pid := pid, content := content, mako := mako },
            some .ErrEOL), p2)

/-- `Parse`: the returned error and the parser after the call. -/
def Parse (env : Env) (p : Parser) : Run (Option GoError × Parser) :=
  match parseHeader env p with
  | .fault f => .fault f
  | .ok ((_, some err), p1) => .ok (some err, p1)
  | .ok ((hdr, none), p1) =>
    match p1.buff[p1.cursor]? with
    | none => .fault .indexOutOfRange
    | some b =>
      match parseMessage env (if b = 32 then { p1 with cursor := p1.cursor + 1 } else p1) with
      | .fault f => .fault f
      | .ok ((msg, err), p3) =>
        if err ≠ some .ErrEOL then
          .ok (err, p3)
        else
          .ok (none, { p3 with version := env.NoVersion, header := hdr, message := msg })

/-! ## Dump -/

/-- `strconv.Itoa`: the decimal rendering of an integer, as bytes. -/
def Itoa (i : Int) : List Nat := bytesOf (toString i)

/-- Modelled from the spec: `syslogparser.Epoch` (root package, not among the
sources).  The spec: convert the time to an epoch-seconds string. -/
def Epoch (env : Env) (t : Time) : List Nat := Itoa (env.unix t)

/-- `syslogparser.LogParts` with string values: the entries in the order of
the composite literal. -/
abbrev LogParts := List (String × List Nat)

/-- `Dump`.  The line that the failure branch writes with `log.Printf` goes to
the process log and is no part of the value. -/
def Dump (env : Env) (p : Parser) : LogParts :=
  let timestamp :=
    match env.parseRFC3339 p.message.mako.Timestamp with
    | some ts => Epoch env ts
    | none => Epoch env p.header.timestamp
  [ ("timestamp", timestamp),
    ("hostname", p.header.hostname),
    ("app_name", p.message.app),
    ("proc_id", p.message.pid),
    ("content", p.message.content),
    ("logger_name", p.message.mako.LoggerName),
    ("level", p.message.mako.Level),
    ("level_value", Itoa p.message.mako.LevelValue),
    ("message", p.message.mako.Message),
    ("service_environment", p.message.mako.ServiceEnvironment),
    ("service_name", p.message.mako.ServiceName),
    ("service_pipeline", p.message.mako.ServicePipeline),
    ("service_version", p.message.mako.ServiceVersion),
    ("thread_name", p.message.mako.ThreadName),
    ("version", Itoa p.message.mako.Version) ]

/-- The value stored under a key. -/
def LogParts.get (m : LogParts) (k : String) : Option (List Nat) := m.lookup k

/-- The field names of the output record, as the spec lists them. -/
def dumpKeys : List String :=
  ["timestamp", "hostname", "app_name", "proc_id", "content", "logger_name", "level",
   "level_value", "message", "service_environment", "service_name", "service_pipeline",
   "service_version", "thread_name", "version"]

/-! ## Predicates and sample data used in the statements -/

/-- A byte that is none of the delimiters of `parseApp`. -/
def plain (b : Nat) : Prop := b ≠ 91 ∧ b ≠ 93 ∧ b ≠ 58 ∧ b ≠ 32

/-- A quoted word that is neither `version` nor `:`. -/
def word (w : List Nat) : Prop :=
  34 ∉ w ∧ w ≠ [] ∧ w ≠ [118, 101, 114, 115, 105, 111, 110] ∧ w ≠ [58]

/-- The severity table as the spec gives it: numeric code and symbolic name. -/
def severityTable : List (List Nat × List Nat) :=
  [ (bytesOf "10", bytesOf "TRACE"), (bytesOf "20", bytesOf "DEBUG"),
    (bytesOf "30", bytesOf "INFO"), (bytesOf "40", bytesOf "WARN"),
    (bytesOf "50", bytesOf "ERROR"), (bytesOf "60", bytesOf "ERROR") ]

/-- The member text `"level":c,` for a numeric code `c`. -/
def levelNumeric (code : List Nat) : List Nat :=
  bytesOf "\"level\":" ++ code ++ bytesOf ","

/-- The member text `"level":"NAME",` for a symbolic name. -/
def levelSymbolic (name : List Nat) : List Nat :=
  bytesOf "\"level\":\"" ++ name ++ bytesOf "\","

/-- The old strings of the replacer: the rewrite triggers of the first pass. -/
def replacerKeys : List (List Nat) := replacerPairs.map Prod.fst

/-- The text `k` stands in `text` at offset `n`. -/
def occursAt (k text : List Nat) (n : Nat) : Prop :=
  ∃ a b, text = a ++ k ++ b ∧ a.length = n

/-- An old string of the replacer stands in `text` at offset `n`. -/
def keyAt (text : List Nat) (n : Nat) : Prop :=
  ∃ k ∈ replacerKeys, occursAt k text n

/-- A quoted-string version `"version":"v"`, with `v` non-empty and free of
quotes, stands in `text` at offset `n`: the rewrite trigger of the second pass. -/
def versionStrungAt (text : List Nat) (n : Nat) : Prop :=
  ∃ v, v ≠ [] ∧ 34 ∉ v ∧ occursAt (versionOpen ++ v ++ [34]) text n

/-- The member text `"version":"v"`. -/
def versionStrung (v : List Nat) : List Nat := versionOpen ++ v ++ [34]

/-- The member text `"@timestamp":"x"`. -/
def legacyTimestamp (x : List Nat) : List Nat := bytesOf "\"@timestamp\":\"" ++ x ++ [34]

/-- The member text `"timestamp":"x"`. -/
def canonicalTimestamp (x : List Nat) : List Nat := bytesOf "\"timestamp\":\"" ++ x ++ [34]

/-- The line of the end-to-end example, with the severity code left open. -/
def sampleLine (code : List Nat) : List Nat :=
  bytesOf "Oct 11 22:14:15 mymachine app[123]: \x7b\"@timestamp\":\"2003-10-11T22:14:15Z\",\"@version\":\"1\",\"level\":"
    ++ code ++ bytesOf ",\"message\":\"m\",\"loggerName\":\"L\"\x7d"

/-- The payload of `sampleLine`: the content that `parseContent` extracts. -/
def samplePayload (code : List Nat) : List Nat :=
  bytesOf "\x7b\"@timestamp\":\"2003-10-11T22:14:15Z\",\"@version\":\"1\",\"level\":"
    ++ code ++ bytesOf ",\"message\":\"m\",\"loggerName\":\"L\"\x7d"

/-- The payload of `sampleLine` after `preProcess`, with the level name left open. -/
def sampleNormalized (name : List Nat) : List Nat :=
  bytesOf "\x7b\"timestamp\":\"2003-10-11T22:14:15Z\",\"version\":0,\"level\":\""
    ++ name ++ bytesOf "\",\"message\":\"m\",\"loggerName\":\"L\"\x7d"

/-- The time the layouts of `parseTimestamp` read from `value`: the first layout
that parses it gives the time. -/
def parseLayouts (env : Env) (value : List Nat) : Option Time :=
  tsFmts.findSome? (fun tsFmt => env.parseInLocation tsFmt value)

/-- The parser on `buff` with its cursor at `c` and every other field as
`NewParser` leaves it. -/
def parserAt (buff : List Nat) (c : Nat) : Parser :=
  { NewParser buff with cursor := c }

/-- The parser after a successful `Parse` of `sampleLine code` that took `ts` as
the header time and `mako` as the decoded payload. -/
def sampleParsed (env : Env) (code : List Nat) (ts : Time) (mako : MakoJSON) : Parser :=
  { parserAt (sampleLine code) (sampleLine code).length with
    version := env.NoVersion,
    header := { timestamp := ts, hostname := bytesOf "mymachine" },
    message := { app := bytesOf "app", pid := bytesOf "123", content := samplePayload code,
                 mako := mako } }

/-- October 11, 2003, 22:14:15 UTC. -/
def sampleTime : Time := ⟨2003, 10, 11, 22, 14, 15, 0⟩

/-- A library for running the definitions on the example line: it knows the
header time `Oct 11 22:14:15` under the first layout, the RFC 3339 text
`2003-10-11T22:14:15Z` with its Unix time, and decodes the normalized payload
of the example with level `WARN` by its canonical member names (an absent
member leaves the zero value); `time.Date` is given on fields that are in
range.  Everything else is answered with a failure or a zero. -/
def sampleEnv : Env where
  parseInLocation layout value :=
    if layout = bytesOf "Jan 02 15:04:05" ∧ value = bytesOf "Oct 11 22:14:15" then
      some ⟨0, 10, 11, 22, 14, 15, 0⟩
    else none
  nowYear := 2003
  date y mo d h mi s ns := ⟨y, mo, d, h, mi, s, ns⟩
  parseRFC3339 value :=
    if value = bytesOf "2003-10-11T22:14:15Z" then some sampleTime else none
  unix t := if t = sampleTime then 1065910455 else 0
  jsonDecode text :=
    if text = sampleNormalized (bytesOf "WARN") then
      ({ MakoJSON.zero with
          Timestamp := bytesOf "2003-10-11T22:14:15Z", Level := bytesOf "WARN",
          Message := bytesOf "m", LoggerName := bytesOf "L" }, none)
    else (MakoJSON.zero, some 1)
  NoVersion := -1

/-! ## Further sample data -/

/-- The example line without a host name in it, for a parser with a pinned host name. -/
def pinnedLine : List Nat :=
  bytesOf "Oct 11 22:14:15 app[123]: " ++ samplePayload (bytesOf "40")

/-- The member text `"level":c` with nothing after the code. -/
def levelBare (code : List Nat) : List Nat := bytesOf "\"level\":" ++ code

/-- The payload `{"message":"m","level":c}`, in which the level is the last member. -/
def levelLastPayload (code : List Nat) : List Nat :=
  bytesOf "\x7b\"message\":\"m\"," ++ levelBare code ++ bytesOf "\x7d"

/-- A byte that ends the scan of `parseApp`: `:`, a space or `]`. -/
def delimiter (b : Nat) : Prop := b = 58 ∨ b = 32 ∨ b = 93

/-- What holds of the locals of `parseApp` at the top of every iteration: the
origin is not beyond the cursor, it is before the cursor once an open bracket
has been met, and no pid has been taken yet. -/
def scanInv (s : AppScan) : Prop :=
  s.origin ≤ s.cursor ∧ (s.foundApp = true → s.origin < s.cursor) ∧ s.foundPid = false

/-- A line that ends with the closing bracket of the tag. -/
def bracketEndLine : List Nat := bytesOf "Oct 11 22:14:15 mymachine app[1]"

/-- The parser as `Parse` hands it to `parseMessage`: one space after the header
is passed over. -/
def afterHeader (p : Parser) (b : Nat) : Parser :=
  if b = 32 then { p with cursor := p.cursor + 1 } else p

/-! ## Parse over an arbitrary hostname scan -/

/-- The signature of `syslogparser.ParseHostname(buff, &cursor, l)`: the host
name, the error, and the cursor after the call; or a panic. -/
abbrev HostnameScan := List Nat → Nat → Nat → Run ((List Nat × Option GoError) × Nat)

/-- `parseHostname`, with the function of the root package that it calls as
the parameter `scan`. -/
def parseHostnameWith (scan : HostnameScan) (p : Parser) :
    Run ((List Nat × Option GoError) × Parser) :=
  if p.hostname ≠ [] then
    .ok ((p.hostname, none), p)
  else
    match scan p.buff p.cursor p.l with
    | .fault f => .fault f
    | .ok (r, c) => .ok (r, { p with cursor := c })

/-- `parseHeader` over `parseHostnameWith scan`. -/
def parseHeaderWith (scan : HostnameScan) (env : Env) (p : Parser) :
    Run ((header × Option GoError) × Parser) :=
  match parseTimestamp env p with
  | .fault f => .fault f
  | .ok ((_, some err), p1) => .ok ((header.zero, some err), p1)
  | .ok ((ts, none), p1) =>
    match parseHostnameWith scan p1 with
    | .fault f => .fault f
    | .ok ((_, some err), p2) => .ok ((header.zero, some err), p2)
    | .ok ((hostname, none), p2) => .ok (({ timestamp := ts, hostname := hostname }, none), p2)

/-- `Parse` over `parseHeaderWith scan`: the returned error and the parser after
the call. -/
def ParseWith (scan : HostnameScan) (env : Env) (p : Parser) : Run (Option GoError × Parser) :=
  match parseHeaderWith scan env p with
  | .fault f => .fault f
  | .ok ((_, some err), p1) => .ok (some err, p1)
  | .ok ((hdr, none), p1) =>
    match p1.buff[p1.cursor]? with
    | none => .fault .indexOutOfRange
    | some b =>
      match parseMessage env (if b = 32 then { p1 with cursor := p1.cursor + 1 } else p1) with
      | .fault f => .fault f
      | .ok ((msg, err), p3) =>
        if err ≠ some .ErrEOL then
          .ok (err, p3)
        else
          .ok (none, { p3 with version := env.NoVersion, header := hdr, message := msg })

/-- The three fallible steps of `Parse` all succeed on `p`: the timestamp scan and
the hostname scan return no error, and the decoder accepts the normalized content. -/
def stepsSucceed (scan : HostnameScan) (env : Env) (p : Parser) : Prop :=
  ∃ ts p1 hn p2 b app pid p3 content p4 mako,
    parseTimestamp env p = .ok ((ts, none), p1)
    ∧ parseHostnameWith scan p1 = .ok ((hn, none), p2)
    ∧ p2.buff[p2.cursor]? = some b
    ∧ parseApp (afterHeader p2 b) = .ok ((app, pid, none), p3)
    ∧ parseContent p3 = .ok ((content, some .ErrEOL), p4)
    ∧ env.jsonDecode (preProcess content) = (mako, none)

/-- A hostname scan that fails on every input with the error `err`, the cursor
left where it was. -/
def failingScan (err : GoError) : HostnameScan :=
  fun _ cursor _ => .ok (([], some err), cursor)

/-! ## Package time: the calendar arithmetic behind `time.Date` -/

/-- `isLeap` of package `time`. -/
def isLeap (year : Int) : Bool :=
  decide (year % 4 = 0 ∧ (year % 100 ≠ 0 ∨ year % 400 = 0))

/-- The table `daysBefore` of package `time`: `daysBefore[m]` counts the days
of a non-leap year before month `m + 1`. -/
def daysBefore : List Int :=
  [0, 31, 59, 90, 120, 151, 181, 212, 243, 273, 304, 334, 365]

/-- `daysIn` of package `time`. -/
def daysIn (month year : Int) : Int :=
  if month = 2 ∧ isLeap year = true then 29
  else daysBefore.getD month.toNat 0 - daysBefore.getD (month - 1).toNat 0

/-- `norm` of package `time`: `hi, lo` with `lo` brought into `[0, base)`. -/
def norm (hi lo base : Int) : Int × Int :=
  let n := (-lo - 1) / base + 1
  let hi1 := if lo < 0 then hi - n else hi
  let lo1 := if lo < 0 then lo + n * base else lo
  if lo1 ≥ base then (hi1 + lo1 / base, lo1 - lo1 / base * base) else (hi1, lo1)

/-- `daysSinceEpoch` of package `time`, with January 1 of year 1 as day 0 (the
package counts from a year that is 1 modulo 400, in unsigned arithmetic; here
the division rounds down). -/
def daysSinceEpoch (year : Int) : Int :=
  146097 * ((year - 1) / 400) + 36524 * ((year - 1) % 400 / 100)
    + 1461 * ((year - 1) % 100 / 4) + 365 * ((year - 1) % 4)

/-- The first half of `absDate` of package `time`: the year of day `d` and the
day within that year, by 400-, 100-, 4- and 1-year cycles. -/
def absYday (d : Int) : Int × Int :=
  let n400 := d / 146097
  let d1 := d % 146097
  let n100 := d1 / 36524 - d1 / 36524 / 4
  let d2 := d1 - 36524 * n100
  let n4 := d2 / 1461
  let d3 := d2 % 1461
  let n1 := d3 / 365 - d3 / 365 / 4
  (400 * n400 + 100 * n100 + 4 * n4 + n1 + 1, d3 - 365 * n1)

/-- The second half of `absDate`: month and day of the month from the day
within the year, by the estimate that every month has 31 days. -/
def absMonthDay (leap : Bool) (yday : Int) : Int × Int :=
  if leap = true ∧ yday = 31 + 29 - 1 then (2, 29)
  else
    let day := if leap = true ∧ yday > 31 + 29 - 1 then yday - 1 else yday
    let month := day / 31
    let stop := daysBefore.getD (month + 1).toNat 0
    if day ≥ stop then (month + 2, day - stop + 1)
    else (month + 1, day - daysBefore.getD month.toNat 0 + 1)

/-- `time.Date` in UTC, read back through `Year()`, `Month()`, ... : the
arguments are normalized (month into year, then nanoseconds, seconds, minutes
and hours into days), the day is counted from the epoch, and the count is
turned back into a date. -/
def timeDate (year month day hour min sec nsec : Int) : Time :=
  let ym := norm year (month - 1) 12
  let sn := norm sec nsec 1000000000
  let ms := norm min sn.1 60
  let hm := norm hour ms.1 60
  let dh := norm day hm.1 24
  let d := daysSinceEpoch ym.1 + daysBefore.getD ym.2.toNat 0
    + (if isLeap ym.1 = true ∧ ym.2 + 1 ≥ 3 then 1 else 0) + (dh.1 - 1)
  let yy := absYday d
  let md := absMonthDay (isLeap yy.1) yy.2
  ⟨yy.1, md.1, md.2, dh.2, hm.2, ms.2, sn.2⟩

/-- The fields are those of a date and a time of day. -/
def Time.valid (t : Time) : Prop :=
  (1 ≤ t.month ∧ t.month ≤ 12) ∧ (1 ≤ t.day ∧ t.day ≤ daysIn t.month t.year)
    ∧ (0 ≤ t.hour ∧ t.hour < 24) ∧ (0 ≤ t.minute ∧ t.minute < 60)
    ∧ (0 ≤ t.second ∧ t.second < 60) ∧ (0 ≤ t.nanosecond ∧ t.nanosecond < 1000000000)

instance Time.decidableValid (t : Time) : Decidable t.valid := by
  unfold Time.valid; infer_instance

/-- The day within the year of day `j` of month `k + 1`, as `time.Date` counts it. -/
def ydayOf (leap : Bool) (k j : Nat) : Int :=
  daysBefore.getD k 0 + (if leap = true ∧ ((k : Int) + 1 ≥ 3) then 1 else 0) + ((j : Int) - 1)

/-- The length of month `k + 1`. -/
def monthLength (leap : Bool) (k : Nat) : Int :=
  if ((k : Int) + 1 = 2) ∧ leap = true then 29
  else daysBefore.getD (k + 1) 0 - daysBefore.getD k 0

/-! ## Package time: parsing under the two layouts -/

/-- `isDigit` of package `time`. -/
def isDigit (s : List Nat) (i : Nat) : Bool :=
  match s[i]? with
  | some c => decide (48 ≤ c ∧ c ≤ 57)
  | none => false

/-- `getnum` of package `time`: one or two digits, exactly two when `fixed`. -/
def getnum (s : List Nat) (fixed : Bool) : Option (Int × List Nat) :=
  if !isDigit s 0 then none
  else if !isDigit s 1 then
    if fixed then none else some (((s.getD 0 48 - 48 : Nat) : Int), s.drop 1)
  else some ((((s.getD 0 48 - 48) * 10 + (s.getD 1 48 - 48) : Nat) : Int), s.drop 2)

/-- `cutspace` of package `time`. -/
def cutspace (s : List Nat) : List Nat := s.dropWhile (fun c => c = 32)

/-- `skip` of package `time`: the literal text of the layout before the next
field.  A run of spaces in the layout stands for any run of spaces in the
value (or for its end); `inRun` tells that the run of the layout has begun. -/
def skip : List Nat → List Nat → Bool → Option (List Nat)
  | value, [], _ => some value
  | value, c :: lit, inRun =>
    if c = 32 then
      if inRun then skip value lit true
      else
        match value with
        | v :: _ => if v ≠ 32 then none else skip (cutspace value) lit true
        | [] => skip value lit true
    else
      match value with
      | v :: rest => if v = c then skip rest lit false else none
      | [] => none

/-- The table `shortMonthNames` of package `time`. -/
def shortMonthNames : List (List Nat) :=
  [bytesOf "Jan", bytesOf "Feb", bytesOf "Mar", bytesOf "Apr", bytesOf "May", bytesOf "Jun",
   bytesOf "Jul", bytesOf "Aug", bytesOf "Sep", bytesOf "Oct", bytesOf "Nov", bytesOf "Dec"]

/-- `match` of package `time`: equality of two texts of one length, ignoring
the case of letters. -/
def matchFold : List Nat → List Nat → Bool
  | c1 :: s1, c2 :: s2 =>
    (c1 = c2 ∨ ((c1 ||| 32) = (c2 ||| 32) ∧ 97 ≤ (c1 ||| 32) ∧ (c1 ||| 32) ≤ 122))
      && matchFold s1 s2
  | _, _ => true

/-- `lookup` of package `time` on a table of names: the index of the first
name the value starts with, and the rest of the value. -/
def lookupName : List (List Nat) → List Nat → Option (Nat × List Nat)
  | [], _ => none
  | v :: tab, val =>
    if val.length ≥ v.length ∧ matchFold (val.take v.length) v = true then
      some (0, val.drop v.length)
    else
      match lookupName tab val with
      | some (i, rest) => some (i + 1, rest)
      | none => none

/-- `atoi` of package `time` on a run of digits. -/
def atoi (ds : List Nat) : Nat := ds.foldl (fun acc c => acc * 10 + (c - 48)) 0

/-- The fractional second that the value may carry after the seconds although
the layout has none (`parseNanoseconds` of package `time`): a period or comma
and a run of digits, of which nine count. -/
def fraction (value : List Nat) : Int × List Nat :=
  match value with
  | c :: rest =>
    if (c = 46 ∨ c = 44) ∧ isDigit rest 0 = true then
      let ds := (rest.takeWhile (fun d => decide (48 ≤ d ∧ d ≤ 57))).take 9
      (((atoi ds * 10 ^ (9 - ds.length) : Nat) : Int),
        rest.dropWhile (fun d => decide (48 ≤ d ∧ d ≤ 57)))
    else (0, value)
  | [] => (0, value)

/-- `time.Parse` under a layout `Jan<sep>D 15:04:05`, where `D` is `02`
(`zeroDay`) or `2`: month name, day, hour, minute and second in turn, each
checked for its range, then the day against the length of the month in year 0,
the year of a value that has none. -/
def parseStamp (zeroDay : Bool) (sep value : List Nat) : Option Time :=
  match lookupName shortMonthNames value with
  | none => none
  | some (i, v1) =>
    match skip v1 sep false with
    | none => none
    | some v2 =>
      match getnum v2 zeroDay with
      | none => none
      | some (day, v3) =>
        match skip v3 [32] false with
        | none => none
        | some v4 =>
          match getnum v4 false with
          | none => none
          | some (hour, v5) =>
            if 24 ≤ hour then none
            else
              match skip v5 [58] false with
              | none => none
              | some v6 =>
                match getnum v6 true with
                | none => none
                | some (min, v7) =>
                  if 60 ≤ min then none
                  else
                    match skip v7 [58] false with
                    | none => none
                    | some v8 =>
                      match getnum v8 true with
                      | none => none
                      | some (sec, v9) =>
                        if 60 ≤ sec then none
                        else if (fraction v9).2 ≠ [] then none
                        else if day < 1 ∨ day > daysIn ((i : Int) + 1) 0 then none
                        else some (timeDate 0 ((i : Int) + 1) day hour min sec (fraction v9).1)

/-- `time.ParseInLocation(layout, value, time.UTC)` for the two layouts of
`parseTimestamp`; no other layout is given a meaning here. -/
def timeParseInLocation (layout value : List Nat) : Option Time :=
  if layout = bytesOf "Jan 02 15:04:05" then parseStamp true [32] value
  else if layout = bytesOf "Jan  2 15:04:05" then parseStamp false [32, 32] value
  else none

/-- The library with the calendar of package `time` in it: header times are
parsed by `timeParseInLocation`, `time.Date` is `timeDate`, the current year is
`year`; the rest is as in `sampleEnv`. -/
def calendarEnv (year : Int) : Env :=
  { sampleEnv with
    parseInLocation := timeParseInLocation, nowYear := year, date := timeDate }

/-- The law of `time.ParseInLocation` that the package relies on: a value
accepted under one of its layouts, which carry no year, is a valid date of
year 0 with a time of day. -/
def parsesYearless (env : Env) : Prop :=
  ∀ layout v t, layout ∈ tsFmts → env.parseInLocation layout v = some t →
    t.year = 0 ∧ t.valid

/-! ## Text before a member -/

/-- The bytes of `a` after its last quote (all of `a` when it has none). -/
def afterLastQuote (a : List Nat) : List Nat :=
  (a.reverse.takeWhile (fun c => decide (c ≠ 34))).reverse

/-- The bytes of `a` up to its last quote, the quote included. -/
def uptoLastQuote (a : List Nat) : List Nat :=
  a.take (a.length - (afterLastQuote a).length)

/-- The text `a` leaves a member that follows it alone: `a` does not end with
an old string of the replacer that lacks only its closing quote (`"@timestamp`,
`"@version`), nor with `version":` (the pattern of the second pass would take the
key of the member for its value), nor with `version":"` and a non-empty run
without a quote (the pattern would take the opening quote of the member for its
closing one). -/
def clearBefore (a : List Nat) : Prop :=
  ¬ bytesOf "\"@timestamp" <:+ a ∧ ¬ bytesOf "\"@version" <:+ a
    ∧ ¬ bytesOf "version\":" <:+ a
    ∧ ¬ (afterLastQuote a ≠ [] ∧ bytesOf "version\":\"" <:+ uptoLastQuote a)

instance clearBefore.decidable (a : List Nat) : Decidable (clearBefore a) := by
  unfold clearBefore; infer_instance

/-- A non-empty start of `version":"v`, for a `v` without a quote. -/
def versionTail (s : List Nat) : Prop :=
  s ≠ [] ∧ ∃ v, 34 ∉ v ∧ s <+: bytesOf "version\":\"" ++ v

/-! ## The payload as a list of members -/

/-- A byte that stands for itself in a JSON string: printable ASCII other than
the quote and the backslash. -/
def plainByte (b : Nat) : Prop := 32 ≤ b ∧ b ≤ 126 ∧ b ≠ 34 ∧ b ≠ 92

instance plainByte.decidable (b : Nat) : Decidable (plainByte b) := by
  unfold plainByte; infer_instance

/-- A decimal digit. -/
def digitByte (b : Nat) : Prop := 48 ≤ b ∧ b ≤ 57

instance digitByte.decidable (b : Nat) : Decidable (digitByte b) := by
  unfold digitByte; infer_instance

/-- A member of the payload object, of the kinds that the example of the spec
shows: the timestamp and the version under their legacy (`@timestamp`,
`@version`) or canonical name, the level as a numeric code or as a name, the
message and the logger name.  The version is a string or a number. -/
inductive Member where
  | timestamp (legacy : Bool) (s : List Nat)
  | versionText (legacy : Bool) (s : List Nat)
  | versionNumber (legacy : Bool) (d : List Nat)
  | levelCode (code : List Nat)
  | levelName (s : List Nat)
  | message (s : List Nat)
  | loggerName (s : List Nat)
  deriving DecidableEq, Repr

/-- The text `"s"`. -/
def quoted (s : List Nat) : List Nat := 34 :: s ++ [34]

/-- The text of a member, `"name":value`. -/
def Member.render : Member → List Nat
  | .timestamp true s => bytesOf "\"@timestamp\":" ++ quoted s
  | .timestamp false s => bytesOf "\"timestamp\":" ++ quoted s
  | .versionText true s => bytesOf "\"@version\":" ++ quoted s
  | .versionText false s => bytesOf "\"version\":" ++ quoted s
  | .versionNumber true d => bytesOf "\"@version\":" ++ d
  | .versionNumber false d => bytesOf "\"version\":" ++ d
  | .levelCode code => bytesOf "\"level\":" ++ code
  | .levelName s => bytesOf "\"level\":" ++ quoted s
  | .message s => bytesOf "\"message\":" ++ quoted s
  | .loggerName s => bytesOf "\"loggerName\":" ++ quoted s

/-- The members with a comma between them and the closing brace. -/
def renderFrom : List Member → List Nat
  | [] => [125]
  | [m] => m.render ++ [125]
  | m :: m' :: ms => m.render ++ 44 :: renderFrom (m' :: ms)

/-- The text of the object with the members `ms`, without white space. -/
def renderObject (ms : List Member) : List Nat := 123 :: renderFrom ms

/-- The symbolic name that the severity table gives for a numeric code. -/
def nameOf (code : List Nat) : List Nat := (severityTable.lookup code).getD []

/-- The member as the normalization pass is meant to leave it: canonical name,
the numeric code of the table as its name, a version string as the number 0. -/
def Member.normalize : Member → Member
  | .timestamp _ s => .timestamp false s
  | .versionText _ _ => .versionNumber false (bytesOf "0")
  | .versionNumber _ d => .versionNumber false d
  | .levelCode code => .levelName (nameOf code)
  | .levelName s => .levelName s
  | .message s => .message s
  | .loggerName s => .loggerName s

/-- A string value that the decoder reads as it is written and that is not
itself an old string of the replacer without its quotes. -/
def plainValue (s : List Nat) : Prop :=
  (∀ b ∈ s, plainByte b) ∧ s ≠ bytesOf "@timestamp" ∧ s ≠ bytesOf "@version"

instance plainValue.decidable (s : List Nat) : Decidable (plainValue s) := by
  unfold plainValue; infer_instance

/-- A JSON number that fits the schema version: digits, no leading zero, at
most nine of them. -/
def plainNumber (d : List Nat) : Prop :=
  d ≠ [] ∧ (∀ b ∈ d, digitByte b) ∧ d.length ≤ 9 ∧ (d.head? = some 48 → d = [48])

instance plainNumber.decidable (d : List Nat) : Decidable (plainNumber d) := by
  unfold plainNumber; infer_instance

/-- The member is one that the schema of the example accepts after the
normalization: plain strings, a non-empty version string, a version number, a
numeric code of the severity table. -/
def Member.wellFormed : Member → Prop
  | .timestamp _ s => plainValue s
  | .versionText _ s => plainValue s ∧ s ≠ []
  | .versionNumber _ d => plainNumber d
  | .levelCode code => ∃ name, (code, name) ∈ severityTable
  | .levelName s => plainValue s
  | .message s => plainValue s
  | .loggerName s => plainValue s

/-- The member gives the level, as a code or as a name. -/
def Member.isLevel : Member → Bool
  | .levelCode _ => true
  | .levelName _ => true
  | _ => false

/-- The value of the last timestamp member, the empty string when there is none. -/
def lastTimestamp (ms : List Member) : List Nat :=
  ms.foldl (fun acc m => match m with | .timestamp _ s => s | _ => acc) []

/-- The value of the last level member that is a name, the empty string when
there is none. -/
def lastLevel (ms : List Member) : List Nat :=
  ms.foldl (fun acc m => match m with | .levelName s => s | _ => acc) []

/-- The value of the last message member, the empty string when there is none. -/
def lastMessage (ms : List Member) : List Nat :=
  ms.foldl (fun acc m => match m with | .message s => s | _ => acc) []

/-- The value of the last logger name member, the empty string when there is none. -/
def lastLoggerName (ms : List Member) : List Nat :=
  ms.foldl (fun acc m => match m with | .loggerName s => s | _ => acc) []

/-- Modelled from the spec: what the package relies on when it hands the
normalized payload to `json.NewDecoder(r).Decode(&msg.mako)`.  The type
`mako.JSON` is not among the sources; the example of the spec names its members
`timestamp`, `version`, `level`, `message` and `loggerName`.  The law: an object
of well-formed members in normal form is accepted, and the strings of the
record are the values of the last members of their names.  Nothing is said of
the numeric level value. -/
def decodesMembers (env : Env) : Prop :=
  ∀ ms : List Member, (∀ m ∈ ms, m.wellFormed ∧ m.normalize = m) →
    ∃ mako, env.jsonDecode (renderObject ms) = (mako, none)
      ∧ mako.Timestamp = lastTimestamp ms ∧ mako.Level = lastLevel ms
      ∧ mako.Message = lastMessage ms ∧ mako.LoggerName = lastLoggerName ms

/-- The states of the decoder model: where in the object the reader stands. -/
inductive DecodeState where
  | start
  | first
  | key
  | inKey (name : List Nat)
  | colon (name : List Nat)
  | value (name : List Nat)
  | inString (name s : List Nat)
  | inNumber (name d : List Nat)
  | next
  | done
  | failed
  deriving DecidableEq, Repr

/-- A string value stored under a member name: the four string members of the
example take it, `version` refuses it (a string for a number); a name that the
record does not have is passed over. -/
def storeString (m : MakoJSON) (name s : List Nat) : Option MakoJSON :=
  if name = bytesOf "timestamp" then some { m with Timestamp := s }
  else if name = bytesOf "level" then some { m with Level := s }
  else if name = bytesOf "message" then some { m with Message := s }
  else if name = bytesOf "loggerName" then some { m with LoggerName := s }
  else if name = bytesOf "version" then none
  else some m

/-- A number stored under a member name: `version` takes it, the four string
members refuse it. -/
def storeNumber (m : MakoJSON) (name d : List Nat) : Option MakoJSON :=
  if name = bytesOf "version" then some { m with Version := (atoi d : Nat) }
  else if name = bytesOf "timestamp" ∨ name = bytesOf "level" ∨ name = bytesOf "message"
      ∨ name = bytesOf "loggerName" then none
  else some m

/-- One byte of the decoder model. -/
def decodeStep (st : DecodeState × MakoJSON) (b : Nat) : DecodeState × MakoJSON :=
  match st.1 with
  | .start => if b = 123 then (.first, st.2) else (.failed, st.2)
  | .first =>
    if b = 34 then (.inKey [], st.2) else if b = 125 then (.done, st.2) else (.failed, st.2)
  | .key => if b = 34 then (.inKey [], st.2) else (.failed, st.2)
  | .inKey name =>
    if b = 34 then (.colon name, st.2)
    else if plainByte b then (.inKey (name ++ [b]), st.2)
    else (.failed, st.2)
  | .colon name => if b = 58 then (.value name, st.2) else (.failed, st.2)
  | .value name =>
    if b = 34 then (.inString name [], st.2)
    else if digitByte b then (.inNumber name [b], st.2)
    else (.failed, st.2)
  | .inString name s =>
    if b = 34 then
      match storeString st.2 name s with
      | some m => (.next, m)
      | none => (.failed, st.2)
    else if plainByte b then (.inString name (s ++ [b]), st.2)
    else (.failed, st.2)
  | .inNumber name d =>
    if digitByte b then
      if d = [48] then (.failed, st.2) else (.inNumber name (d ++ [b]), st.2)
    else if b = 44 ∨ b = 125 then
      match storeNumber st.2 name d with
      | some m => (if b = 44 then .key else .done, m)
      | none => (.failed, st.2)
    else (.failed, st.2)
  | .next =>
    if b = 44 then (.key, st.2) else if b = 125 then (.done, st.2) else (.failed, st.2)
  | .done => (.failed, st.2)
  | .failed => (.failed, st.2)

/-- Modelled from the spec: `json.NewDecoder(r).Decode(&m)` on a zero `m` of
type `mako.JSON`, for a record whose members are named as in the example of the
spec.  The model reads one object of string and number members written without
white space, nesting or escapes, byte by byte; a later member of a name
overwrites an earlier one.  Any other text is answered with an error.  The
fields that the example does not name, the numeric level value among them,
keep their zero values: the sources do not say how `mako.JSON` fills them, and
the law `decodesMembers` leaves them open. -/
def decodeMako (text : List Nat) : MakoJSON × Option Nat :=
  match text.foldl decodeStep (.start, MakoJSON.zero) with
  | (.done, m) => (m, none)
  | (_, m) => (m, some 1)

/-- The calendar library with the decoder model in it. -/
def makoEnv (year : Int) : Env :=
  { calendarEnv year with jsonDecode := decodeMako }

/-- A line `hdr host app[pid]: payload`. -/
def makoLine (hdr host app pid payload : List Nat) : List Nat :=
  hdr ++ 32 :: host ++ 32 :: app ++ 91 :: pid ++ bytesOf "]: " ++ payload

/-- The members of the payload of `sampleLine`. -/
def sampleMembers (code : List Nat) : List Member :=
  [ .timestamp true (bytesOf "2003-10-11T22:14:15Z"), .versionText true (bytesOf "1"),
    .levelCode code, .message (bytesOf "m"), .loggerName (bytesOf "L") ]


/-- The record after the decoder model has stored a member in normal form. -/
def Member.store (r : MakoJSON) : Member → MakoJSON
  | .timestamp _ s => { r with Timestamp := s }
  | .versionText _ _ => r
  | .versionNumber _ d => { r with Version := (atoi d : Nat) }
  | .levelCode _ => r
  | .levelName s => { r with Level := s }
  | .message s => { r with Message := s }
  | .loggerName s => { r with LoggerName := s }

/-! # Theorems -/

/-! ## The step budgets are never used up -/

theorem slice_ne_outOfFuel (buff : List Nat) (lo hi : Nat) :
    slice buff lo hi ≠ .fault .outOfFuel := by
  unfold slice
  split <;> simp

theorem parseAppLoop_fuel (buff : List Nat) (fuel : Nat) :
    ∀ s : AppScan, buff.length - s.cursor < fuel →
      parseAppLoop buff fuel s ≠ .fault .outOfFuel := by
  induction fuel with
  | zero => intro s h; omega
  | succ fuel ih =>
    intro s h
    rw [parseAppLoop]
    cases hget : buff[s.cursor]? with
    | none => simp
    | some b =>
      have hlt : s.cursor < buff.length := by
        by_contra hge
        rw [List.getElem?_eq_none (by omega)] at hget
        exact absurd hget (by simp)
      simp only []
      split
      · cases hs : slice buff s.origin s.cursor with
        | fault f =>
          have hf : f ≠ .outOfFuel := fun h =>
            slice_ne_outOfFuel buff s.origin s.cursor (by rw [hs, h])
          simp [hf]
        | ok app => exact ih _ (by simp only []; omega)
      · split
        · split
          · cases hs : slice buff s.origin s.cursor with
            | fault f =>
              have hf : f ≠ .outOfFuel := fun h =>
                slice_ne_outOfFuel buff s.origin s.cursor (by rw [hs, h])
              simp [hf]
            | ok app => simp
          · split
            · cases hs : slice buff (s.origin + 1) s.cursor with
              | fault f =>
                have hf : f ≠ .outOfFuel := fun h =>
                  slice_ne_outOfFuel buff (s.origin + 1) s.cursor (by rw [hs, h])
                simp [hf]
              | ok pid => simp
            · simp
        · split
          · split
            · cases hs : slice buff s.origin s.cursor with
              | fault f =>
                have hf : f ≠ .outOfFuel := fun h =>
                  slice_ne_outOfFuel buff s.origin s.cursor (by rw [hs, h])
                simp [hf]
              | ok app => simp
            · split
              · cases hs : slice buff s.origin s.cursor with
                | fault f =>
                  have hf : f ≠ .outOfFuel := fun h =>
                    slice_ne_outOfFuel buff s.origin s.cursor (by rw [hs, h])
                  simp [hf]
                | ok pid => simp
              · simp
          · exact ih _ (by simp only []; omega)

theorem skipSpace_ne_outOfFuel (buff : List Nat) (l c : Nat) :
    skipSpace buff l c ≠ .fault .outOfFuel := by
  unfold skipSpace
  split
  · split <;> simp
  · simp

theorem parseApp_ne_outOfFuel (p : Parser) : parseApp p ≠ .fault .outOfFuel := by
  unfold parseApp
  have h := parseAppLoop_fuel p.buff (p.buff.length - p.cursor + 1)
    ⟨p.cursor, p.cursor, [], [], false, false⟩ (by simp only []; omega)
  cases hl : parseAppLoop p.buff (p.buff.length - p.cursor + 1)
      ⟨p.cursor, p.cursor, [], [], false, false⟩ with
  | fault f =>
    rw [hl] at h
    simpa using h
  | ok s =>
    simp only []
    cases hs : skipSpace p.buff p.l s.cursor with
    | fault f =>
      have := skipSpace_ne_outOfFuel p.buff p.l s.cursor
      rw [hs] at this
      simpa using this
    | ok c => simp

theorem hostnameEnd_fuel (buff : List Nat) (l fuel : Nat) :
    ∀ pos, l ≤ pos + fuel → hostnameEnd buff l fuel pos ≠ .fault .outOfFuel := by
  induction fuel with
  | zero =>
    intro pos h
    have : ¬ pos < l := by omega
    simp [hostnameEnd, this]
  | succ fuel ih =>
    intro pos h
    rw [hostnameEnd]
    split
    · split
      · simp
      · split
        · simp
        · exact ih _ (by omega)
    · simp

theorem ParseHostname_ne_outOfFuel (buff : List Nat) (cursor l : Nat) :
    ParseHostname buff cursor l ≠ .fault .outOfFuel := by
  unfold ParseHostname
  cases he : hostnameEnd buff l (l - cursor) cursor with
  | fault f =>
    have hf : f ≠ .outOfFuel := fun h =>
      hostnameEnd_fuel buff l (l - cursor) cursor (by omega) (by rw [he, h])
    simp [hf]
  | ok stop =>
    simp only []
    cases hs : slice buff cursor stop with
    | fault f =>
      have hf : f ≠ .outOfFuel := fun h => slice_ne_outOfFuel buff cursor stop (by rw [hs, h])
      simp [hf]
    | ok hostname => simp

/-! ## Facts about indexing and slicing -/

theorem getElem?_mid {buff : List Nat} {c : Nat} (a r : List Nat) (b : Nat)
    (hbuf : buff = a ++ b :: r) (hc : c = a.length) : buff[c]? = some b := by
  subst hbuf hc
  rw [List.getElem?_append_right (Nat.le_refl _)]
  simp

theorem slice_mid {buff : List Nat} {lo hi : Nat} (a t r : List Nat)
    (hbuf : buff = a ++ t ++ r) (hlo : lo = a.length) (hhi : hi = a.length + t.length) :
    slice buff lo hi = .ok t := by
  subst hbuf hlo hhi
  simp [slice, List.take_append_eq_append_take, List.drop_append_eq_append_drop]

theorem skipSpace_eq (buff : List Nat) (c : Nat) :
    skipSpace buff buff.length c = .ok (c + if buff[c]? = some 32 then 1 else 0) := by
  unfold skipSpace
  by_cases h : c < buff.length
  · simp only [h, if_true, List.getElem?_eq_getElem]
    by_cases hb : buff[c] = 32 <;> simp [hb]
  · have : buff[c]? = none := List.getElem?_eq_none (by omega)
    simp [h, this]

theorem parseAppLoop_plain (buff : List Nat) (xs : List Nat) :
    ∀ (a r : List Nat) (k : Nat) (s : AppScan), buff = a ++ xs ++ r → (∀ b ∈ xs, plain b) →
      s.cursor = a.length →
      parseAppLoop buff (xs.length + k) s
        = parseAppLoop buff k { s with cursor := s.cursor + xs.length } := by
  induction xs with
  | nil => intro a r k s _ _ _; simp
  | cons x xs ih =>
    intro a r k s hbuf hxs hs
    have hx : plain x := hxs x (List.mem_cons_self _ _)
    obtain ⟨h1, h2, h3, h4⟩ := hx
    have hget : buff[s.cursor]? = some x := getElem?_mid a (xs ++ r) x (by simp [hbuf]) hs
    have hfuel : (x :: xs).length + k = (xs.length + k) + 1 := by simp; omega
    rw [hfuel, parseAppLoop]
    simp only [hget, h1, h2, h3, h4, if_false, or_self]
    have := ih (a ++ [x]) r k { s with cursor := s.cursor + 1 } (by simp [hbuf])
      (fun b hb => hxs b (List.mem_cons_of_mem _ hb)) (by simp [hs])
    rw [this]
    simp [Nat.add_assoc, Nat.add_comm 1]

theorem parseAppLoop_bracketed (buff pre tag pid rest : List Nat) (s k : Nat)
    (hbuf : buff = pre ++ tag ++ [91] ++ pid ++ [93] ++ [s] ++ rest)
    (htag : ∀ b ∈ tag, plain b) (hpid : ∀ b ∈ pid, plain b) :
    parseAppLoop buff (tag.length + ((pid.length + (k + 1)) + 1))
        ⟨pre.length, pre.length, [], [], false, false⟩
      = .ok ⟨pre.length + tag.length + 1 + pid.length + 2, pre.length + tag.length,
          tag, pid, true, true⟩ := by
  rw [parseAppLoop_plain buff tag pre ([91] ++ pid ++ [93] ++ [s] ++ rest) _ _
    (by simp [hbuf]) htag rfl]
  rw [parseAppLoop]
  have hget1 : buff[pre.length + tag.length]? = some 91 :=
    getElem?_mid (pre ++ tag) (pid ++ [93] ++ [s] ++ rest) 91 (by simp [hbuf]) (by simp)
  have hsl1 : slice buff pre.length (pre.length + tag.length) = .ok tag :=
    slice_mid pre tag ([91] ++ pid ++ [93] ++ [s] ++ rest) (by simp [hbuf]) rfl rfl
  simp only [hget1, hsl1, if_true]
  rw [parseAppLoop_plain buff pid (pre ++ tag ++ [91]) ([93] ++ [s] ++ rest) _ _
    (by simp [hbuf]) hpid (by simp; omega)]
  rw [parseAppLoop]
  have hget2 : buff[pre.length + tag.length + 1 + pid.length]? = some 93 :=
    getElem?_mid (pre ++ tag ++ [91] ++ pid) ([s] ++ rest) 93 (by simp [hbuf]) (by simp; omega)
  have hsl2 : slice buff (pre.length + tag.length + 1)
      (pre.length + tag.length + 1 + pid.length) = .ok pid :=
    slice_mid (pre ++ tag ++ [91]) pid ([93] ++ [s] ++ rest) (by simp [hbuf]) (by simp; omega) (by simp; omega)
  simp only [hget2, hsl2]
  simp

theorem parseAppLoop_plainTag (buff pre tag rest : List Nat) (d k : Nat)
    (hbuf : buff = pre ++ tag ++ [d] ++ rest)
    (htag : ∀ b ∈ tag, plain b) (hd : d = 58 ∨ d = 32) :
    parseAppLoop buff (tag.length + (k + 1))
        ⟨pre.length, pre.length, [], [], false, false⟩
      = .ok ⟨pre.length + tag.length + 1, pre.length, tag, [], true, false⟩ := by
  rw [parseAppLoop_plain buff tag pre ([d] ++ rest) _ _ (by simp [hbuf]) htag rfl]
  rw [parseAppLoop]
  have hget1 : buff[pre.length + tag.length]? = some d :=
    getElem?_mid (pre ++ tag) rest d (by simp [hbuf]) (by simp)
  have hsl1 : slice buff pre.length (pre.length + tag.length) = .ok tag :=
    slice_mid pre tag ([d] ++ rest) (by simp [hbuf]) rfl rfl
  have h91 : d ≠ 91 := by rcases hd with h | h <;> simp [h]
  have h93 : d ≠ 93 := by rcases hd with h | h <;> simp [h]
  simp only [hget1, hsl1, h91, h93, hd, if_true, if_false]
  simp

/-! ## parseApp on well-formed tags -/

/-- C1: on a buffer that reads `tag[pid]s...` from the cursor, with `tag` and
`pid` free of `[`, `]`, `:` and space, `parseApp` returns `tag`, `pid` and a nil
error, and the cursor ends just past the byte `s` after the closing bracket,
one further when the byte there exists and is a space. -/
theorem parseApp_bracketed (p : Parser) (pre tag pid rest : List Nat) (s : Nat)
    (hl : p.l = p.buff.length)
    (hbuf : p.buff = pre ++ tag ++ [91] ++ pid ++ [93] ++ [s] ++ rest)
    (hc : p.cursor = pre.length)
    (htag : ∀ b ∈ tag, b ≠ 91 ∧ b ≠ 93 ∧ b ≠ 58 ∧ b ≠ 32)
    (hpid : ∀ b ∈ pid, b ≠ 91 ∧ b ≠ 93 ∧ b ≠ 58 ∧ b ≠ 32) :
    parseApp p = .ok ((tag, pid, none),
      { p with cursor := p.cursor + tag.length + pid.length + 3
          + if p.buff[p.cursor + tag.length + pid.length + 3]? = some 32 then 1 else 0 }) := by
  have hfuel : p.buff.length - p.cursor + 1
      = tag.length + ((pid.length + ((rest.length + 2) + 1)) + 1) := by
    have hlen := congrArg List.length hbuf
    simp only [List.length_append, List.length_singleton] at hlen
    omega
  have hloop := parseAppLoop_bracketed p.buff pre tag pid rest s (rest.length + 2) hbuf htag hpid
  have hcur : pre.length + tag.length + 1 + pid.length + 2
      = p.cursor + tag.length + pid.length + 3 := by omega
  unfold parseApp
  rw [hfuel, hc, hloop, hl]
  simp only [skipSpace_eq, hcur, hc]

/-- C1, at the line `tag[pid]: content`: app `tag`, pid `pid`, cursor 10. -/
theorem parseApp_bracketed_witness :
    parseApp (NewParser (bytesOf "tag[pid]: content"))
      = .ok ((bytesOf "tag", bytesOf "pid", none),
          { NewParser (bytesOf "tag[pid]: content") with cursor := 10 }) :=
  (parseApp_bracketed (NewParser (bytesOf "tag[pid]: content")) [] (bytesOf "tag")
    (bytesOf "pid") (bytesOf " content") 58 rfl (by decide) rfl (by decide) (by decide)).trans
    (by decide)

/-- C2: on a buffer that reads `tag` and then `:` or a space from the cursor,
with `tag` free of `[`, `]`, `:` and space, `parseApp` returns `tag`, an empty
pid and a nil error, and the cursor ends one past the delimiter, one further
when the byte there exists and is a space. -/
theorem parseApp_plainTag (p : Parser) (pre tag rest : List Nat) (d : Nat)
    (hl : p.l = p.buff.length)
    (hbuf : p.buff = pre ++ tag ++ [d] ++ rest)
    (hc : p.cursor = pre.length)
    (htag : ∀ b ∈ tag, b ≠ 91 ∧ b ≠ 93 ∧ b ≠ 58 ∧ b ≠ 32)
    (hd : d = 58 ∨ d = 32) :
    parseApp p = .ok ((tag, [], none),
      { p with cursor := p.cursor + tag.length + 1
          + if p.buff[p.cursor + tag.length + 1]? = some 32 then 1 else 0 }) := by
  have hfuel : p.buff.length - p.cursor + 1 = tag.length + ((rest.length + 1) + 1) := by
    have hlen := congrArg List.length hbuf
    simp only [List.length_append, List.length_singleton] at hlen
    omega
  have hloop := parseAppLoop_plainTag p.buff pre tag rest d (rest.length + 1) hbuf htag hd
  unfold parseApp
  rw [hfuel, hc, hloop, hl]
  simp only [skipSpace_eq, hc]

/-- C2, at the line `su: 'su root' failed`: app `su`, no pid, cursor 4. -/
theorem parseApp_plainTag_witness :
    parseApp (NewParser (bytesOf "su: 'su root' failed"))
      = .ok ((bytesOf "su", [], none),
          { NewParser (bytesOf "su: 'su root' failed") with cursor := 4 }) :=
  (parseApp_plainTag (NewParser (bytesOf "su: 'su root' failed")) [] (bytesOf "su")
    (bytesOf " 'su root' failed") 58 rfl (by decide) rfl (by decide) (by decide)).trans
    (by decide)

/-! ## parseContent -/

theorem trimLeftByte_spec (c : Nat) (s : List Nat) :
    ∃ a, (∀ x ∈ a, x = c) ∧ s = a ++ trimLeftByte c s ∧ (trimLeftByte c s).head? ≠ some c := by
  induction s with
  | nil => exact ⟨[], by simp, by simp [trimLeftByte], by simp [trimLeftByte]⟩
  | cons b bs ih =>
    by_cases hb : b = c
    · obtain ⟨a, ha, hs, hh⟩ := ih
      refine ⟨b :: a, ?_, ?_, ?_⟩
      · intro x hx
        rcases List.mem_cons.mp hx with h | h
        · exact h.trans hb
        · exact ha x h
      · simp only [trimLeftByte, hb, if_true, List.cons_append]
        rw [← hb] at hs ⊢
        exact congrArg _ (by simpa [hb] using hs)
      · simpa [trimLeftByte, hb] using hh
    · refine ⟨[], by simp, by simp [trimLeftByte, hb], ?_⟩
      simp [trimLeftByte, hb]

theorem trimRightByte_spec (c : Nat) (s : List Nat) :
    ∃ b, (∀ x ∈ b, x = c) ∧ s = trimRightByte c s ++ b
      ∧ (trimRightByte c s).getLast? ≠ some c := by
  obtain ⟨a, ha, hs, hh⟩ := trimLeftByte_spec c s.reverse
  refine ⟨a.reverse, ?_, ?_, ?_⟩
  · intro x hx; exact ha x (List.mem_reverse.mp hx)
  · have := congrArg List.reverse hs
    simpa [trimRightByte] using this
  · simpa [trimRightByte, List.getLast?_reverse] using hh

theorem trimSpace_spec (s : List Nat) :
    ∃ a b, (∀ x ∈ a, x = 32) ∧ (∀ x ∈ b, x = 32) ∧ s = a ++ trimSpace s ++ b
      ∧ (trimSpace s).head? ≠ some 32 ∧ (trimSpace s).getLast? ≠ some 32 := by
  obtain ⟨b, hb, hs, hlast⟩ := trimRightByte_spec 32 s
  obtain ⟨a, ha, hr, hhead⟩ := trimLeftByte_spec 32 (trimRightByte 32 s)
  refine ⟨a, b, ha, hb, ?_, hhead, ?_⟩
  · unfold trimSpace
    rw [← hr]; exact hs
  · unfold trimSpace
    intro h
    apply hlast
    rw [hr]
    cases ht : trimLeftByte 32 (trimRightByte 32 s) with
    | nil => simp [ht] at h
    | cons y ys =>
      rw [ht] at h
      rw [List.getLast?_append_of_ne_nil _ (by simp)]
      exact h

/-- C3: `parseContent` always answers with `ErrEOL`.  With the cursor beyond the
buffer the content is empty and the parser is unchanged; otherwise the content is
the rest of the buffer without its leading and trailing spaces (it is what
remains between a run of spaces in front and a run of spaces behind, and neither
starts nor ends with a space) and the cursor moves on by the length of the content. -/
theorem parseContent_spec (p : Parser) (hl : p.l = p.buff.length) :
    (p.buff.length < p.cursor → parseContent p = .ok (([], some .ErrEOL), p)) ∧
    (p.cursor ≤ p.buff.length →
      ∃ content a b,
        parseContent p
          = .ok ((content, some .ErrEOL), { p with cursor := p.cursor + content.length })
        ∧ (∀ x ∈ a, x = 32) ∧ (∀ x ∈ b, x = 32)
        ∧ p.buff.drop p.cursor = a ++ content ++ b
        ∧ content.head? ≠ some 32 ∧ content.getLast? ≠ some 32) := by
  constructor
  · intro h
    simp [parseContent, hl, h]
  · intro h
    obtain ⟨a, b, ha, hb, hs, hhead, hlast⟩ := trimSpace_spec (p.buff.drop p.cursor)
    refine ⟨trimSpace (p.buff.drop p.cursor), a, b, ?_, ha, hb, hs, hhead, hlast⟩
    have hsl : slice p.buff p.cursor p.buff.length = .ok (p.buff.drop p.cursor) := by
      simp [slice, h]
    simp [parseContent, hl, Nat.not_lt.mpr h, hsl]

/-- C3, at the buffer `ab  cd e  ` with the cursor at 2: content `cd e`, cursor 6. -/
theorem parseContent_spec_witness :
    parseContent { NewParser (bytesOf "ab  cd e  ") with cursor := 2 }
      = .ok ((bytesOf "cd e", some .ErrEOL),
          { NewParser (bytesOf "ab  cd e  ") with cursor := 6 })
    ∧ parseContent { NewParser (bytesOf "ab") with cursor := 3 }
      = .ok (([], some .ErrEOL), { NewParser (bytesOf "ab") with cursor := 3 }) :=
  ⟨by decide,
   (parseContent_spec { NewParser (bytesOf "ab") with cursor := 3 } rfl).1 (by decide)⟩

/-! ## The two passes of preProcess -/

theorem hasPrefix_iff (s k : List Nat) : hasPrefix s k = true ↔ ∃ b, s = k ++ b := by
  induction k generalizing s with
  | nil => cases s <;> simp [hasPrefix]
  | cons c k ih =>
    cases s with
    | nil => simp [hasPrefix]
    | cons a s =>
      by_cases h : a = c
      · simp [hasPrefix, h, ih]
      · simp [hasPrefix, h]

theorem hasPrefix_append (k b : List Nat) : hasPrefix (k ++ b) k = true :=
  (hasPrefix_iff _ _).mpr ⟨b, rfl⟩

theorem lookup_eq_none_iff (s : List Nat) :
    lookup s = none ↔ ∀ kv ∈ replacerPairs, ¬ ∃ b, s = kv.1 ++ b := by
  unfold lookup
  rw [List.find?_eq_none]
  constructor
  · intro h kv hkv hb
    exact h kv hkv ((hasPrefix_iff _ _).mpr hb)
  · intro h kv hkv hp
    exact h kv hkv ((hasPrefix_iff _ _).mp hp)

theorem lookup_eq_some (s : List Nat) (kv : List Nat × List Nat) (h : lookup s = some kv) :
    kv ∈ replacerPairs ∧ ∃ b, s = kv.1 ++ b := by
  unfold lookup at h
  exact ⟨List.mem_of_find?_eq_some h, (hasPrefix_iff _ _).mp (by simpa using List.find?_some h)⟩

theorem replaceFrom_skip (n : Nat) (s : List Nat) :
    replaceFrom n s = replaceFrom 0 (s.drop n) := by
  induction n generalizing s with
  | zero => simp
  | succ n ih =>
    cases s with
    | nil => simp [replaceFrom]
    | cons c cs => simp [replaceFrom, ih cs]

theorem Replace_hit (k v s : List Nat) (hk : k ≠ []) (h : lookup (k ++ s) = some (k, v)) :
    Replace (k ++ s) = v ++ Replace s := by
  cases k with
  | nil => exact absurd rfl hk
  | cons c k =>
    unfold Replace
    have h' : lookup (c :: (k ++ s)) = some (c :: k, v) := by simpa using h
    rw [List.cons_append, replaceFrom, h']
    simp [replaceFrom_skip]

theorem Replace_pass (pre s : List Nat)
    (h : ∀ a r, pre = a ++ r → r ≠ [] → lookup (r ++ s) = none) :
    Replace (pre ++ s) = pre ++ Replace s := by
  induction pre with
  | nil => simp
  | cons c pre ih =>
    have h0 : lookup (c :: (pre ++ s)) = none := by
      simpa using h [] (c :: pre) rfl (by simp)
    have ih' := ih (fun a r ha hr => h (c :: a) r (by simp [ha]) hr)
    unfold Replace at ih' ⊢
    rw [List.cons_append, replaceFrom, h0]
    simp [ih']

theorem Replace_id (s : List Nat) (h : ∀ a r, s = a ++ r → lookup r = none) :
    Replace s = s := by
  have := Replace_pass s [] (fun a r ha _ => by simpa using h a r ha)
  simpa [Replace, replaceFrom] using this

theorem replaceAllFrom_skip (n : Nat) (s : List Nat) :
    replaceAllFrom n s = replaceAllFrom 0 (s.drop n) := by
  induction n generalizing s with
  | zero => simp
  | succ n ih =>
    cases s with
    | nil => simp [replaceAllFrom]
    | cons c cs => simp [replaceAllFrom, ih cs]

theorem ReplaceAllString_pass (pre s : List Nat)
    (h : ∀ a r, pre = a ++ r → r ≠ [] → matchVersionStrung (r ++ s) = none) :
    ReplaceAllString (pre ++ s) = pre ++ ReplaceAllString s := by
  induction pre with
  | nil => simp
  | cons c pre ih =>
    have h0 : matchVersionStrung (c :: (pre ++ s)) = none := by
      simpa using h [] (c :: pre) rfl (by simp)
    have ih' := ih (fun a r ha hr => h (c :: a) r (by simp [ha]) hr)
    unfold ReplaceAllString at ih' ⊢
    rw [List.cons_append, replaceAllFrom, h0]
    simp [ih']

theorem ReplaceAllString_id (s : List Nat)
    (h : ∀ a r, s = a ++ r → matchVersionStrung r = none) : ReplaceAllString s = s := by
  have := ReplaceAllString_pass s [] (fun a r ha _ => by simpa using h a r ha)
  simpa [ReplaceAllString, replaceAllFrom] using this

theorem ReplaceAllString_hit (m s : List Nat) (hm : m ≠ [])
    (h : matchVersionStrung (m ++ s) = some m.length) :
    ReplaceAllString (m ++ s) = versionZero ++ ReplaceAllString s := by
  cases m with
  | nil => exact absurd rfl hm
  | cons c m =>
    unfold ReplaceAllString
    have h' : matchVersionStrung (c :: (m ++ s)) = some (m.length + 1) := by simpa using h
    rw [List.cons_append, replaceAllFrom, h']
    simp [replaceAllFrom_skip]

/-! ## The pattern reVersionStrung -/

theorem versionOpen_eq : versionOpen = [34, 118, 101, 114, 115, 105, 111, 110, 34, 58, 34] := by
  decide

theorem quotedRun_append (v b : List Nat) (hv : 34 ∉ v) :
    quotedRun (v ++ 34 :: b) = some v.length := by
  induction v with
  | nil => simp [quotedRun]
  | cons c v ih =>
    have hc : c ≠ 34 := fun h => hv (by simp [h])
    have hv' : 34 ∉ v := fun h => hv (List.mem_cons_of_mem _ h)
    simp [quotedRun, hc, ih hv']

theorem quotedRun_eq_some (s : List Nat) (n : Nat) (h : quotedRun s = some n) :
    ∃ v b, s = v ++ 34 :: b ∧ v.length = n ∧ 34 ∉ v := by
  induction s generalizing n with
  | nil => simp [quotedRun] at h
  | cons c s ih =>
    by_cases hc : c = 34
    · simp [quotedRun, hc] at h
      exact ⟨[], s, by simp [hc], by simp [h], by simp⟩
    · simp only [quotedRun, hc, if_false, Option.map_eq_some'] at h
      obtain ⟨m, hm, hn⟩ := h
      obtain ⟨v, b, hs, hl, hq⟩ := ih m hm
      refine ⟨c :: v, b, by simp [hs], by simp [hl, hn], ?_⟩
      intro hmem
      rcases List.mem_cons.mp hmem with h1 | h1
      · exact hc h1.symm
      · exact hq h1

theorem quotedRun_indep (a t1 t2 : List Nat) :
    quotedRun (a ++ 34 :: t1) = quotedRun (a ++ 34 :: t2) := by
  induction a with
  | nil => simp [quotedRun]
  | cons c a ih =>
    by_cases hc : c = 34
    · simp [quotedRun, hc]
    · simp [quotedRun, hc, ih]

theorem matchVersionStrung_eq_some (t : List Nat) (n : Nat)
    (h : matchVersionStrung t = some n) :
    ∃ v b, v ≠ [] ∧ 34 ∉ v ∧ t = versionOpen ++ v ++ [34] ++ b
      ∧ n = (versionOpen ++ v ++ [34]).length := by
  unfold matchVersionStrung at h
  by_cases hp : hasPrefix t versionOpen = true
  · obtain ⟨rest, hrest⟩ := (hasPrefix_iff _ _).mp hp
    subst hrest
    simp only [hp, if_true, List.drop_left] at h
    cases hq : quotedRun rest with
    | none => simp [hq] at h
    | some m =>
      cases m with
      | zero => simp [hq] at h
      | succ m =>
        simp only [hq, Option.some.injEq] at h
        obtain ⟨v, b, hs, hl, hv⟩ := quotedRun_eq_some rest (m + 1) hq
        refine ⟨v, b, ?_, hv, by simp [hs], ?_⟩
        · intro hnil; simp [hnil] at hl
        · simp only [List.length_append, List.length_singleton, hl]; omega
  · simp [hp] at h

theorem matchVersionStrung_hit (v b : List Nat) (hne : v ≠ []) (hv : 34 ∉ v) :
    matchVersionStrung ((versionOpen ++ v ++ [34]) ++ b)
      = some (versionOpen ++ v ++ [34]).length := by
  have hp : hasPrefix ((versionOpen ++ v ++ [34]) ++ b) versionOpen = true :=
    (hasPrefix_iff _ _).mpr ⟨v ++ [34] ++ b, by simp⟩
  have hd : ((versionOpen ++ v ++ [34]) ++ b).drop versionOpen.length = v ++ 34 :: b := by
    simp
  unfold matchVersionStrung
  rw [if_pos hp, hd, quotedRun_append v b hv]
  cases v with
  | nil => exact absurd rfl hne
  | cons c v => simp; omega

theorem hasPrefix_long (r x k : List Nat) (h : k.length ≤ r.length) :
    hasPrefix (r ++ x) k = hasPrefix r k := by
  induction k generalizing r with
  | nil => cases r <;> simp [hasPrefix]
  | cons c k ih =>
    cases r with
    | nil => simp at h
    | cons a r =>
      have h' : k.length ≤ r.length := by simpa using h
      by_cases hac : a = c
      · simp [hasPrefix, hac, ih r h']
      · simp [hasPrefix, hac]

theorem matchVersionStrung_long (r x : List Nat) (h : 11 ≤ r.length) :
    matchVersionStrung (r ++ 34 :: x) = matchVersionStrung (r ++ [34]) := by
  have hlen : versionOpen.length = 11 := by decide
  unfold matchVersionStrung
  rw [hasPrefix_long r _ _ (by omega), hasPrefix_long r _ _ (by omega), hlen,
    List.drop_append_of_le_length h, List.drop_append_of_le_length h,
    quotedRun_indep (r.drop 11) x []]

theorem matchVersionStrung_short (r : List Nat) (h : r.length ≤ 10) :
    matchVersionStrung (r ++ [34]) = none := by
  unfold matchVersionStrung
  by_cases hp : hasPrefix (r ++ [34]) versionOpen = true
  · obtain ⟨b, hb⟩ := (hasPrefix_iff _ _).mp hp
    have hl := congrArg List.length hb
    have hlen : versionOpen.length = 11 := by decide
    simp only [List.length_append, List.length_singleton, hlen] at hl
    have hb0 : b = [] := List.eq_nil_of_length_eq_zero (by omega)
    subst hb0
    rw [if_pos hp, hb]
    simp [quotedRun]
  · simp [hp]

theorem firstQuote_unique (w u x y : List Nat) (hw : 34 ∉ w) (hu : 34 ∉ u)
    (h : w ++ 34 :: x = u ++ 34 :: y) : w = u := by
  induction w generalizing u with
  | nil =>
    cases u with
    | nil => rfl
    | cons c u =>
      simp at h
      exact absurd (by simp [h.1]) hu
  | cons c w ih =>
    cases u with
    | nil =>
      simp at h
      exact absurd (by simp [h.1]) hw
    | cons d u =>
      simp only [List.cons_append, List.cons.injEq] at h
      have := ih u (fun hm => hw (List.mem_cons_of_mem _ hm))
        (fun hm => hu (List.mem_cons_of_mem _ hm)) h.2
      rw [h.1, this]

theorem hasPrefix_versionOpen_split (r y : List Nat) (hr : r.length ≤ 10)
    (h : hasPrefix (r ++ 34 :: y) versionOpen = true) :
    (r = [] ∧ hasPrefix y [118, 101, 114, 115, 105, 111, 110, 34, 58, 34] = true)
    ∨ (r = [34, 118, 101, 114, 115, 105, 111, 110] ∧ hasPrefix y [58, 34] = true)
    ∨ r = [34, 118, 101, 114, 115, 105, 111, 110, 34, 58] := by
  rw [versionOpen_eq] at h
  rcases r with _ | ⟨a0, _ | ⟨a1, _ | ⟨a2, _ | ⟨a3, _ | ⟨a4, _ | ⟨a5, _ | ⟨a6, _ | ⟨a7, _ |
    ⟨a8, _ | ⟨a9, _ | ⟨a10, r⟩⟩⟩⟩⟩⟩⟩⟩⟩⟩⟩
  all_goals first
    | (simp at hr; done)
    | (simp [hasPrefix] at h ⊢; try tauto)

theorem matchVersionStrung_word (r w rest : List Nat) (hr : r.length ≤ 10) (hw : word w) :
    matchVersionStrung (r ++ 34 :: (w ++ 34 :: rest)) ≠ none
      ↔ r = [34, 118, 101, 114, 115, 105, 111, 110, 34, 58] := by
  obtain ⟨hq, hne, hv, hc⟩ := hw
  constructor
  · intro h
    have hp : hasPrefix (r ++ 34 :: (w ++ 34 :: rest)) versionOpen = true := by
      by_contra hp
      exact h (by simp [matchVersionStrung, hp])
    rcases hasPrefix_versionOpen_split r _ hr hp with ⟨_, h1⟩ | ⟨_, h1⟩ | h1
    · obtain ⟨b, hb⟩ := (hasPrefix_iff _ _).mp h1
      exact absurd (firstQuote_unique w [118, 101, 114, 115, 105, 111, 110] rest (58 :: 34 :: b)
        hq (by decide) (by simpa using hb)) hv
    · obtain ⟨b, hb⟩ := (hasPrefix_iff _ _).mp h1
      exact absurd (firstQuote_unique w [58] rest b hq (by decide) (by simpa using hb)) hc
    · exact h1
  · intro h
    have heq : r ++ 34 :: (w ++ 34 :: rest) = (versionOpen ++ w ++ [34]) ++ rest := by
      rw [h, versionOpen_eq]; simp
    rw [heq, matchVersionStrung_hit w rest hne hq]
    simp

theorem matchVersionStrung_start (r w1 rest1 w2 rest2 : List Nat) (h1 : word w1) (h2 : word w2)
    (h : matchVersionStrung (r ++ 34 :: (w1 ++ 34 :: rest1)) = none) :
    matchVersionStrung (r ++ 34 :: (w2 ++ 34 :: rest2)) = none := by
  by_cases hr : r.length ≤ 10
  · by_contra hne
    have := (matchVersionStrung_word r w2 rest2 hr h2).mp hne
    exact (matchVersionStrung_word r w1 rest1 hr h1).mpr this h
  · rw [matchVersionStrung_long r _ (by omega)] at h ⊢
    exact h

theorem suffix_split (A V B a t : List Nat) (h : A ++ V ++ B = a ++ t) :
    (∃ r a', A = a' ++ r ∧ t = r ++ V ++ B)
    ∨ (∃ j, 0 < j ∧ j < V.length ∧ t = V.drop j ++ B)
    ∨ (∃ c, B = c ++ t) := by
  have ht : t = (A ++ V ++ B).drop a.length := by rw [h]; simp
  by_cases h1 : a.length ≤ A.length
  · left
    refine ⟨A.drop a.length, A.take a.length, (List.take_append_drop _ _).symm, ?_⟩
    rw [ht, List.append_assoc, List.drop_append_of_le_length h1, List.append_assoc]
  · right
    have h1' : A.length < a.length := by omega
    by_cases h2 : a.length < A.length + V.length
    · left
      refine ⟨a.length - A.length, by omega, by omega, ?_⟩
      rw [ht, List.append_assoc, List.drop_append_eq_append_drop,
        List.drop_eq_nil_of_le (by omega), List.nil_append,
        List.drop_append_of_le_length (by omega)]
    · right
      refine ⟨B.take (a.length - A.length - V.length), ?_⟩
      rw [ht, List.drop_append_eq_append_drop, List.drop_eq_nil_of_le (by simp; omega)]
      simp only [List.nil_append, List.length_append]
      have : a.length - (A.length + V.length) = a.length - A.length - V.length := by omega
      rw [this, List.take_append_drop]

theorem noMatch_transfer (A B K V w1 k' w2 v' : List Nat)
    (hK : K = 34 :: (w1 ++ 34 :: k')) (hV : V = 34 :: (w2 ++ 34 :: v'))
    (h1 : word w1) (h2 : word w2)
    (hin : ∀ j, 0 < j → j < V.length →
      matchVersionStrung (V.drop j ++ B) = none ∨ ∃ c, K ++ B = c ++ (V.drop j ++ B))
    (hS : ∀ a t, A ++ K ++ B = a ++ t → matchVersionStrung t = none) :
    ∀ a t, A ++ V ++ B = a ++ t → matchVersionStrung t = none := by
  intro a t hat
  rcases suffix_split A V B a t hat with ⟨r, a', hA, ht⟩ | ⟨j, hj0, hj, ht⟩ | ⟨c, hc⟩
  · have hold := hS a' (r ++ K ++ B) (by rw [hA]; simp)
    rw [ht, hV]
    rw [hK] at hold
    have := matchVersionStrung_start r w1 (k' ++ B) w2 (v' ++ B) h1 h2 (by simpa using hold)
    simpa using this
  · rcases hin j hj0 hj with h | ⟨c, hc⟩
    · rw [ht]; exact h
    · rw [ht]
      exact hS (A ++ c) _ (by rw [List.append_assoc A K B, hc]; simp)
  · exact hS (A ++ K ++ c) t (by rw [hc]; simp)

/-! ## Triggers, as the statements name them, and the matchers of the code -/

theorem lookup_none_of_noKey (text a t : List Nat) (h : text = a ++ t)
    (hno : ¬ keyAt text a.length) : lookup t = none := by
  cases hl : lookup t with
  | none => rfl
  | some kv =>
    obtain ⟨hmem, b, hb⟩ := lookup_eq_some t kv hl
    exact absurd ⟨kv.1, List.mem_map_of_mem _ hmem, a, b, by rw [h, hb]; simp, rfl⟩ hno

theorem matchVersionStrung_none_of_noVersion (text a t : List Nat) (h : text = a ++ t)
    (hno : ¬ versionStrungAt text a.length) : matchVersionStrung t = none := by
  cases hm : matchVersionStrung t with
  | none => rfl
  | some n =>
    obtain ⟨v, b, hne, hv, ht, _⟩ := matchVersionStrung_eq_some t n hm
    exact absurd ⟨v, hne, hv, a, b, by rw [h, ht]; simp, rfl⟩ hno

theorem Replace_single (pre post k v : List Nat) (hk : k ≠ [])
    (hhit : lookup (k ++ post) = some (k, v))
    (honly : ∀ n, keyAt (pre ++ k ++ post) n → n = pre.length) :
    Replace (pre ++ k ++ post) = pre ++ v ++ post := by
  have hklen : 0 < k.length := List.length_pos.mpr hk
  rw [List.append_assoc, Replace_pass pre (k ++ post), Replace_hit k v post hk hhit,
    Replace_id post, List.append_assoc]
  · intro a r har
    apply lookup_none_of_noKey (pre ++ k ++ post) (pre ++ k ++ a) r (by rw [har]; simp)
    intro hkey
    have := honly _ hkey
    simp only [List.length_append] at this
    omega
  · intro a r har hr
    apply lookup_none_of_noKey (pre ++ k ++ post) a (r ++ (k ++ post)) (by rw [har]; simp)
    intro hkey
    have := honly _ hkey
    have hlen := congrArg List.length har
    have hrlen : 0 < r.length := List.length_pos.mpr hr
    simp only [List.length_append] at hlen
    omega

/-! ## The severity table -/

theorem matchVersionStrung_none_of_head (t : List Nat) (h : hasPrefix t [34, 118] = false) :
    matchVersionStrung t = none := by
  unfold matchVersionStrung
  by_cases hp : hasPrefix t versionOpen = true
  · obtain ⟨b, hb⟩ := (hasPrefix_iff _ _).mp hp
    have : hasPrefix t [34, 118] = true :=
      (hasPrefix_iff _ _).mpr ⟨[101, 114, 115, 105, 111, 110, 34, 58, 34] ++ b, by
        rw [hb, versionOpen_eq]; simp⟩
    rw [this] at h
    exact absurd h (by simp)
  · simp [hp]

theorem word_level : word (bytesOf "level") := by
  unfold word; decide

theorem levelNumeric_eq (code : List Nat) :
    levelNumeric code = 34 :: (bytesOf "level" ++ 34 :: (58 :: code ++ [44])) := by
  simp [levelNumeric, bytesOf]

theorem levelSymbolic_eq (name : List Nat) :
    levelSymbolic name = 34 :: (bytesOf "level" ++ 34 :: (58 :: 34 :: name ++ [34, 44])) := by
  simp [levelSymbolic, bytesOf]

theorem lookup_level (code name post : List Nat) (hcn : (code, name) ∈ severityTable) :
    lookup (levelNumeric code ++ post) = some (levelNumeric code, levelSymbolic name) := by
  simp only [severityTable, List.mem_cons, List.mem_singleton, Prod.mk.injEq,
    List.not_mem_nil, or_false] at hcn
  rcases hcn with ⟨rfl, rfl⟩ | ⟨rfl, rfl⟩ | ⟨rfl, rfl⟩ | ⟨rfl, rfl⟩ | ⟨rfl, rfl⟩ | ⟨rfl, rfl⟩ <;>
    simp [lookup, replacerPairs, hasPrefix, levelNumeric, levelSymbolic, bytesOf]

theorem levelSymbolic_inner (code name post : List Nat) (hcn : (code, name) ∈ severityTable)
    (j : Nat) (h0 : 0 < j) (hj : j < (levelSymbolic name).length) :
    matchVersionStrung ((levelSymbolic name).drop j ++ post) = none := by
  apply matchVersionStrung_none_of_head
  simp only [severityTable, List.mem_cons, List.mem_singleton, Prod.mk.injEq,
    List.not_mem_nil, or_false] at hcn
  rcases hcn with ⟨rfl, rfl⟩ | ⟨rfl, rfl⟩ | ⟨rfl, rfl⟩ | ⟨rfl, rfl⟩ | ⟨rfl, rfl⟩ | ⟨rfl, rfl⟩ <;>
    (simp [levelSymbolic, bytesOf] at hj ⊢
     interval_cases j <;> simp [hasPrefix])

/-- C4: for each pair of the severity table (10 TRACE, 20 DEBUG, 30 INFO,
40 WARN, 50 ERROR, 60 ERROR) and every text whose only rewrite trigger is one
occurrence of `"level":c,`, `preProcess` gives the text with that occurrence
replaced by `"level":"NAME",`; 50 and 60 both give `ERROR`. -/
theorem preProcess_level (code name pre post : List Nat)
    (hcn : (code, name) ∈ severityTable)
    (hkey : ∀ n, keyAt (pre ++ levelNumeric code ++ post) n → n = pre.length)
    (hver : ∀ n, ¬ versionStrungAt (pre ++ levelNumeric code ++ post) n) :
    preProcess (pre ++ levelNumeric code ++ post) = pre ++ levelSymbolic name ++ post := by
  unfold preProcess
  rw [Replace_single pre post _ _ (by simp [levelNumeric_eq]) (lookup_level code name post hcn)
    hkey]
  apply ReplaceAllString_id
  exact noMatch_transfer pre post _ _ _ _ _ _ (levelNumeric_eq code) (levelSymbolic_eq name)
    word_level word_level (fun j h0 hj => Or.inl (levelSymbolic_inner code name post hcn j h0 hj))
    (fun a t hat => matchVersionStrung_none_of_noVersion _ a t hat (hver _))

/-! ## Triggers are what the matchers find -/

theorem drop_of_split (text a t : List Nat) (h : text = a ++ t) : text.drop a.length = t := by
  rw [h]; simp

theorem keyAt_iff (text : List Nat) (n : Nat) :
    keyAt text n ↔ n ≤ text.length ∧ (lookup (text.drop n)).isSome = true := by
  constructor
  · rintro ⟨k, hk, a, b, ht, hn⟩
    refine ⟨by rw [ht, ← hn]; simp, ?_⟩
    obtain ⟨kv, hkv, rfl⟩ := List.mem_map.mp hk
    have hd : text.drop n = kv.1 ++ b := by
      rw [← hn]; exact drop_of_split text a _ (by rw [ht]; simp)
    cases hl : lookup (text.drop n) with
    | some _ => rfl
    | none => exact absurd ⟨b, hd⟩ ((lookup_eq_none_iff _).mp hl kv hkv)
  · rintro ⟨hle, hs⟩
    by_contra hno
    have hlen : (text.take n).length = n := by simp [hle]
    have := lookup_none_of_noKey text (text.take n) (text.drop n)
      (List.take_append_drop n text).symm (by rw [hlen]; exact hno)
    rw [this] at hs
    exact absurd hs (by simp)

theorem versionStrungAt_iff (text : List Nat) (n : Nat) :
    versionStrungAt text n
      ↔ n ≤ text.length ∧ (matchVersionStrung (text.drop n)).isSome = true := by
  constructor
  · rintro ⟨v, hne, hv, a, b, ht, hn⟩
    refine ⟨by rw [ht, ← hn]; simp, ?_⟩
    have hd : text.drop n = (versionOpen ++ v ++ [34]) ++ b := by
      rw [← hn]; exact drop_of_split text a _ (by rw [ht]; simp)
    rw [hd, matchVersionStrung_hit v b hne hv]
    rfl
  · rintro ⟨hle, hs⟩
    by_contra hno
    have hlen : (text.take n).length = n := by simp [hle]
    have := matchVersionStrung_none_of_noVersion text (text.take n) (text.drop n)
      (List.take_append_drop n text).symm (by rw [hlen]; exact hno)
    rw [this] at hs
    exact absurd hs (by simp)

/-- C4, at the payload `{"level":30,"message":"m"}`. -/
theorem preProcess_level_witness :
    preProcess (bytesOf "\x7b" ++ levelNumeric (bytesOf "30") ++ bytesOf "\"message\":\"m\"\x7d")
      = bytesOf "\x7b" ++ levelSymbolic (bytesOf "INFO") ++ bytesOf "\"message\":\"m\"\x7d" :=
  preProcess_level (bytesOf "30") (bytesOf "INFO") (bytesOf "\x7b") (bytesOf "\"message\":\"m\"\x7d")
    (by decide)
    (fun n h => by
      have key : ∀ m, m ≤ 26 → (lookup ((bytesOf "\x7b" ++ levelNumeric (bytesOf "30")
          ++ bytesOf "\"message\":\"m\"\x7d").drop m)).isSome = true → m = 1 := by decide
      obtain ⟨hle, hs⟩ := (keyAt_iff _ n).mp h
      exact key n hle hs)
    (fun n h => by
      have key : ∀ m, m ≤ 26 → ¬ (matchVersionStrung ((bytesOf "\x7b" ++ levelNumeric (bytesOf "30")
          ++ bytesOf "\"message\":\"m\"\x7d").drop m)).isSome = true := by decide
      obtain ⟨hle, hs⟩ := (versionStrungAt_iff _ n).mp h
      exact key n hle hs)

/-! ## The version placeholder -/

/-- C6, as stated, fails for the empty value: the text `"version":""` holds no
replacer key and the pattern, which asks for at least one byte between the
quotes, does not match it; `preProcess` leaves it as it is. -/
theorem preProcess_versionStrung_empty :
    (∀ b ∈ ([] : List Nat), b ≠ 34)
    ∧ (∀ n, ¬ keyAt ([] ++ versionStrung [] ++ []) n)
    ∧ (∀ n, ¬ versionStrungAt ([] ++ versionStrung [] ++ []) n)
    ∧ preProcess ([] ++ versionStrung [] ++ []) = bytesOf "\"version\":\"\""
    ∧ preProcess ([] ++ versionStrung [] ++ []) ≠ [] ++ versionZero ++ [] := by
  refine ⟨by simp, ?_, ?_, by decide, by decide⟩
  · intro n h
    have key : ∀ m, m ≤ 12 →
        ¬ (lookup (([] ++ versionStrung [] ++ []).drop m)).isSome = true := by decide
    obtain ⟨hle, hs⟩ := (keyAt_iff _ n).mp h
    exact key n hle hs
  · intro n h
    have key : ∀ m, m ≤ 12 →
        ¬ (matchVersionStrung (([] ++ versionStrung [] ++ []).drop m)).isSome = true := by
      decide
    obtain ⟨hle, hs⟩ := (versionStrungAt_iff _ n).mp h
    exact key n hle hs

/-- C6, amended: for every non-empty `v` without a double quote and every text
around it that holds no replacer key and no other quoted-string version,
`preProcess` rewrites `"version":"v"` into `"version":0` and leaves the rest. -/
theorem preProcess_versionStrung (v pre post : List Nat) (hne : v ≠ []) (hv : 34 ∉ v)
    (hkey : ∀ n, ¬ keyAt (pre ++ versionStrung v ++ post) n)
    (hver : ∀ n, versionStrungAt (pre ++ versionStrung v ++ post) n → n = pre.length) :
    preProcess (pre ++ versionStrung v ++ post) = pre ++ versionZero ++ post := by
  have hm : versionStrung v ≠ [] := by simp [versionStrung]
  have hmlen : 0 < (versionStrung v).length := List.length_pos.mpr hm
  unfold preProcess
  rw [Replace_id _ (fun a r har => lookup_none_of_noKey _ a r har (hkey _))]
  rw [List.append_assoc, ReplaceAllString_pass pre (versionStrung v ++ post),
    ReplaceAllString_hit (versionStrung v) post hm (matchVersionStrung_hit v post hne hv),
    ReplaceAllString_id post, List.append_assoc]
  · intro a r har
    apply matchVersionStrung_none_of_noVersion (pre ++ versionStrung v ++ post)
      (pre ++ versionStrung v ++ a) r (by rw [har]; simp)
    intro h
    have := hver _ h
    simp only [List.length_append] at this
    omega
  · intro a r har hr
    apply matchVersionStrung_none_of_noVersion (pre ++ versionStrung v ++ post) a
      (r ++ (versionStrung v ++ post)) (by rw [har]; simp)
    intro h
    have := hver _ h
    have hlen := congrArg List.length har
    have hrlen : 0 < r.length := List.length_pos.mpr hr
    simp only [List.length_append] at hlen
    omega

/-- C6, amended, at the payload `{"version":"1.2","message":"m"}`. -/
theorem preProcess_versionStrung_witness :
    preProcess (bytesOf "\x7b" ++ versionStrung (bytesOf "1.2") ++ bytesOf ",\"message\":\"m\"\x7d")
      = bytesOf "\x7b" ++ versionZero ++ bytesOf ",\"message\":\"m\"\x7d" :=
  preProcess_versionStrung (bytesOf "1.2") (bytesOf "\x7b") (bytesOf ",\"message\":\"m\"\x7d")
    (by decide) (by decide)
    (fun n h => by
      have key : ∀ m, m ≤ 31 → ¬ (lookup ((bytesOf "\x7b" ++ versionStrung (bytesOf "1.2")
          ++ bytesOf ",\"message\":\"m\"\x7d").drop m)).isSome = true := by decide
      obtain ⟨hle, hs⟩ := (keyAt_iff _ n).mp h
      exact key n hle hs)
    (fun n h => by
      have key : ∀ m, m ≤ 31 → (matchVersionStrung ((bytesOf "\x7b" ++ versionStrung (bytesOf "1.2")
          ++ bytesOf ",\"message\":\"m\"\x7d").drop m)).isSome = true → m = 1 := by decide
      obtain ⟨hle, hs⟩ := (versionStrungAt_iff _ n).mp h
      exact key n hle hs)

/-! ## Rewriting a text piece by piece -/

theorem lookup_key (kv : List Nat × List Nat) (hkv : kv ∈ replacerPairs) (s : List Nat) :
    lookup (kv.1 ++ s) = some kv := by
  simp only [replacerPairs, List.mem_cons, List.mem_singleton, List.not_mem_nil, or_false] at hkv
  rcases hkv with rfl | rfl | rfl | rfl | rfl | rfl | rfl | rfl <;>
    simp [lookup, replacerPairs, hasPrefix, bytesOf]

theorem key_ne_nil (kv : List Nat × List Nat) (hkv : kv ∈ replacerPairs) : kv.1 ≠ [] := by
  simp only [replacerPairs, List.mem_cons, List.mem_singleton, List.not_mem_nil, or_false] at hkv
  rcases hkv with rfl | rfl | rfl | rfl | rfl | rfl | rfl | rfl <;> simp [bytesOf]

/-- When no old string of the replacer starts in `a` and ends beyond it, the text
`a ++ r` is rewritten piece by piece. -/
theorem Replace_split (a r : List Nat)
    (h : ∀ x y kv, a = x ++ y → y ≠ [] → lookup (y ++ r) = some kv → kv.1.length ≤ y.length) :
    Replace (a ++ r) = Replace a ++ Replace r := by
  generalize hn : a.length = n
  induction n using Nat.strong_induction_on generalizing a with
  | _ n ih =>
    cases a with
    | nil => simp [Replace, replaceFrom]
    | cons c a' =>
      cases hl : lookup ((c :: a') ++ r) with
      | none =>
        have hl' : lookup (c :: a') = none := by
          rw [lookup_eq_none_iff] at hl ⊢
          rintro kv hkv ⟨b, hb⟩
          exact hl kv hkv ⟨b ++ r, by rw [hb]; simp⟩
        have ih' := ih a'.length (by simp at hn; omega) a'
          (fun x y kv hxy hy hk => h (c :: x) y kv (by simp [hxy]) hy hk) rfl
        have hl2 : lookup (c :: (a' ++ r)) = none := by simpa using hl
        unfold Replace at ih' ⊢
        rw [List.cons_append, replaceFrom, hl2, replaceFrom, hl', ih']
        simp
      | some kv =>
        obtain ⟨hkv, b, hb⟩ := lookup_eq_some _ _ hl
        have hlen := h [] (c :: a') kv rfl (by simp) hl
        have hk := key_ne_nil kv hkv
        obtain ⟨a2, ha2⟩ : ∃ a2, c :: a' = kv.1 ++ a2 := by
          have hp : kv.1 <+: (c :: a') ++ r := ⟨b, hb.symm⟩
          obtain ⟨t, ht⟩ := List.prefix_of_prefix_length_le hp (List.prefix_append _ r) hlen
          exact ⟨t, ht.symm⟩
        rw [ha2, List.append_assoc, Replace_hit kv.1 kv.2 (a2 ++ r) hk (lookup_key kv hkv _),
          Replace_hit kv.1 kv.2 a2 hk (lookup_key kv hkv _)]
        have hlt : a2.length < n := by
          have := congrArg List.length ha2
          have hpos := List.length_pos.mpr hk
          simp only [List.length_append] at this
          omega
        rw [ih a2.length hlt a2
          (fun x y kv' hxy hy hk' => h (kv.1 ++ x) y kv' (by rw [ha2, hxy]; simp) hy hk') rfl]
        simp

theorem matchVersionStrung_append (y r : List Nat) (n : Nat)
    (h : matchVersionStrung y = some n) : matchVersionStrung (y ++ r) = some n := by
  obtain ⟨v, b, hne, hv, hy, hn⟩ := matchVersionStrung_eq_some y n h
  rw [hy, hn, List.append_assoc]
  exact matchVersionStrung_hit v (b ++ r) hne hv

/-- When no match of the pattern starts in `a` and ends beyond it, the text
`a ++ r` is rewritten piece by piece. -/
theorem ReplaceAllString_split (a r : List Nat)
    (h : ∀ x y n, a = x ++ y → y ≠ [] → matchVersionStrung (y ++ r) = some n → n ≤ y.length) :
    ReplaceAllString (a ++ r) = ReplaceAllString a ++ ReplaceAllString r := by
  generalize hn : a.length = n
  induction n using Nat.strong_induction_on generalizing a with
  | _ n ih =>
    cases a with
    | nil => simp [ReplaceAllString, replaceAllFrom]
    | cons c a' =>
      cases hl : matchVersionStrung ((c :: a') ++ r) with
      | none =>
        have hl' : matchVersionStrung (c :: a') = none := by
          cases hm : matchVersionStrung (c :: a') with
          | none => rfl
          | some m => rw [matchVersionStrung_append _ r m hm] at hl; simp at hl
        have ih' := ih a'.length (by simp at hn; omega) a'
          (fun x y m hxy hy hk => h (c :: x) y m (by simp [hxy]) hy hk) rfl
        have hl2 : matchVersionStrung (c :: (a' ++ r)) = none := by simpa using hl
        unfold ReplaceAllString at ih' ⊢
        rw [List.cons_append, replaceAllFrom, hl2, replaceAllFrom, hl', ih']
        simp
      | some m =>
        obtain ⟨v, b, hne, hv, hy, hm⟩ := matchVersionStrung_eq_some _ m hl
        have hlen := h [] (c :: a') m rfl (by simp) hl
        have hM : versionOpen ++ v ++ [34] ≠ [] := by simp
        obtain ⟨a2, ha2⟩ : ∃ a2, c :: a' = (versionOpen ++ v ++ [34]) ++ a2 := by
          have hp : (versionOpen ++ v ++ [34]) <+: (c :: a') ++ r := ⟨b, hy.symm⟩
          obtain ⟨t, ht⟩ := List.prefix_of_prefix_length_le hp (List.prefix_append _ r)
            (by rw [← hm]; exact hlen)
          exact ⟨t, ht.symm⟩
        rw [ha2, List.append_assoc,
          ReplaceAllString_hit _ (a2 ++ r) hM (matchVersionStrung_hit v _ hne hv),
          ReplaceAllString_hit _ a2 hM (matchVersionStrung_hit v _ hne hv)]
        have hlt : a2.length < n := by
          have := congrArg List.length ha2
          simp only [List.length_append, List.length_cons, List.length_nil] at this
          simp only [List.length_cons] at hn
          omega
        rw [ih a2.length hlt a2
          (fun x y m' hxy hy' hk' => h ((versionOpen ++ v ++ [34]) ++ x) y m'
            (by rw [ha2, hxy]; simp) hy' hk') rfl]
        simp

/-- An invariant of the consumed input and the produced output that every step
of the replacer keeps holds of a text and its rewriting. -/
theorem Replace_induction (J : List Nat → List Nat → Prop) (h0 : J [] [])
    (hlit : ∀ i o c, J i o → J (i ++ [c]) (o ++ [c]))
    (hrep : ∀ i o kv, kv ∈ replacerPairs → J i o → J (i ++ kv.1) (o ++ kv.2))
    (text : List Nat) : J text (Replace text) := by
  have key : ∀ n rest i o, rest.length ≤ n → J i o → J (i ++ rest) (o ++ Replace rest) := by
    intro n
    induction n with
    | zero =>
      intro rest i o hlen hJ
      have : rest = [] := List.length_eq_zero.mp (by omega)
      subst this
      simpa [Replace, replaceFrom] using hJ
    | succ n ih =>
      intro rest i o hlen hJ
      cases rest with
      | nil => simpa [Replace, replaceFrom] using hJ
      | cons c cs =>
        cases hl : lookup (c :: cs) with
        | none =>
          have e : Replace (c :: cs) = c :: Replace cs := by
            unfold Replace; rw [replaceFrom, hl]
          have := ih cs (i ++ [c]) (o ++ [c]) (by simp at hlen; omega) (hlit i o c hJ)
          rw [e]
          simpa using this
        | some kv =>
          obtain ⟨hkv, b, hb⟩ := lookup_eq_some _ _ hl
          have hk := key_ne_nil kv hkv
          rw [hb, Replace_hit kv.1 kv.2 b hk (lookup_key kv hkv b)]
          have hblen : b.length ≤ n := by
            have := congrArg List.length hb
            have hpos := List.length_pos.mpr hk
            simp only [List.length_append, List.length_cons] at this hlen
            omega
          have := ih b (i ++ kv.1) (o ++ kv.2) hblen (hrep i o kv hkv hJ)
          simpa using this
  simpa using key text.length text [] [] (le_refl _) h0

/-! ## What stands before a member -/

theorem afterLastQuote_eq (u v : List Nat) (hv : 34 ∉ v) :
    afterLastQuote (u ++ 34 :: v) = v ∧ uptoLastQuote (u ++ 34 :: v) = u ++ [34] := by
  have h1 : afterLastQuote (u ++ 34 :: v) = v := by
    unfold afterLastQuote
    have e : (u ++ 34 :: v).reverse = v.reverse ++ 34 :: u.reverse := by simp
    rw [e, List.takeWhile_append_of_pos, List.takeWhile_cons_of_neg (by simp)]
    · simp
    · intro c hc
      have : c ≠ 34 := fun h => hv (by rw [← h]; simpa using hc)
      simpa using this
  refine ⟨h1, ?_⟩
  unfold uptoLastQuote
  rw [h1]
  have : (u ++ 34 :: v).length - v.length = (u ++ [34]).length := by simp; omega
  rw [this]
  have e : u ++ 34 :: v = (u ++ [34]) ++ v := by simp
  rw [e, List.take_left]

theorem clearBefore_run (a v : List Nat) (h : clearBefore a) (hne : v ≠ []) (hv : 34 ∉ v) :
    ¬ (bytesOf "version\":\"" ++ v) <:+ a := by
  rintro ⟨u, hu⟩
  have e : a = (u ++ bytesOf "version\":") ++ 34 :: v := by
    rw [← hu]; simp [bytesOf]
  obtain ⟨h1, h2⟩ := afterLastQuote_eq (u ++ bytesOf "version\":") v hv
  apply h.2.2.2
  rw [e, h1, h2]
  exact ⟨hne, ⟨u, by simp [bytesOf]⟩⟩

theorem first_quote (l : List Nat) :
    34 ∉ l ∨ ∃ w t, l = w ++ 34 :: t ∧ 34 ∉ w := by
  induction l with
  | nil => left; simp
  | cons c l ih =>
    by_cases hc : c = 34
    · right; exact ⟨[], l, by simp [hc], by simp⟩
    · rcases ih with h | ⟨w, t, e, hw⟩
      · left
        simp only [List.mem_cons, not_or]
        exact ⟨fun h34 => hc h34.symm, h⟩
      · right
        refine ⟨c :: w, t, by simp [e], ?_⟩
        simp only [List.mem_cons, not_or]
        exact ⟨fun h34 => hc h34.symm, hw⟩

theorem quote_split (w u x y : List Nat) (hw : 34 ∉ w) (hu : 34 ∉ u)
    (h : w ++ 34 :: x = u ++ 34 :: y) : w = u ∧ x = y := by
  have e := firstQuote_unique w u x y hw hu h
  subst e
  exact ⟨rfl, by simpa using h⟩

theorem versionTail_shorter (s s' : List Nat) (h : versionTail s) (hp : s' <+: s) (hne : s' ≠ []) :
    versionTail s' := by
  obtain ⟨_, v, hv, hs⟩ := h
  exact ⟨hne, v, hv, hp.trans hs⟩

theorem versionTail_head (s : List Nat) (h : versionTail s) : s.take 3 <+: [118, 101, 114] := by
  obtain ⟨_, v, _, t, ht⟩ := h
  have e : (s ++ t).take 3 = [118, 101, 114] := by rw [ht]; simp [bytesOf]
  have : s.take 3 <+: (s ++ t).take 3 := by
    rw [List.take_append_eq_append_take]
    exact List.prefix_append _ _
  rwa [e] at this

theorem new_suffix_key : ∀ kv ∈ replacerPairs, ∀ j, j ≤ kv.2.length →
    kv.2.drop j ≠ [] → (kv.2.drop j).take 3 <+: [118, 101, 114] → kv.2.drop j <:+ kv.1 := by
  decide

theorem new_shape (kv : List Nat × List Nat) (hkv : kv ∈ replacerPairs) :
    ∃ c n', kv.2 = 34 :: c :: n' ∧ c ≠ 58 ∧ c ≠ 34 ∧ 34 ∈ n' := by
  simp only [replacerPairs, List.mem_cons, List.mem_singleton, List.not_mem_nil, or_false] at hkv
  rcases hkv with rfl | rfl | rfl | rfl | rfl | rfl | rfl | rfl <;>
    exact ⟨_, _, rfl, by decide, by decide, by decide⟩

/-- A start of `version":"v` that ends the rewritten text ends the text itself:
the first pass makes no unfinished match of the second. -/
theorem Replace_versionTail (a s : List Nat) (hs : versionTail s) (h : s <:+ Replace a) :
    s <:+ a := by
  refine Replace_induction (fun i o => ∀ s, versionTail s → s <:+ o → s <:+ i) ?_ ?_ ?_ a s hs h
  · intro s hs h
    exact absurd (List.suffix_nil.mp h) hs.1
  · intro i o c ih s hs h
    rcases List.eq_nil_or_concat s with hnil | ⟨s', c', rfl⟩
    · exact absurd hnil hs.1
    · rw [List.concat_eq_append] at h hs ⊢
      obtain ⟨u, hu⟩ := h
      have hu' : (u ++ s') ++ [c'] = o ++ [c] := by rw [← hu]; simp
      have e1 := List.append_inj' hu' rfl
      have ec : c' = c := by simpa using e1.2
      subst ec
      by_cases hs' : s' = []
      · subst hs'; exact ⟨i, by simp⟩
      · obtain ⟨t, ht⟩ := ih s' (versionTail_shorter _ _ hs (List.prefix_append _ _) hs')
          ⟨u, e1.1⟩
        exact ⟨t, by rw [← ht]; simp⟩
  · intro i o kv hkv ih s hs h
    obtain ⟨u, hu⟩ := h
    rcases List.append_eq_append_iff.mp hu with ⟨a', ho, hs'⟩ | ⟨c', hu', hnew⟩
    · -- the new string ends `s`
      by_cases ha' : a' = []
      · subst ha'
        simp only [List.nil_append] at hs'
        have := new_suffix_key kv hkv 0 (Nat.zero_le _) (by simpa [← hs'] using hs.1)
          (by simpa [← hs'] using versionTail_head s hs)
        simp only [List.drop_zero] at this
        rw [hs']
        exact this.trans (List.suffix_append _ _)
      · exfalso
        obtain ⟨c, n', hn, hc58, hc34, hq⟩ := new_shape kv hkv
        obtain ⟨_, v, hv, t, ht⟩ := hs
        rw [hs', hn] at ht
        have hW : 34 ∉ bytesOf "version" := by decide
        have tgt : bytesOf "version\":\"" ++ v = bytesOf "version" ++ 34 :: ([58] ++ 34 :: v) := by
          simp [bytesOf]
        rw [tgt] at ht
        rcases first_quote a' with hq' | ⟨w, r, e, hw⟩
        · have := quote_split a' (bytesOf "version") (c :: n' ++ t) ([58] ++ 34 :: v) hq' hW
            (by simpa using ht)
          have h2 := this.2
          simp only [List.cons_append, List.singleton_append, List.cons.injEq] at h2
          exact hc58 h2.1
        · rw [e] at ht
          have := quote_split w (bytesOf "version") (r ++ 34 :: c :: n' ++ t) ([58] ++ 34 :: v) hw hW
            (by simpa using ht)
          have h2 := this.2
          rcases first_quote r with hr | ⟨w2, r2, e2, hw2⟩
          · have h3 := quote_split r [58] (c :: n' ++ t) v hr (by decide) (by simpa using h2)
            apply hv
            rw [← h3.2]
            simp only [List.cons_append, List.mem_cons, List.mem_append]
            exact Or.inr (Or.inl hq)
          · rw [e2] at h2
            have h3 := quote_split w2 [58] (r2 ++ 34 :: c :: n' ++ t) v hw2 (by decide)
              (by simpa using h2)
            apply hv
            rw [← h3.2]
            simp
    · -- `s` ends the new string
      have hsuf : s <:+ kv.2 := ⟨c', hnew.symm⟩
      obtain ⟨j, hj⟩ : ∃ j, j ≤ kv.2.length ∧ kv.2.drop j = s := by
        refine ⟨c'.length, ?_, ?_⟩
        · rw [hnew]; simp
        · rw [hnew]; simp
      have := new_suffix_key kv hkv j hj.1 (by rw [hj.2]; exact hs.1)
        (by rw [hj.2]; exact versionTail_head s hs)
      rw [hj.2] at this
      exact this.trans (List.suffix_append _ _)

/-! ## No match reaches into a member -/

theorem key_quote_inside : ∀ kv ∈ replacerPairs, ∀ m, m < kv.1.length → 0 < m →
    kv.1[m]? = some 34 → kv.1[m + 1]? ≠ some 58 →
    kv.1.take m = bytesOf "\"@timestamp" ∨ kv.1.take m = bytesOf "\"@version" := by
  decide

/-- An old string of the replacer that starts in `y` and ends beyond it, in a
text where a quote and a byte other than the colon follow `y`, is `"@timestamp"`
or `"@version"`, and `y` is that string without its closing quote. -/
theorem lookup_straddle (y r : List Nat) (c : Nat) (kv : List Nat × List Nat)
    (hy : y ≠ []) (hc : c ≠ 58) (h : lookup (y ++ 34 :: c :: r) = some kv)
    (hlen : ¬ kv.1.length ≤ y.length) :
    y = bytesOf "\"@timestamp" ∨ y = bytesOf "\"@version" := by
  obtain ⟨hkv, b, hb⟩ := lookup_eq_some _ _ h
  have hm : y.length < kv.1.length := by omega
  have hpos : 0 < y.length := List.length_pos.mpr hy
  have g0 : kv.1[y.length]? = some 34 := by
    have : (kv.1 ++ b)[y.length]? = some 34 := by
      rw [← hb, List.getElem?_append_right (le_refl _)]
      simp
    rwa [List.getElem?_append_left hm] at this
  have g1 : kv.1[y.length + 1]? ≠ some 58 := by
    by_cases hm1 : y.length + 1 < kv.1.length
    · have : (kv.1 ++ b)[y.length + 1]? = some c := by
        rw [← hb, List.getElem?_append_right (by omega)]
        simp
      rw [List.getElem?_append_left hm1] at this
      rw [this]
      simpa using hc
    · rw [List.getElem?_eq_none (by omega)]
      simp
  have ht : kv.1.take y.length = y := by
    have : (kv.1 ++ b).take y.length = y := by rw [← hb]; simp
    rwa [List.take_append_of_le_length (by omega)] at this
  have := key_quote_inside kv hkv y.length hm hpos g0 g1
  rwa [ht] at this

/-- The text before a member that is `clearBefore` holds no old string of the
replacer that reaches into the member. -/
theorem clearBefore_keys (a z r : List Nat) (c : Nat) (ha : clearBefore a) (hz : z <:+ a)
    (hc : c ≠ 58) :
    ∀ x y kv, z = x ++ y → y ≠ [] → lookup (y ++ 34 :: c :: r) = some kv →
      kv.1.length ≤ y.length := by
  intro x y kv hxy hy hl
  by_contra hlen
  have hyz : y <:+ z := ⟨x, hxy.symm⟩
  have hya : y <:+ a := hyz.trans hz
  rcases lookup_straddle y r c kv hy hc hl hlen with e | e
  · exact ha.1 (e ▸ hya)
  · exact ha.2.1 (e ▸ hya)

/-- A match of the pattern that starts in `y` and ends beyond it, in a text
where a quote and a byte other than the colon follow `y`: `y` is `"version":`,
or `"version":"` and a non-empty run without a quote. -/
theorem match_straddle (y r : List Nat) (c n : Nat) (hy : y ≠ []) (hc : c ≠ 58)
    (h : matchVersionStrung (y ++ 34 :: c :: r) = some n) (hlen : ¬ n ≤ y.length) :
    y = bytesOf "\"version\":" ∨ ∃ v, v ≠ [] ∧ 34 ∉ v ∧ y = versionOpen ++ v := by
  obtain ⟨v, b, hne, hv, ht, hn⟩ := matchVersionStrung_eq_some _ n h
  by_cases hshort : y.length ≤ 10
  · have hp : hasPrefix (y ++ 34 :: c :: r) versionOpen = true := by
      rw [hasPrefix_iff]
      exact ⟨v ++ [34] ++ b, by rw [ht]; simp⟩
    rcases hasPrefix_versionOpen_split y (c :: r) hshort hp with ⟨e, _⟩ | ⟨_, h2⟩ | e
    · exact absurd e hy
    · simp [hasPrefix, hc] at h2
    · left; rw [e]; decide
  · right
    have hvo : versionOpen.length = 11 := by decide
    obtain ⟨y', hy'⟩ : ∃ y', y = versionOpen ++ y' := by
      have hp : versionOpen <+: y ++ 34 :: c :: r := ⟨v ++ [34] ++ b, by rw [ht]; simp⟩
      obtain ⟨t, e⟩ := List.prefix_of_prefix_length_le hp (List.prefix_append _ _)
        (by rw [hvo]; omega)
      exact ⟨t, e.symm⟩
    have e2 : y' ++ 34 :: c :: r = v ++ 34 :: b := by
      rw [hy'] at ht
      simpa using ht
    rcases first_quote y' with hq | ⟨w, t, e, hw⟩
    · have := (quote_split y' v (c :: r) b hq hv e2).1
      subst this
      exact ⟨y', hne, hv, hy'⟩
    · exfalso
      rw [e] at e2
      have := (quote_split w v (t ++ 34 :: c :: r) b hw hv (by simpa using e2)).1
      subst this
      apply hlen
      rw [hn, hy', e]
      simp

/-- The rewriting of a text before a member that is `clearBefore` holds no match
of the pattern that reaches into the member. -/
theorem clearBefore_matches (a b z r : List Nat) (c : Nat) (ha : clearBefore a) (hb : b <:+ a)
    (hz : z <:+ Replace b) (hc : c ≠ 58) :
    ∀ x y n, z = x ++ y → y ≠ [] → matchVersionStrung (y ++ 34 :: c :: r) = some n →
      n ≤ y.length := by
  intro x y n hxy hy hm
  by_contra hlen
  have hyz : y <:+ z := ⟨x, hxy.symm⟩
  have hsuf : y <:+ Replace b := hyz.trans hz
  rcases match_straddle y r c n hy hc hm hlen with e | ⟨v, hne, hv, e⟩
  · have hs : bytesOf "version\":" <:+ y := ⟨[34], by rw [e]; decide⟩
    have ht : versionTail (bytesOf "version\":") :=
      ⟨by decide, [], by simp, ⟨[34], by decide⟩⟩
    exact ha.2.2.1 ((Replace_versionTail b _ ht (hs.trans hsuf)).trans hb)
  · have hs : (bytesOf "version\":\"" ++ v) <:+ y :=
      ⟨[34], by rw [e]; simp [versionOpen, bytesOf]⟩
    have ht : versionTail (bytesOf "version\":\"" ++ v) :=
      ⟨by simp [bytesOf], v, hv, List.prefix_refl _⟩
    exact clearBefore_run a v ha hne hv ((Replace_versionTail b _ ht (hs.trans hsuf)).trans hb)

/-- The first pass at a member that opens with an old string of the replacer. -/
theorem Replace_member (a z r k' : List Nat) (c : Nat) (kv : List Nat × List Nat)
    (ha : clearBefore a) (hz : z <:+ a) (hc : c ≠ 58) (hkv : kv ∈ replacerPairs)
    (hk : kv.1 = 34 :: c :: k') :
    Replace (z ++ (kv.1 ++ r)) = Replace z ++ (kv.2 ++ Replace r) := by
  rw [Replace_split z (kv.1 ++ r), Replace_hit kv.1 kv.2 r (key_ne_nil kv hkv) (lookup_key kv hkv r)]
  rw [hk]
  exact clearBefore_keys a z (k' ++ r) c ha hz hc

/-- The second pass at a member: what stands before it is rewritten by itself. -/
theorem ReplaceAllString_member (a b z r : List Nat) (c : Nat) (ha : clearBefore a)
    (hb : b <:+ a) (hz : z <:+ Replace b) (hc : c ≠ 58) :
    ReplaceAllString (z ++ 34 :: c :: r)
      = ReplaceAllString z ++ ReplaceAllString (34 :: c :: r) :=
  ReplaceAllString_split z _ (clearBefore_matches a b z r c ha hb hz hc)

/-! ## The value of the timestamp member -/

theorem lookup_none_of_head (s : List Nat) (h : s.head? ≠ some 34) : lookup s = none := by
  rw [lookup_eq_none_iff]
  rintro kv hkv ⟨b, hb⟩
  apply h
  simp only [replacerPairs, List.mem_cons, List.mem_singleton, List.not_mem_nil, or_false] at hkv
  rcases hkv with rfl | rfl | rfl | rfl | rfl | rfl | rfl | rfl <;> simp [hb, bytesOf]

theorem Replace_head (s : List Nat) : (Replace s).head? = s.head? := by
  cases s with
  | nil => simp [Replace, replaceFrom]
  | cons c cs =>
    cases hl : lookup (c :: cs) with
    | none => unfold Replace; rw [replaceFrom, hl]; simp
    | some kv =>
      obtain ⟨hkv, b, hb⟩ := lookup_eq_some _ _ hl
      rw [hb, Replace_hit kv.1 kv.2 b (key_ne_nil kv hkv) (lookup_key kv hkv b)]
      simp only [replacerPairs, List.mem_cons, List.mem_singleton, List.not_mem_nil,
        or_false] at hkv
      rcases hkv with rfl | rfl | rfl | rfl | rfl | rfl | rfl | rfl <;> simp [bytesOf]

theorem Replace_quote_head (c : List Nat) :
    ∃ t, Replace (34 :: c) = 34 :: t ∧ (c.head? ≠ some 58 → t.head? ≠ some 58) := by
  cases hl : lookup (34 :: c) with
  | none =>
    refine ⟨Replace c, by unfold Replace; rw [replaceFrom, hl], ?_⟩
    rw [Replace_head]
    exact id
  | some kv =>
    obtain ⟨hkv, b, hb⟩ := lookup_eq_some _ _ hl
    obtain ⟨c', n', hn, hc58, _, _⟩ := new_shape kv hkv
    refine ⟨c' :: n' ++ Replace b, ?_, ?_⟩
    · rw [hb, Replace_hit kv.1 kv.2 b (key_ne_nil kv hkv) (lookup_key kv hkv b), hn]
      simp
    · intro _
      simpa using hc58

theorem pair_shape (kv : List Nat × List Nat) (hkv : kv ∈ replacerPairs) :
    ∃ w k n, kv.1 = 34 :: (w ++ 34 :: k) ∧ 34 ∉ w
      ∧ ((w = bytesOf "@timestamp" ∨ w = bytesOf "@version")
          ∨ (kv.2 = 34 :: (w ++ 34 :: n) ∧ k.head? = some 58 ∧ n.head? = some 58)) := by
  simp only [replacerPairs, List.mem_cons, List.mem_singleton, List.not_mem_nil, or_false] at hkv
  rcases hkv with rfl | rfl | rfl | rfl | rfl | rfl | rfl | rfl
  all_goals first
    | exact ⟨bytesOf "level", _, _, rfl, by decide, Or.inr ⟨rfl, rfl, rfl⟩⟩
    | exact ⟨bytesOf "@timestamp", [], [], rfl, by decide, Or.inl (Or.inl rfl)⟩
    | exact ⟨bytesOf "@version", [], [], rfl, by decide, Or.inl (Or.inr rfl)⟩

theorem Replace_suffix_pass (x s : List Nat) (hx : 34 ∉ x) :
    Replace (x ++ s) = x ++ Replace s := by
  apply Replace_pass
  intro a r har hr
  apply lookup_none_of_head
  cases r with
  | nil => exact absurd rfl hr
  | cons d r' =>
    have : d ≠ 34 := fun h => hx (by rw [har, h]; simp)
    simpa using this

/-- The first pass on the value of a member: the text `:"x"`, for an `x` without
a quote that is neither `@timestamp` nor `@version`, comes through the replacer
as it is, whatever follows. -/
theorem Replace_value (x c : List Nat) (hx : 34 ∉ x)
    (hx1 : x ≠ bytesOf "@timestamp" ∧ x ≠ bytesOf "@version") :
    ∃ t, Replace (58 :: 34 :: x ++ 34 :: c) = 58 :: 34 :: x ++ 34 :: t
      ∧ (c.head? ≠ some 58 → t.head? ≠ some 58) := by
  have h0 : lookup (58 :: (34 :: x ++ 34 :: c)) = none := lookup_none_of_head _ (by simp)
  have e0 : Replace (58 :: 34 :: x ++ 34 :: c) = 58 :: Replace (34 :: x ++ 34 :: c) := by
    unfold Replace
    rw [List.cons_append, replaceFrom, h0]
  cases hl : lookup (34 :: (x ++ 34 :: c)) with
  | none =>
    obtain ⟨t, ht, hh⟩ := Replace_quote_head c
    refine ⟨t, ?_, hh⟩
    rw [e0]
    have : Replace (34 :: x ++ 34 :: c) = 34 :: Replace (x ++ 34 :: c) := by
      unfold Replace
      rw [List.cons_append, replaceFrom, hl]
    rw [this, Replace_suffix_pass x _ hx, ht]
    simp
  | some kv =>
    obtain ⟨hkv, b, hb⟩ := lookup_eq_some _ _ hl
    obtain ⟨w, k, n, hk, hw, hcase⟩ := pair_shape kv hkv
    rw [hk] at hb
    have hsp := quote_split x w c (k ++ b) hx hw (by simpa using hb)
    rcases hcase with (e | e) | ⟨hnew, hkh, hnh⟩
    · exact absurd (hsp.1.trans e) hx1.1
    · exact absurd (hsp.1.trans e) hx1.2
    · refine ⟨n ++ Replace b, ?_, ?_⟩
      · rw [e0]
        have e1 : 34 :: x ++ 34 :: c = kv.1 ++ b := by
          rw [hk]; simpa using hb
        rw [e1, Replace_hit kv.1 kv.2 b (key_ne_nil kv hkv) (lookup_key kv hkv b), hnew, hsp.1]
        simp
      · intro hc
        exfalso
        apply hc
        rw [hsp.2]
        cases k with
        | nil => simp at hkh
        | cons d k' => simpa using hkh

theorem ReplaceAllString_quote_head (s : List Nat) :
    ∃ t, ReplaceAllString (34 :: s) = 34 :: t := by
  cases hm : matchVersionStrung (34 :: s) with
  | none => exact ⟨ReplaceAllString s, by unfold ReplaceAllString; rw [replaceAllFrom, hm]⟩
  | some n =>
    refine ⟨bytesOf "version\":0" ++ replaceAllFrom (n - 1) s, ?_⟩
    unfold ReplaceAllString
    rw [replaceAllFrom, hm]
    simp [versionZero, bytesOf]

theorem timestampKey_inner : ∀ j, j ≤ 10 →
    hasPrefix ((bytesOf "\"timestamp\":").drop j) [34, 118] = false := by
  decide

/-- The second pass on the key `"timestamp":` of a member: the pattern has no
match that starts in it. -/
theorem ReplaceAllString_timestampKey (rest : List Nat) :
    ReplaceAllString (bytesOf "\"timestamp\":" ++ rest)
      = bytesOf "\"timestamp\":" ++ ReplaceAllString rest := by
  apply ReplaceAllString_pass
  intro a r har hr
  have hj : r = (bytesOf "\"timestamp\":").drop a.length := by
    rw [har]; simp
  have hal : a.length < 12 := by
    have := congrArg List.length har
    have hrl := List.length_pos.mpr hr
    simp [bytesOf] at this
    omega
  apply matchVersionStrung_none_of_head
  by_cases hlen : a.length ≤ 10
  · have h2 : [34, 118].length ≤ r.length := by
      rw [hj]; simp [bytesOf]; omega
    rw [hasPrefix_long r _ _ h2, hj]
    exact timestampKey_inner _ hlen
  · have h11 : a.length = 11 := by omega
    rw [hj, h11]
    simp [bytesOf, hasPrefix]

/-- The second pass on a quoted value `"x"`, for an `x` without a quote: it comes
out as it is, also when `x` is `version` and the pattern matches from its
opening quote on, since the replacement text opens with `"version"`. -/
theorem ReplaceAllString_value (x t : List Nat) (hx : 34 ∉ x) :
    ∃ t', ReplaceAllString (34 :: x ++ 34 :: t) = 34 :: x ++ 34 :: t' := by
  cases hm : matchVersionStrung (34 :: (x ++ 34 :: t)) with
  | none =>
    obtain ⟨t', ht'⟩ := ReplaceAllString_quote_head t
    refine ⟨t', ?_⟩
    have e : ReplaceAllString (34 :: x ++ 34 :: t) = 34 :: ReplaceAllString (x ++ 34 :: t) := by
      unfold ReplaceAllString
      rw [List.cons_append, replaceAllFrom, hm]
    have hp : ReplaceAllString (x ++ 34 :: t) = x ++ ReplaceAllString (34 :: t) := by
      apply ReplaceAllString_pass
      intro a r har hr
      apply matchVersionStrung_none_of_head
      cases r with
      | nil => exact absurd rfl hr
      | cons d r' =>
        have : d ≠ 34 := fun h => hx (by rw [har, h]; simp)
        simp [hasPrefix, this]
    rw [e, hp, ht']
    simp
  | some n =>
    obtain ⟨v, b, _, _, ht, _⟩ := matchVersionStrung_eq_some _ n hm
    have e1 : x ++ 34 :: t = bytesOf "version" ++ 34 :: (58 :: 34 :: v ++ 34 :: b) := by
      simp [versionOpen, bytesOf] at ht ⊢
      exact ht
    have hs := quote_split x (bytesOf "version") t _ hx (by decide) e1
    refine ⟨bytesOf ":0" ++ replaceAllFrom (n - 1) (x ++ 34 :: t), ?_⟩
    unfold ReplaceAllString
    rw [List.cons_append, replaceAllFrom, hm, hs.1]
    simp [versionZero, bytesOf]

/-- The second pass on the member `"level":"NAME",`: the pattern has no match
that starts in it. -/
theorem ReplaceAllString_level (code name rest : List Nat)
    (hcn : (code, name) ∈ severityTable) :
    ReplaceAllString (levelSymbolic name ++ rest)
      = levelSymbolic name ++ ReplaceAllString rest := by
  apply ReplaceAllString_pass
  intro a r har hr
  have hd := drop_of_split _ a r har
  rw [← hd]
  by_cases ha : a.length = 0
  · rw [ha]
    apply matchVersionStrung_none_of_head
    simp [levelSymbolic, bytesOf, hasPrefix]
  · apply levelSymbolic_inner code name rest hcn _ (by omega)
    have := congrArg List.length har
    have hrl := List.length_pos.mpr hr
    simp only [List.length_append] at this
    omega

/-! ## Level and legacy timestamp together -/

theorem legacyTimestamp_eq (x : List Nat) :
    legacyTimestamp x = bytesOf "\"@timestamp\"" ++ (58 :: 34 :: x ++ [34]) := by
  simp [legacyTimestamp, bytesOf]

theorem canonicalTimestamp_eq (x : List Nat) :
    canonicalTimestamp x = bytesOf "\"timestamp\"" ++ (58 :: 34 :: x ++ [34]) := by
  simp [canonicalTimestamp, bytesOf]

/-- The level member before the timestamp member: both come out rewritten, in
their places. -/
theorem preProcess_level_then_timestamp (x a b c : List Nat) (hx : 34 ∉ x)
    (hx1 : x ≠ bytesOf "@timestamp" ∧ x ≠ bytesOf "@version")
    (ha : clearBefore a) (hb : clearBefore (a ++ levelNumeric (bytesOf "30") ++ b)) :
    ∃ P Q Z, preProcess (a ++ levelNumeric (bytesOf "30") ++ b ++ legacyTimestamp x ++ c)
      = P ++ levelSymbolic (bytesOf "INFO") ++ Q ++ canonicalTimestamp x ++ Z := by
  obtain ⟨t, ht, _⟩ := Replace_value x c hx hx1
  obtain ⟨t', ht'⟩ := ReplaceAllString_value x t hx
  refine ⟨ReplaceAllString (Replace a), ReplaceAllString (Replace b), t', ?_⟩
  have hL : (levelNumeric (bytesOf "30"), levelSymbolic (bytesOf "INFO")) ∈ replacerPairs := by
    decide
  have hT : (bytesOf "\"@timestamp\"", bytesOf "\"timestamp\"") ∈ replacerPairs := by decide
  -- the first pass
  have e : a ++ levelNumeric (bytesOf "30") ++ b ++ legacyTimestamp x ++ c
      = a ++ (levelNumeric (bytesOf "30")
          ++ (b ++ (bytesOf "\"@timestamp\"" ++ (58 :: 34 :: x ++ 34 :: c)))) := by
    rw [legacyTimestamp_eq]; simp
  have s1 := Replace_member a a (b ++ (bytesOf "\"@timestamp\"" ++ (58 :: 34 :: x ++ 34 :: c)))
    ((levelNumeric (bytesOf "30")).drop 2) 108 _ ha (List.suffix_refl a) (by decide) hL
    (by decide)
  have s2 := Replace_member (a ++ levelNumeric (bytesOf "30") ++ b) b
    (58 :: 34 :: x ++ 34 :: c) ((bytesOf "\"@timestamp\"").drop 2) 64 _ hb
    (List.suffix_append _ b) (by decide) hT (by decide)
  simp only [] at s1 s2
  have hU : Replace (a ++ levelNumeric (bytesOf "30") ++ b ++ legacyTimestamp x ++ c)
      = Replace a ++ 34 :: 108 :: ((levelSymbolic (bytesOf "INFO")).drop 2
          ++ (Replace b ++ 34 :: 116 :: ((bytesOf "\"timestamp\":").drop 2 ++ (34 :: x ++ 34 :: t)))) := by
    rw [e, s1, s2, ht]
    simp [levelSymbolic, bytesOf]
  -- the second pass
  have m1 := ReplaceAllString_member a a (Replace a)
    ((levelSymbolic (bytesOf "INFO")).drop 2
      ++ (Replace b ++ 34 :: 116 :: ((bytesOf "\"timestamp\":").drop 2 ++ (34 :: x ++ 34 :: t))))
    108 ha (List.suffix_refl a) (List.suffix_refl _) (by decide)
  have eL : 34 :: 108 :: ((levelSymbolic (bytesOf "INFO")).drop 2
      ++ (Replace b ++ 34 :: 116 :: ((bytesOf "\"timestamp\":").drop 2 ++ (34 :: x ++ 34 :: t))))
      = levelSymbolic (bytesOf "INFO")
        ++ (Replace b ++ 34 :: 116 :: ((bytesOf "\"timestamp\":").drop 2 ++ (34 :: x ++ 34 :: t))) := by
    simp [levelSymbolic, bytesOf]
  have m2 := ReplaceAllString_level (bytesOf "30") (bytesOf "INFO")
    (Replace b ++ 34 :: 116 :: ((bytesOf "\"timestamp\":").drop 2 ++ (34 :: x ++ 34 :: t))) (by decide)
  have m3 := ReplaceAllString_member (a ++ levelNumeric (bytesOf "30") ++ b) b (Replace b)
    ((bytesOf "\"timestamp\":").drop 2 ++ (34 :: x ++ 34 :: t)) 116 hb (List.suffix_append _ b)
    (List.suffix_refl _) (by decide)
  have eT : 34 :: 116 :: ((bytesOf "\"timestamp\":").drop 2 ++ (34 :: x ++ 34 :: t))
      = bytesOf "\"timestamp\":" ++ (34 :: x ++ 34 :: t) := by
    simp [bytesOf]
  have m4 := ReplaceAllString_timestampKey (34 :: x ++ 34 :: t)
  unfold preProcess
  rw [hU, m1, eL, m2, m3, eT, m4, ht']
  simp [canonicalTimestamp, bytesOf]

/-- The timestamp member before the level member: both come out rewritten, in
their places. -/
theorem preProcess_timestamp_then_level (x a b c : List Nat) (hx : 34 ∉ x)
    (hx1 : x ≠ bytesOf "@timestamp" ∧ x ≠ bytesOf "@version")
    (ha : clearBefore a) (hb : clearBefore (a ++ legacyTimestamp x ++ b)) :
    ∃ P Q Z, preProcess (a ++ legacyTimestamp x ++ b ++ levelNumeric (bytesOf "30") ++ c)
      = P ++ canonicalTimestamp x ++ Q ++ levelSymbolic (bytesOf "INFO") ++ Z := by
  obtain ⟨t, ht, _⟩ := Replace_value x b hx hx1
  obtain ⟨t', ht'⟩ := ReplaceAllString_value x t hx
  refine ⟨ReplaceAllString (Replace a), t', ReplaceAllString (Replace c), ?_⟩
  have hL : (levelNumeric (bytesOf "30"), levelSymbolic (bytesOf "INFO")) ∈ replacerPairs := by
    decide
  have hT : (bytesOf "\"@timestamp\"", bytesOf "\"timestamp\"") ∈ replacerPairs := by decide
  have hsuf : (58 :: 34 :: x ++ 34 :: b) <:+ a ++ legacyTimestamp x ++ b :=
    ⟨a ++ bytesOf "\"@timestamp\"", by rw [legacyTimestamp_eq]; simp⟩
  -- the first pass
  have e : a ++ legacyTimestamp x ++ b ++ levelNumeric (bytesOf "30") ++ c
      = a ++ (bytesOf "\"@timestamp\""
          ++ ((58 :: 34 :: x ++ 34 :: b) ++ (levelNumeric (bytesOf "30") ++ c))) := by
    rw [legacyTimestamp_eq]; simp
  have s1 := Replace_member a a ((58 :: 34 :: x ++ 34 :: b) ++ (levelNumeric (bytesOf "30") ++ c))
    ((bytesOf "\"@timestamp\"").drop 2) 64 _ ha (List.suffix_refl a) (by decide) hT (by decide)
  have s2 := Replace_member (a ++ legacyTimestamp x ++ b) (58 :: 34 :: x ++ 34 :: b) c
    ((levelNumeric (bytesOf "30")).drop 2) 108 _ hb hsuf (by decide) hL (by decide)
  simp only [] at s1 s2
  have hU : Replace (a ++ legacyTimestamp x ++ b ++ levelNumeric (bytesOf "30") ++ c)
      = Replace a ++ 34 :: 116 :: ((bytesOf "\"timestamp\":").drop 2
          ++ ((34 :: x ++ 34 :: t)
            ++ 34 :: 108 :: ((levelSymbolic (bytesOf "INFO")).drop 2 ++ Replace c))) := by
    rw [e, s1, s2, ht]
    simp [levelSymbolic, bytesOf]
  -- the second pass
  have m1 := ReplaceAllString_member a a (Replace a)
    ((bytesOf "\"timestamp\":").drop 2
      ++ ((34 :: x ++ 34 :: t)
        ++ 34 :: 108 :: ((levelSymbolic (bytesOf "INFO")).drop 2 ++ Replace c)))
    116 ha (List.suffix_refl a) (List.suffix_refl _) (by decide)
  have eT : 34 :: 116 :: ((bytesOf "\"timestamp\":").drop 2
      ++ ((34 :: x ++ 34 :: t)
        ++ 34 :: 108 :: ((levelSymbolic (bytesOf "INFO")).drop 2 ++ Replace c)))
      = bytesOf "\"timestamp\":" ++ ((34 :: x ++ 34 :: t)
        ++ 34 :: 108 :: ((levelSymbolic (bytesOf "INFO")).drop 2 ++ Replace c)) := by
    simp [bytesOf]
  have m2 := ReplaceAllString_timestampKey ((34 :: x ++ 34 :: t)
    ++ 34 :: 108 :: ((levelSymbolic (bytesOf "INFO")).drop 2 ++ Replace c))
  have hz : (34 :: x ++ 34 :: t) <:+ Replace (58 :: 34 :: x ++ 34 :: b) :=
    ⟨[58], by rw [ht]; simp⟩
  have m3 := ReplaceAllString_member (a ++ legacyTimestamp x ++ b) (58 :: 34 :: x ++ 34 :: b)
    (34 :: x ++ 34 :: t) ((levelSymbolic (bytesOf "INFO")).drop 2 ++ Replace c) 108 hb hsuf hz
    (by decide)
  have eL : 34 :: 108 :: ((levelSymbolic (bytesOf "INFO")).drop 2 ++ Replace c)
      = levelSymbolic (bytesOf "INFO") ++ Replace c := by
    simp [levelSymbolic, bytesOf]
  have m4 := ReplaceAllString_level (bytesOf "30") (bytesOf "INFO") (Replace c) (by decide)
  unfold preProcess
  rw [hU, m1, eT, m2, m3, eL, m4, ht']
  simp [canonicalTimestamp, bytesOf]

/-- C5, as stated, fails: with `X` the quote-free text `@timestamp`, the input
`{"level":30,"@timestamp":"@timestamp"}` contains `"level":30,` and
`"@timestamp":"X"`, but the replacer rewrites the value as well as the key, and
the output `{"level":"INFO","timestamp":"timestamp"}` does not contain
`"timestamp":"X"`. -/
theorem preProcess_level_timestamp_value :
    34 ∉ bytesOf "@timestamp"
    ∧ levelNumeric (bytesOf "30")
        <:+: bytesOf "\x7b\"level\":30,\"@timestamp\":\"@timestamp\"\x7d"
    ∧ legacyTimestamp (bytesOf "@timestamp")
        <:+: bytesOf "\x7b\"level\":30,\"@timestamp\":\"@timestamp\"\x7d"
    ∧ preProcess (bytesOf "\x7b\"level\":30,\"@timestamp\":\"@timestamp\"\x7d")
        = bytesOf "\x7b\"level\":\"INFO\",\"timestamp\":\"timestamp\"\x7d"
    ∧ ¬ canonicalTimestamp (bytesOf "@timestamp")
        <:+: preProcess (bytesOf "\x7b\"level\":30,\"@timestamp\":\"@timestamp\"\x7d") := by
  decide

/-- The members of C5 are lost as well when a rewrite that starts before a member
reaches into it.  In the first text the pattern of the second pass runs from
`"version":"a,` to the opening quote of `"level"`; in the second it takes the
key `"timestamp"` for the value of `"version":`; in the third the replacer takes
the opening quote of `"level"` for the closing quote of `"@version`.  In the
fourth the value `@version` is rewritten like the key of that name. -/
theorem preProcess_member_cut :
    preProcess (bytesOf "\x7b\"version\":\"a,\"level\":30,\"@timestamp\":\"X\"\x7d")
        = bytesOf "\x7b\"version\":0level\":\"INFO\",\"timestamp\":\"X\"\x7d"
    ∧ preProcess (bytesOf "\x7b\"level\":30,\"version\":\"@timestamp\":\"X\"\x7d")
        = bytesOf "\x7b\"level\":\"INFO\",\"version\":0:\"X\"\x7d"
    ∧ preProcess (bytesOf "\x7b\"@timestamp\":\"X\"@version\"level\":30,\x7d")
        = bytesOf "\x7b\"timestamp\":\"X\"version\"level\":30,\x7d"
    ∧ preProcess (bytesOf "\x7b\"level\":30,\"@timestamp\":\"@version\"\x7d")
        = bytesOf "\x7b\"level\":\"INFO\",\"timestamp\":\"version\"\x7d" := by
  decide

/-- C5, amended: the input reads `a "level":30, b "@timestamp":"X" c`, or the same
with the two members in the other order, for an `X` without a quote that is
neither `@timestamp` nor `@version`, and the text before each of the two members
is `clearBefore` (no rewrite that starts in it reaches into the member).  Then
the text from `preProcess` contains `"level":"INFO",` and `"timestamp":"X"`,
whatever other keys of the replacer and quoted-string versions the input holds. -/
theorem preProcess_level_timestamp (x a b c text : List Nat) (hx : 34 ∉ x)
    (hx1 : x ≠ bytesOf "@timestamp" ∧ x ≠ bytesOf "@version")
    (hshape :
      (text = a ++ levelNumeric (bytesOf "30") ++ b ++ legacyTimestamp x ++ c
        ∧ clearBefore a ∧ clearBefore (a ++ levelNumeric (bytesOf "30") ++ b))
      ∨ (text = a ++ legacyTimestamp x ++ b ++ levelNumeric (bytesOf "30") ++ c
        ∧ clearBefore a ∧ clearBefore (a ++ legacyTimestamp x ++ b))) :
    levelSymbolic (bytesOf "INFO") <:+: preProcess text
      ∧ canonicalTimestamp x <:+: preProcess text := by
  rcases hshape with ⟨htext, ha, hb⟩ | ⟨htext, ha, hb⟩
  · obtain ⟨P, Q, Z, h⟩ := preProcess_level_then_timestamp x a b c hx hx1 ha hb
    rw [htext, h]
    exact ⟨⟨P, Q ++ canonicalTimestamp x ++ Z, by simp⟩,
      ⟨P ++ levelSymbolic (bytesOf "INFO") ++ Q, Z, by simp⟩⟩
  · obtain ⟨P, Q, Z, h⟩ := preProcess_timestamp_then_level x a b c hx hx1 ha hb
    rw [htext, h]
    exact ⟨⟨P ++ canonicalTimestamp x ++ Q, Z, by simp⟩,
      ⟨P, Q ++ levelSymbolic (bytesOf "INFO") ++ Z, by simp⟩⟩

/-- C5, amended, at the payload of the example line with level 30,
`{"@timestamp":"2003-10-11T22:14:15Z","@version":"1","level":30,"message":"m","loggerName":"L"}`,
which holds a third key of the replacer and a quoted-string version. -/
theorem preProcess_level_timestamp_witness :
    levelSymbolic (bytesOf "INFO") <:+: preProcess (samplePayload (bytesOf "30"))
      ∧ canonicalTimestamp (bytesOf "2003-10-11T22:14:15Z")
        <:+: preProcess (samplePayload (bytesOf "30")) :=
  preProcess_level_timestamp (bytesOf "2003-10-11T22:14:15Z") (bytesOf "\x7b")
    (bytesOf ",\"@version\":\"1\",") (bytesOf "\"message\":\"m\",\"loggerName\":\"L\"\x7d")
    (samplePayload (bytesOf "30")) (by decide) (by decide)
    (Or.inr ⟨by decide, by decide, by decide⟩)

/-! ## parseTimestamp -/

theorem slice_window {buff : List Nat} {c n : Nat} (h : c + n ≤ buff.length) :
    slice buff c (n + c) = .ok ((buff.drop c).take n) := by
  have h1 : c ≤ n + c := Nat.le_add_left _ _
  have h2 : n + c ≤ buff.length := by omega
  simp [slice, h1, h2, List.drop_take]

theorem parseTimestamp_eq (env : Env) (p : Parser) (hl : p.l = p.buff.length) :
    parseTimestamp env p
      = match (if p.cursor + 15 ≤ p.buff.length then
            parseLayouts env ((p.buff.drop p.cursor).take 15) else none) with
        | some t => .ok ((fixTimestampIfNeeded env t, none),
            { p with cursor := p.cursor + 15
                + if p.buff[p.cursor + 15]? = some 32 then 1 else 0 })
        | none => .ok ((Time.zero, some .ErrTimestampUnknownFormat),
            { p with cursor := 15 + if p.buff[15]? = some 32 then 1 else 0 }) := by
  have hlen1 : (bytesOf "Jan 02 15:04:05").length = 15 := by decide
  have hlen2 : (bytesOf "Jan  2 15:04:05").length = 15 := by decide
  by_cases hroom : p.cursor + 15 ≤ p.buff.length
  · have hsl := slice_window hroom
    have hnot : ¬ (p.cursor + 15 > p.buff.length) := by omega
    cases h1 : env.parseInLocation (bytesOf "Jan 02 15:04:05")
        ((p.buff.drop p.cursor).take 15) with
    | some t1 =>
      simp [parseTimestamp, parseLayouts, tsFmts, tsLoop, hl, hlen1, hnot, hsl, h1,
        skipSpace_eq, hroom]
    | none =>
      cases h2 : env.parseInLocation (bytesOf "Jan  2 15:04:05")
          ((p.buff.drop p.cursor).take 15) with
      | some t2 =>
        simp [parseTimestamp, parseLayouts, tsFmts, tsLoop, hl, hlen1, hlen2, hnot, hsl, h1, h2,
          skipSpace_eq, hroom]
      | none =>
        simp [parseTimestamp, parseLayouts, tsFmts, tsLoop, hl, hlen1, hlen2, hnot, hsl, h1, h2,
          skipSpace_eq, hroom]
  · have hgt : p.cursor + 15 > p.buff.length := by omega
    simp [parseTimestamp, tsFmts, tsLoop, hl, hlen1, hlen2, hgt, skipSpace_eq, hroom]

/-! ## Parse, step by step -/

theorem Parse_steps (env : Env) (line hdr host app pid content : List Nat)
    (c1 c1' c2 c3 c4 b : Nat)
    (hroom : (NewParser line).cursor + 15 ≤ (NewParser line).buff.length)
    (htake : ((NewParser line).buff.drop (NewParser line).cursor).take 15 = hdr)
    (hok : { NewParser line with cursor := (NewParser line).cursor + 15
        + if (NewParser line).buff[(NewParser line).cursor + 15]? = some 32 then 1 else 0 }
      = parserAt line c1)
    (hfail : { NewParser line with cursor := 15
        + if (NewParser line).buff[15]? = some 32 then 1 else 0 } = parserAt line c1')
    (hhost : parseHostname (parserAt line c1) = .ok ((host, none), parserAt line c2))
    (hget : (parserAt line c2).buff[(parserAt line c2).cursor]? = some b) (hb : b ≠ 32)
    (happ : parseApp (parserAt line c2) = .ok ((app, pid, none), parserAt line c3))
    (hcont : parseContent (parserAt line c3)
      = .ok ((content, some .ErrEOL), parserAt line c4)) :
    Parse env (NewParser line)
      = match parseLayouts env hdr with
        | none => .ok (some .ErrTimestampUnknownFormat, parserAt line c1')
        | some t =>
          match env.jsonDecode (preProcess content) with
          | (_, some tag) => .ok (some (.library tag), parserAt line c4)
          | (mako, none) =>
            .ok (none, { parserAt line c4 with
              version := env.NoVersion,
              header := { timestamp := fixTimestampIfNeeded env t, hostname := host },
              message := { app := app, pid := pid, content := content, mako := mako } }) := by
  have hts := parseTimestamp_eq env (NewParser line) rfl
  rw [if_pos hroom, htake, hok, hfail] at hts
  unfold Parse parseHeader
  rw [hts]
  cases parseLayouts env hdr with
  | none => rfl
  | some t =>
    simp only [hhost, hget, hb, if_false]
    unfold parseMessage
    simp only [happ, hcont]
    rcases hdec : env.jsonDecode (preProcess content) with ⟨mako, _ | tag⟩
    · simp
    · simp

theorem Parse_sampleLine_eq (env : Env) (code name : List Nat)
    (hcn : (code, name) ∈ severityTable) :
    Parse env (NewParser (sampleLine code))
      = match parseLayouts env (bytesOf "Oct 11 22:14:15") with
        | none => .ok (some .ErrTimestampUnknownFormat, parserAt (sampleLine code) 16)
        | some t =>
          match env.jsonDecode (sampleNormalized name) with
          | (_, some tag) =>
            .ok (some (.library tag), parserAt (sampleLine code) (sampleLine code).length)
          | (mako, none) =>
            .ok (none, sampleParsed env code (fixTimestampIfNeeded env t) mako) := by
  have hpre : preProcess (samplePayload code) = sampleNormalized name := by
    simp only [severityTable, List.mem_cons, List.mem_singleton, Prod.mk.injEq,
      List.not_mem_nil, or_false] at hcn
    rcases hcn with ⟨rfl, rfl⟩ | ⟨rfl, rfl⟩ | ⟨rfl, rfl⟩ | ⟨rfl, rfl⟩ | ⟨rfl, rfl⟩ | ⟨rfl, rfl⟩ <;>
      decide
  rw [← hpre]
  clear hpre
  simp only [severityTable, List.mem_cons, List.mem_singleton, Prod.mk.injEq,
    List.not_mem_nil, or_false] at hcn
  rcases hcn with ⟨rfl, rfl⟩ | ⟨rfl, rfl⟩ | ⟨rfl, rfl⟩ | ⟨rfl, rfl⟩ | ⟨rfl, rfl⟩ | ⟨rfl, rfl⟩ <;>
    exact Parse_steps env (sampleLine _) (bytesOf "Oct 11 22:14:15") (bytesOf "mymachine")
      (bytesOf "app") (bytesOf "123") (samplePayload _) 16 16 26 36 (sampleLine _).length 97
      (by decide) (by decide) (by decide) (by decide) (by decide) (by decide) (by decide)
      (by decide) (by decide)

/-! ## The two passes on a member of the payload -/

theorem Replace_cons_pass (c : Nat) (s : List Nat) (hc : c ≠ 34) :
    Replace (c :: s) = c :: Replace s := by
  have : lookup (c :: s) = none := lookup_none_of_head _ (by simpa using hc)
  unfold Replace
  rw [replaceFrom, this]

theorem ReplaceAllString_cons_pass (c : Nat) (s : List Nat) (hc : c ≠ 34) :
    ReplaceAllString (c :: s) = c :: ReplaceAllString s := by
  have : matchVersionStrung (c :: s) = none :=
    matchVersionStrung_none_of_head _ (by simp [hasPrefix, hc])
  unfold ReplaceAllString
  rw [replaceAllFrom, this]

theorem Replace_second (c : Nat) (r : List Nat) (hc : c ≠ 58) (hq : c ≠ 34) :
    ∃ c' r', Replace (34 :: c :: r) = 34 :: c' :: r' ∧ c' ≠ 58 := by
  cases hl : lookup (34 :: c :: r) with
  | none =>
    refine ⟨c, Replace r, ?_, hc⟩
    unfold Replace
    rw [replaceFrom, hl]
    have := Replace_cons_pass c r hq
    unfold Replace at this
    rw [this]
  | some kv =>
    obtain ⟨hkv, b, hb⟩ := lookup_eq_some _ _ hl
    obtain ⟨c', n', hn, hc58, _, _⟩ := new_shape kv hkv
    refine ⟨c', n' ++ Replace b, ?_, hc58⟩
    rw [hb, Replace_hit kv.1 kv.2 b (key_ne_nil kv hkv) (lookup_key kv hkv b), hn]
    simp

/-- The normalization of a text whose first part is `clearBefore` and whose
second part opens with a quote and a byte other than colon and quote is the
normalization of the parts. -/
theorem preProcess_append (a : List Nat) (c : Nat) (r : List Nat) (ha : clearBefore a)
    (hc : c ≠ 58) (hq : c ≠ 34) :
    preProcess (a ++ 34 :: c :: r) = preProcess a ++ preProcess (34 :: c :: r) := by
  unfold preProcess
  rw [Replace_split a _ (clearBefore_keys a a r c ha (List.suffix_refl a) hc)]
  obtain ⟨c', r', e, hc'⟩ := Replace_second c r hc hq
  rw [e]
  exact ReplaceAllString_member a a (Replace a) r' c' ha (List.suffix_refl a)
    (List.suffix_refl _) hc'

theorem key_shape (kv : List Nat × List Nat) (hkv : kv ∈ replacerPairs) :
    ∃ w k, kv.1 = 34 :: (w ++ 34 :: k) ∧ 34 ∉ w
      ∧ ((w = bytesOf "@timestamp" ∨ w = bytesOf "@version")
          ∨ (w = bytesOf "level" ∧ ∃ d r, k = 58 :: d :: r ∧ digitByte d)) := by
  simp only [replacerPairs, List.mem_cons, List.mem_singleton, List.not_mem_nil, or_false] at hkv
  rcases hkv with rfl | rfl | rfl | rfl | rfl | rfl | rfl | rfl
  all_goals first
    | exact ⟨bytesOf "level", _, rfl, by decide, Or.inr ⟨rfl, _, _, rfl, by decide⟩⟩
    | exact ⟨bytesOf "@timestamp", [], rfl, by decide, Or.inl (Or.inl rfl)⟩
    | exact ⟨bytesOf "@version", [], rfl, by decide, Or.inl (Or.inr rfl)⟩

/-- The first pass on a quoted value that is followed by something other than a colon. -/
theorem Replace_quoted (s c : List Nat) (hs : 34 ∉ s)
    (hs1 : s ≠ bytesOf "@timestamp" ∧ s ≠ bytesOf "@version") (hc : c.head? ≠ some 58) :
    Replace (34 :: s ++ 34 :: c) = 34 :: s ++ Replace (34 :: c) := by
  have hl : lookup (34 :: (s ++ 34 :: c)) = none := by
    cases hl : lookup (34 :: (s ++ 34 :: c)) with
    | none => rfl
    | some kv =>
      exfalso
      obtain ⟨hkv, b, hb⟩ := lookup_eq_some _ _ hl
      obtain ⟨w, k, hk, hw, hcase⟩ := key_shape kv hkv
      rw [hk] at hb
      have hsp := quote_split s w c (k ++ b) hs hw (by simpa using hb)
      rcases hcase with (e | e) | ⟨_, d, r, hk2, _⟩
      · exact hs1.1 (hsp.1.trans e)
      · exact hs1.2 (hsp.1.trans e)
      · apply hc
        rw [hsp.2, hk2]
        rfl
  have e : Replace (34 :: s ++ 34 :: c) = 34 :: Replace (s ++ 34 :: c) := by
    unfold Replace
    rw [List.cons_append, replaceFrom, hl]
  rw [e, Replace_suffix_pass s _ hs]
  simp

/-- The first pass on a member name that is no old string of the replacer. -/
theorem Replace_name (n rest : List Nat) (hn : 34 ∉ n)
    (hn1 : n ≠ bytesOf "@timestamp" ∧ n ≠ bytesOf "@version")
    (hl : n = bytesOf "level" → ∀ d r, rest = d :: r → ¬ digitByte d) :
    Replace (34 :: n ++ 34 :: 58 :: rest) = 34 :: n ++ 34 :: 58 :: Replace rest := by
  have h0 : lookup (34 :: (n ++ 34 :: 58 :: rest)) = none := by
    cases h0 : lookup (34 :: (n ++ 34 :: 58 :: rest)) with
    | none => rfl
    | some kv =>
      exfalso
      obtain ⟨hkv, b, hb⟩ := lookup_eq_some _ _ h0
      obtain ⟨w, k, hk, hw, hcase⟩ := key_shape kv hkv
      rw [hk] at hb
      have hsp := quote_split n w (58 :: rest) (k ++ b) hn hw (by simpa using hb)
      rcases hcase with (e | e) | ⟨e, d, r, hk2, hd⟩
      · exact hn1.1 (hsp.1.trans e)
      · exact hn1.2 (hsp.1.trans e)
      · have h2 := hsp.2
        rw [hk2] at h2
        simp only [List.cons_append, List.cons.injEq, true_and] at h2
        exact hl (hsp.1.trans e) d (r ++ b) h2 hd
  have e : Replace (34 :: n ++ 34 :: 58 :: rest) = 34 :: Replace (n ++ 34 :: 58 :: rest) := by
    unfold Replace
    rw [List.cons_append, replaceFrom, h0]
  have h1 : lookup (34 :: 58 :: rest) = none := by
    simp [lookup, replacerPairs, hasPrefix, bytesOf]
  have e1 : Replace (34 :: 58 :: rest) = 34 :: 58 :: Replace rest := by
    have : Replace (34 :: 58 :: rest) = 34 :: Replace (58 :: rest) := by
      unfold Replace
      rw [replaceFrom, h1]
    rw [this, Replace_cons_pass 58 rest (by decide)]
  rw [e, Replace_suffix_pass n _ hn, e1]
  simp

theorem ReplaceAllString_suffix_pass (x s : List Nat) (hx : 34 ∉ x) :
    ReplaceAllString (x ++ s) = x ++ ReplaceAllString s := by
  apply ReplaceAllString_pass
  intro a r har hr
  apply matchVersionStrung_none_of_head
  cases r with
  | nil => exact absurd rfl hr
  | cons d r' =>
    have : d ≠ 34 := fun h => hx (by rw [har, h]; simp)
    simp [hasPrefix, this]

/-- The second pass on a member name that is not `version` before a quote. -/
theorem ReplaceAllString_name (n rest : List Nat) (hn : 34 ∉ n)
    (hv : n = bytesOf "version" → rest.head? ≠ some 34) :
    ReplaceAllString (34 :: n ++ 34 :: 58 :: rest)
      = 34 :: n ++ 34 :: 58 :: ReplaceAllString rest := by
  have h0 : matchVersionStrung (34 :: (n ++ 34 :: 58 :: rest)) = none := by
    cases h0 : matchVersionStrung (34 :: (n ++ 34 :: 58 :: rest)) with
    | none => rfl
    | some m =>
      exfalso
      obtain ⟨v, b, _, _, ht, _⟩ := matchVersionStrung_eq_some _ m h0
      have e1 : n ++ 34 :: 58 :: rest
          = bytesOf "version" ++ 34 :: (58 :: 34 :: v ++ 34 :: b) := by
        simp [versionOpen, bytesOf] at ht ⊢
        exact ht
      have hs := quote_split n (bytesOf "version") _ _ hn (by decide) e1
      have h2 := hs.2
      simp only [List.cons_append, List.cons.injEq, true_and] at h2
      apply hv hs.1
      rw [h2]
      rfl
  have e : ReplaceAllString (34 :: n ++ 34 :: 58 :: rest)
      = 34 :: ReplaceAllString (n ++ 34 :: 58 :: rest) := by
    unfold ReplaceAllString
    rw [List.cons_append, replaceAllFrom, h0]
  have h1 : matchVersionStrung (34 :: 58 :: rest) = none :=
    matchVersionStrung_none_of_head _ (by simp [hasPrefix])
  have e1 : ReplaceAllString (34 :: 58 :: rest) = 34 :: 58 :: ReplaceAllString rest := by
    have : ReplaceAllString (34 :: 58 :: rest) = 34 :: ReplaceAllString (58 :: rest) := by
      unfold ReplaceAllString
      rw [replaceAllFrom, h1]
    rw [this, ReplaceAllString_cons_pass 58 rest (by decide)]
  rw [e, ReplaceAllString_suffix_pass n _ hn, e1]
  simp

/-- The second pass on a quoted value that is followed by something other than a colon. -/
theorem ReplaceAllString_quoted (s c : List Nat) (hs : 34 ∉ s) (hc : c.head? ≠ some 58) :
    ReplaceAllString (34 :: s ++ 34 :: c) = 34 :: s ++ ReplaceAllString (34 :: c) := by
  have h0 : matchVersionStrung (34 :: (s ++ 34 :: c)) = none := by
    cases h0 : matchVersionStrung (34 :: (s ++ 34 :: c)) with
    | none => rfl
    | some m =>
      exfalso
      obtain ⟨v, b, _, _, ht, _⟩ := matchVersionStrung_eq_some _ m h0
      have e1 : s ++ 34 :: c = bytesOf "version" ++ 34 :: (58 :: 34 :: v ++ 34 :: b) := by
        simp [versionOpen, bytesOf] at ht ⊢
        exact ht
      have hsp := quote_split s (bytesOf "version") c _ hs (by decide) e1
      apply hc
      rw [hsp.2]
      rfl
  have e : ReplaceAllString (34 :: s ++ 34 :: c) = 34 :: ReplaceAllString (s ++ 34 :: c) := by
    unfold ReplaceAllString
    rw [List.cons_append, replaceAllFrom, h0]
  rw [e, ReplaceAllString_suffix_pass s _ hs]
  simp

theorem preProcess_end : ∀ t, t = 44 ∨ t = 125 →
    Replace [34, t] = [34, t] ∧ ReplaceAllString [34, t] = [34, t]
      ∧ Replace [t] = [t] ∧ ReplaceAllString [t] = [t] := by
  intro t ht
  rcases ht with rfl | rfl <;> decide

theorem plainValue_quoteFree (s : List Nat) (h : ∀ b ∈ s, plainByte b) : 34 ∉ s :=
  fun h34 => (h 34 h34).2.2.1 rfl

theorem digits_quoteFree (d : List Nat) (h : ∀ b ∈ d, digitByte b) : 34 ∉ d :=
  fun h34 => absurd (h 34 h34) (by decide)

/-- Both passes leave a member with a string value as it is, for a canonical
name other than `version`. -/
theorem preProcess_stringMember (n s : List Nat) (t : Nat) (ht : t = 44 ∨ t = 125)
    (hn : 34 ∉ n) (hn1 : n ≠ bytesOf "@timestamp" ∧ n ≠ bytesOf "@version")
    (hnv : n ≠ bytesOf "version") (hs : plainValue s) :
    Replace (34 :: n ++ 34 :: 58 :: (34 :: s ++ 34 :: [t]))
        = 34 :: n ++ 34 :: 58 :: (34 :: s ++ 34 :: [t])
    ∧ ReplaceAllString (34 :: n ++ 34 :: 58 :: (34 :: s ++ 34 :: [t]))
        = 34 :: n ++ 34 :: 58 :: (34 :: s ++ 34 :: [t]) := by
  have hq := plainValue_quoteFree s hs.1
  have hend := preProcess_end t ht
  have ht58 : ([t] : List Nat).head? ≠ some 58 := by
    rcases ht with rfl | rfl <;> decide
  constructor
  · rw [Replace_name n _ hn hn1 (fun _ d r hr hd => by
      simp only [List.cons_append, List.cons.injEq] at hr
      rw [← hr.1] at hd
      exact absurd hd (by decide)),
      Replace_quoted s [t] hq hs.2 ht58, hend.1]
  · rw [ReplaceAllString_name n _ hn (fun h => absurd h hnv),
      ReplaceAllString_quoted s [t] hq ht58, hend.2.1]

/-! ## The normalization of one member -/

theorem suffix_snoc (A B : List Nat) (a b : Nat) (h : A ++ [a] <:+ B ++ [b]) :
    a = b ∧ A <:+ B := by
  have h' := List.reverse_prefix.mpr h
  simp only [List.reverse_append, List.reverse_singleton, List.singleton_append] at h'
  obtain ⟨e, hp⟩ := List.cons_prefix_cons.mp h'
  exact ⟨e, List.reverse_prefix.mp hp⟩

theorem Replace_legacy (kv : List Nat × List Nat) (hkv : kv ∈ replacerPairs) (rest : List Nat) :
    Replace (kv.1 ++ rest) = kv.2 ++ Replace rest :=
  Replace_hit kv.1 kv.2 rest (key_ne_nil kv hkv) (lookup_key kv hkv rest)

theorem nameOf_eq (code name : List Nat) (h : (code, name) ∈ severityTable) :
    nameOf code = name := by
  simp only [severityTable, List.mem_cons, List.mem_singleton, Prod.mk.injEq,
    List.not_mem_nil, or_false] at h
  rcases h with ⟨rfl, rfl⟩ | ⟨rfl, rfl⟩ | ⟨rfl, rfl⟩ | ⟨rfl, rfl⟩ | ⟨rfl, rfl⟩ | ⟨rfl, rfl⟩ <;>
    decide

theorem end_head (t : Nat) (ht : t = 44 ∨ t = 125) :
    ([t] : List Nat).head? ≠ some 58 ∧ t ≠ 34 := by
  rcases ht with rfl | rfl <;> decide

theorem Replace_quotedEnd (s : List Nat) (t : Nat) (ht : t = 44 ∨ t = 125) (hs : plainValue s) :
    Replace (34 :: s ++ 34 :: [t]) = 34 :: s ++ 34 :: [t] := by
  rw [Replace_quoted s [t] (plainValue_quoteFree s hs.1) hs.2 (end_head t ht).1,
    (preProcess_end t ht).1]

theorem ReplaceAllString_quotedEnd (s : List Nat) (t : Nat) (ht : t = 44 ∨ t = 125)
    (hs : 34 ∉ s) :
    ReplaceAllString (34 :: s ++ 34 :: [t]) = 34 :: s ++ 34 :: [t] := by
  rw [ReplaceAllString_quoted s [t] hs (end_head t ht).1, (preProcess_end t ht).2.1]

theorem Replace_digitsEnd (d : List Nat) (t : Nat) (ht : t = 44 ∨ t = 125)
    (hd : ∀ b ∈ d, digitByte b) :
    Replace (d ++ [t]) = d ++ [t] ∧ ReplaceAllString (d ++ [t]) = d ++ [t] := by
  rw [Replace_suffix_pass d _ (digits_quoteFree d hd),
    ReplaceAllString_suffix_pass d _ (digits_quoteFree d hd),
    (preProcess_end t ht).2.2.1, (preProcess_end t ht).2.2.2]
  exact ⟨rfl, rfl⟩

/-- The second pass on `"version":"s"` and a separator. -/
theorem ReplaceAllString_versionText (s : List Nat) (t : Nat) (ht : t = 44 ∨ t = 125)
    (hs : plainValue s) (hne : s ≠ []) :
    ReplaceAllString (bytesOf "\"version\":" ++ quoted s ++ [t])
      = bytesOf "\"version\":" ++ bytesOf "0" ++ [t] := by
  have e : bytesOf "\"version\":" ++ quoted s ++ [t] = (versionOpen ++ s ++ [34]) ++ [t] := by
    simp [versionOpen, quoted, bytesOf]
  rw [e, ReplaceAllString_hit _ [t] (by simp [versionOpen, bytesOf])
    (matchVersionStrung_hit s [t] hne (plainValue_quoteFree s hs.1)),
    (preProcess_end t ht).2.2.2]
  simp [versionZero, bytesOf]

/-- The second pass on `"version":d` and a separator. -/
theorem ReplaceAllString_versionNumber (d : List Nat) (t : Nat) (ht : t = 44 ∨ t = 125)
    (hd : plainNumber d) :
    ReplaceAllString (bytesOf "\"version\":" ++ d ++ [t]) = bytesOf "\"version\":" ++ d ++ [t] := by
  have e : bytesOf "\"version\":" ++ d ++ [t]
      = 34 :: bytesOf "version" ++ 34 :: 58 :: (d ++ [t]) := by simp [bytesOf]
  rw [e, ReplaceAllString_name _ _ (by decide), (Replace_digitsEnd d t ht hd.2.1).2]
  intro _
  obtain ⟨hne, hdig, _, _⟩ := hd
  cases d with
  | nil => exact absurd rfl hne
  | cons c d =>
    have := hdig c (by simp)
    simp only [List.cons_append, List.head?_cons, ne_eq, Option.some.injEq]
    intro h
    rw [h] at this
    exact absurd this (by decide)

/-- The first pass on `"version":d` and a separator. -/
theorem Replace_versionNumber (d : List Nat) (t : Nat) (ht : t = 44 ∨ t = 125)
    (hd : plainNumber d) :
    Replace (bytesOf "\"version\":" ++ d ++ [t]) = bytesOf "\"version\":" ++ d ++ [t] := by
  have e : bytesOf "\"version\":" ++ d ++ [t]
      = 34 :: bytesOf "version" ++ 34 :: 58 :: (d ++ [t]) := by simp [bytesOf]
  rw [e, Replace_name _ _ (by decide) (by decide) (fun h => absurd h (by decide)),
    (Replace_digitsEnd d t ht hd.2.1).1]

/-- The first pass on `"version":"s"` and a separator. -/
theorem Replace_versionText (s : List Nat) (t : Nat) (ht : t = 44 ∨ t = 125)
    (hs : plainValue s) :
    Replace (bytesOf "\"version\":" ++ quoted s ++ [t])
      = bytesOf "\"version\":" ++ quoted s ++ [t] := by
  have e : bytesOf "\"version\":" ++ quoted s ++ [t]
      = 34 :: bytesOf "version" ++ 34 :: 58 :: (34 :: s ++ 34 :: [t]) := by
    simp [quoted, bytesOf]
  rw [e, Replace_name _ _ (by decide) (by decide) (fun h => absurd h (by decide)),
    Replace_quotedEnd s t ht hs]

/-- A member with a string value under a name that neither pass touches. -/
theorem preProcess_plain (n s : List Nat) (t : Nat) (ht : t = 44 ∨ t = 125)
    (hn : 34 ∉ n) (hn1 : n ≠ bytesOf "@timestamp" ∧ n ≠ bytesOf "@version")
    (hnv : n ≠ bytesOf "version") (hs : plainValue s) :
    preProcess (34 :: n ++ 34 :: 58 :: (34 :: s ++ 34 :: [t]))
      = 34 :: n ++ 34 :: 58 :: (34 :: s ++ 34 :: [t]) := by
  obtain ⟨h1, h2⟩ := preProcess_stringMember n s t ht hn hn1 hnv hs
  unfold preProcess
  rw [h1, h2]

/-- The normalization of one member and the separator after it: the member
in normal form and the separator.  A numeric level code is rewritten before a
comma only. -/
theorem preProcess_member (m : Member) (t : Nat) (ht : t = 44 ∨ t = 125)
    (hm : m.wellFormed) (hlast : t = 125 → ∀ code, m ≠ .levelCode code) :
    preProcess (m.render ++ [t]) = m.normalize.render ++ [t] := by
  cases m with
  | timestamp legacy s =>
    have hs : plainValue s := hm
    have e2 : bytesOf "\"timestamp\":" ++ quoted s ++ [t]
        = 34 :: bytesOf "timestamp" ++ 34 :: 58 :: (34 :: s ++ 34 :: [t]) := by
      simp [quoted, bytesOf]
    have h2 := preProcess_stringMember (bytesOf "timestamp") s t ht (by decide) (by decide)
      (by decide) hs
    cases legacy with
    | false =>
      show preProcess (bytesOf "\"timestamp\":" ++ quoted s ++ [t]) = bytesOf "\"timestamp\":" ++ quoted s ++ [t]
      rw [e2]
      exact preProcess_plain (bytesOf "timestamp") s t ht (by decide) (by decide) (by decide) hs
    | true =>
      show preProcess (bytesOf "\"@timestamp\":" ++ quoted s ++ [t])
        = bytesOf "\"timestamp\":" ++ quoted s ++ [t]
      have e1 : bytesOf "\"@timestamp\":" ++ quoted s ++ [t]
          = (bytesOf "\"@timestamp\"", bytesOf "\"timestamp\"").1
              ++ 58 :: (34 :: s ++ 34 :: [t]) := by
        simp [quoted, bytesOf]
      unfold preProcess
      rw [e1, Replace_legacy _ (by decide), Replace_cons_pass 58 _ (by decide),
        Replace_quotedEnd s t ht hs]
      have e3 : (bytesOf "\"@timestamp\"", bytesOf "\"timestamp\"").2
            ++ 58 :: (34 :: s ++ 34 :: [t])
          = 34 :: bytesOf "timestamp" ++ 34 :: 58 :: (34 :: s ++ 34 :: [t]) := by
        simp [bytesOf]
      rw [e3, h2.2, e2]
  | versionText legacy s =>
    have hs : plainValue s := hm.1
    cases legacy with
    | false =>
      show preProcess (bytesOf "\"version\":" ++ quoted s ++ [t])
        = bytesOf "\"version\":" ++ bytesOf "0" ++ [t]
      unfold preProcess
      rw [Replace_versionText s t ht hs, ReplaceAllString_versionText s t ht hs hm.2]
    | true =>
      show preProcess (bytesOf "\"@version\":" ++ quoted s ++ [t])
        = bytesOf "\"version\":" ++ bytesOf "0" ++ [t]
      have e1 : bytesOf "\"@version\":" ++ quoted s ++ [t]
          = (bytesOf "\"@version\"", bytesOf "\"version\"").1
              ++ 58 :: (34 :: s ++ 34 :: [t]) := by
        simp [quoted, bytesOf]
      unfold preProcess
      rw [e1, Replace_legacy _ (by decide), Replace_cons_pass 58 _ (by decide),
        Replace_quotedEnd s t ht hs]
      have e3 : (bytesOf "\"@version\"", bytesOf "\"version\"").2
            ++ 58 :: (34 :: s ++ 34 :: [t])
          = bytesOf "\"version\":" ++ quoted s ++ [t] := by
        simp [quoted, bytesOf]
      rw [e3, ReplaceAllString_versionText s t ht hs hm.2]
  | versionNumber legacy d =>
    have hd : plainNumber d := hm
    cases legacy with
    | false =>
      show preProcess (bytesOf "\"version\":" ++ d ++ [t]) = bytesOf "\"version\":" ++ d ++ [t]
      unfold preProcess
      rw [Replace_versionNumber d t ht hd, ReplaceAllString_versionNumber d t ht hd]
    | true =>
      show preProcess (bytesOf "\"@version\":" ++ d ++ [t]) = bytesOf "\"version\":" ++ d ++ [t]
      have e1 : bytesOf "\"@version\":" ++ d ++ [t]
          = (bytesOf "\"@version\"", bytesOf "\"version\"").1 ++ 58 :: (d ++ [t]) := by
        simp [bytesOf]
      unfold preProcess
      rw [e1, Replace_legacy _ (by decide), Replace_cons_pass 58 _ (by decide),
        (Replace_digitsEnd d t ht hd.2.1).1]
      have e3 : (bytesOf "\"@version\"", bytesOf "\"version\"").2 ++ 58 :: (d ++ [t])
          = bytesOf "\"version\":" ++ d ++ [t] := by
        simp [bytesOf]
      rw [e3, ReplaceAllString_versionNumber d t ht hd]
  | levelCode code =>
    obtain ⟨name, hcn⟩ := hm
    rcases ht with rfl | rfl
    · show preProcess (bytesOf "\"level\":" ++ code ++ [44])
        = bytesOf "\"level\":" ++ quoted (nameOf code) ++ [44]
      rw [nameOf_eq code name hcn]
      have e1 : bytesOf "\"level\":" ++ code ++ [44] = levelNumeric code ++ [] := by
        simp [levelNumeric, bytesOf]
      have e2 : bytesOf "\"level\":" ++ quoted name ++ [44] = levelSymbolic name := by
        simp [levelSymbolic, quoted, bytesOf]
      unfold preProcess
      rw [e1, Replace_hit _ _ [] (by simp [levelNumeric, bytesOf]) (lookup_level code name [] hcn),
        ReplaceAllString_level code name _ hcn, e2]
      have h1 : Replace [] = [] := by decide
      have h2 : ReplaceAllString [] = [] := by decide
      rw [h1, h2]
      simp
    · exact absurd rfl (hlast rfl code)
  | levelName s =>
    have hs : plainValue s := hm
    have e2 : bytesOf "\"level\":" ++ quoted s ++ [t]
        = 34 :: bytesOf "level" ++ 34 :: 58 :: (34 :: s ++ 34 :: [t]) := by
      simp [quoted, bytesOf]
    show preProcess (bytesOf "\"level\":" ++ quoted s ++ [t]) = bytesOf "\"level\":" ++ quoted s ++ [t]
    rw [e2]
    exact preProcess_plain (bytesOf "level") s t ht (by decide) (by decide) (by decide) hs
  | message s =>
    have hs : plainValue s := hm
    have e2 : bytesOf "\"message\":" ++ quoted s ++ [t]
        = 34 :: bytesOf "message" ++ 34 :: 58 :: (34 :: s ++ 34 :: [t]) := by
      simp [quoted, bytesOf]
    show preProcess (bytesOf "\"message\":" ++ quoted s ++ [t]) = bytesOf "\"message\":" ++ quoted s ++ [t]
    rw [e2]
    exact preProcess_plain (bytesOf "message") s t ht (by decide) (by decide) (by decide) hs
  | loggerName s =>
    have hs : plainValue s := hm
    have e2 : bytesOf "\"loggerName\":" ++ quoted s ++ [t]
        = 34 :: bytesOf "loggerName" ++ 34 :: 58 :: (34 :: s ++ 34 :: [t]) := by
      simp [quoted, bytesOf]
    show preProcess (bytesOf "\"loggerName\":" ++ quoted s ++ [t]) = bytesOf "\"loggerName\":" ++ quoted s ++ [t]
    rw [e2]
    exact preProcess_plain (bytesOf "loggerName") s t ht (by decide) (by decide) (by decide) hs

/-! ## The normalization of the whole object -/

theorem versionOpen_string (p s : List Nat) (hs : 34 ∉ s) :
    ¬ bytesOf "version\":\"" <:+ (p ++ [34, 58] ++ 34 :: s) ++ [34] := by
  intro h
  have e0 : bytesOf "version\":\"" = bytesOf "version\":" ++ [34] := by decide
  rw [e0] at h
  have h1 := (suffix_snoc _ _ _ _ h).2
  rcases List.eq_nil_or_concat s with rfl | ⟨s1, x, hsx⟩
  · have e1 : bytesOf "version\":" = bytesOf "version\"" ++ [58] := by decide
    have e2 : p ++ [34, 58] ++ [34] = (p ++ [34, 58]) ++ [34] := by simp
    rw [e1, e2] at h1
    exact absurd (suffix_snoc _ _ _ _ h1).1 (by decide)
  · rw [List.concat_eq_append] at hsx
    subst hsx
    have e1 : bytesOf "version\":" = bytesOf "version\"" ++ [58] := by decide
    have e2 : p ++ [34, 58] ++ 34 :: (s1 ++ [x]) = (p ++ [34, 58] ++ 34 :: s1) ++ [x] := by simp
    rw [e1, e2] at h1
    have h2 := (suffix_snoc _ _ _ _ h1).2
    rcases List.eq_nil_or_concat s1 with rfl | ⟨s2, y, hsy⟩
    · have e3 : bytesOf "version\"" = bytesOf "version" ++ [34] := by decide
      have e4 : p ++ [34, 58] ++ [34] = (p ++ [34, 58]) ++ [34] := by simp
      rw [e3, e4] at h2
      have h3 := (suffix_snoc _ _ _ _ h2).2
      have e5 : bytesOf "version" = bytesOf "versio" ++ [110] := by decide
      have e6 : p ++ [34, 58] = (p ++ [34]) ++ [58] := by simp
      rw [e5, e6] at h3
      exact absurd (suffix_snoc _ _ _ _ h3).1 (by decide)
    · rw [List.concat_eq_append] at hsy
      subst hsy
      have e3 : bytesOf "version\"" = bytesOf "version" ++ [34] := by decide
      have e4 : p ++ [34, 58] ++ 34 :: (s2 ++ [y]) = (p ++ [34, 58] ++ 34 :: s2) ++ [y] := by
        simp
      rw [e3, e4] at h2
      have hy := (suffix_snoc _ _ _ _ h2).1
      apply hs
      rw [← hy]
      simp

/-- What ends with a comma ends with none of the three texts that end with
`p`, `n` and a colon. -/
theorem clearBefore_comma (a : List Nat)
    (h4 : ¬ (afterLastQuote (a ++ [44]) ≠ []
      ∧ bytesOf "version\":\"" <:+ uptoLastQuote (a ++ [44]))) :
    clearBefore (a ++ [44]) := by
  refine ⟨?_, ?_, ?_, h4⟩
  · have e : bytesOf "\"@timestamp" = bytesOf "\"@timestam" ++ [112] := by decide
    rw [e]
    exact fun h => absurd (suffix_snoc _ _ _ _ h).1 (by decide)
  · have e : bytesOf "\"@version" = bytesOf "\"@versio" ++ [110] := by decide
    rw [e]
    exact fun h => absurd (suffix_snoc _ _ _ _ h).1 (by decide)
  · have e : bytesOf "version\":" = bytesOf "version\"" ++ [58] := by decide
    rw [e]
    exact fun h => absurd (suffix_snoc _ _ _ _ h).1 (by decide)

theorem clearBefore_string (p s : List Nat) (hs : 34 ∉ s) :
    clearBefore ((p ++ [34, 58] ++ quoted s) ++ [44]) := by
  apply clearBefore_comma
  have e : (p ++ [34, 58] ++ quoted s) ++ [44] = (p ++ [34, 58] ++ 34 :: s) ++ 34 :: [44] := by
    simp [quoted]
  rw [e, (afterLastQuote_eq _ [44] (by decide)).2]
  exact fun h => versionOpen_string p s hs h.2

theorem clearBefore_number (n d : List Nat) (hd : 34 ∉ d)
    (hn : ¬ bytesOf "version\":\"" <:+ 34 :: n ++ [34]) :
    clearBefore ((34 :: n ++ [34, 58] ++ d) ++ [44]) := by
  apply clearBefore_comma
  have e : (34 :: n ++ [34, 58] ++ d) ++ [44] = (34 :: n) ++ 34 :: (58 :: d ++ [44]) := by
    simp
  have hq : 34 ∉ 58 :: d ++ [44] := by
    simp only [List.cons_append, List.mem_cons, List.mem_append, List.mem_singleton, not_or]
    exact ⟨by decide, hd, by decide⟩
  rw [e, (afterLastQuote_eq _ _ hq).2]
  exact fun h => hn h.2

/-- The text of a well-formed member and a comma is `clearBefore`: the
member after it is rewritten on its own. -/
theorem clearBefore_member (m : Member) (hm : m.wellFormed) : clearBefore (m.render ++ [44]) := by
  cases m with
  | timestamp legacy s =>
    have hs := plainValue_quoteFree s (show plainValue s from hm).1
    cases legacy with
    | false =>
      have := clearBefore_string (bytesOf "\"timestamp") s hs
      simpa [Member.render, bytesOf] using this
    | true =>
      have := clearBefore_string (bytesOf "\"@timestamp") s hs
      simpa [Member.render, bytesOf] using this
  | versionText legacy s =>
    have hs := plainValue_quoteFree s hm.1.1
    cases legacy with
    | false =>
      have := clearBefore_string (bytesOf "\"version") s hs
      simpa [Member.render, bytesOf] using this
    | true =>
      have := clearBefore_string (bytesOf "\"@version") s hs
      simpa [Member.render, bytesOf] using this
  | versionNumber legacy d =>
    have hd := digits_quoteFree d (show plainNumber d from hm).2.1
    cases legacy with
    | false =>
      have := clearBefore_number (bytesOf "version") d hd (by decide)
      simpa [Member.render, bytesOf] using this
    | true =>
      have := clearBefore_number (bytesOf "@version") d hd (by decide)
      simpa [Member.render, bytesOf] using this
  | levelCode code =>
    obtain ⟨name, hcn⟩ := hm
    simp only [severityTable, List.mem_cons, List.mem_singleton, Prod.mk.injEq,
      List.not_mem_nil, or_false] at hcn
    rcases hcn with ⟨rfl, rfl⟩ | ⟨rfl, rfl⟩ | ⟨rfl, rfl⟩ | ⟨rfl, rfl⟩ | ⟨rfl, rfl⟩ | ⟨rfl, rfl⟩ <;>
      decide
  | levelName s =>
    have hs := plainValue_quoteFree s (show plainValue s from hm).1
    have := clearBefore_string (bytesOf "\"level") s hs
    simpa [Member.render, bytesOf] using this
  | message s =>
    have hs := plainValue_quoteFree s (show plainValue s from hm).1
    have := clearBefore_string (bytesOf "\"message") s hs
    simpa [Member.render, bytesOf] using this
  | loggerName s =>
    have hs := plainValue_quoteFree s (show plainValue s from hm).1
    have := clearBefore_string (bytesOf "\"loggerName") s hs
    simpa [Member.render, bytesOf] using this

theorem render_head (m : Member) :
    ∃ c r, m.render = 34 :: c :: r ∧ c ≠ 58 ∧ c ≠ 34 := by
  cases m with
  | timestamp legacy s => cases legacy <;> exact ⟨_, _, rfl, by decide, by decide⟩
  | versionText legacy s => cases legacy <;> exact ⟨_, _, rfl, by decide, by decide⟩
  | versionNumber legacy d => cases legacy <;> exact ⟨_, _, rfl, by decide, by decide⟩
  | levelCode code => exact ⟨_, _, rfl, by decide, by decide⟩
  | levelName s => exact ⟨_, _, rfl, by decide, by decide⟩
  | message s => exact ⟨_, _, rfl, by decide, by decide⟩
  | loggerName s => exact ⟨_, _, rfl, by decide, by decide⟩

theorem renderFrom_head (m : Member) (ms : List Member) :
    ∃ c r, renderFrom (m :: ms) = 34 :: c :: r ∧ c ≠ 58 ∧ c ≠ 34 := by
  obtain ⟨c, r, e, h1, h2⟩ := render_head m
  cases ms with
  | nil => exact ⟨c, r ++ [125], by simp [renderFrom, e], h1, h2⟩
  | cons m' ms => exact ⟨c, r ++ 44 :: renderFrom (m' :: ms), by simp [renderFrom, e], h1, h2⟩

/-- The members of a well-formed object are normalized one by one, when the
last member is not a numeric level code. -/
theorem preProcess_renderFrom : ∀ ms : List Member, (∀ m ∈ ms, m.wellFormed) →
    (∀ code, ms.getLast? ≠ some (.levelCode code)) →
    preProcess (renderFrom ms) = renderFrom (ms.map Member.normalize)
  | [], _, _ => by decide
  | [m], hwf, hlast => by
    show preProcess (m.render ++ [125]) = m.normalize.render ++ [125]
    exact preProcess_member m 125 (Or.inr rfl) (hwf m (by simp))
      (fun _ code h => hlast code (by simp [h]))
  | m :: m' :: ms, hwf, hlast => by
    have ih := preProcess_renderFrom (m' :: ms) (fun x hx => hwf x (by simp [hx]))
      (fun code h => hlast code (by simpa using h))
    obtain ⟨c, r, e, h1, h2⟩ := renderFrom_head m' ms
    have e1 : renderFrom (m :: m' :: ms) = (m.render ++ [44]) ++ 34 :: c :: r := by
      rw [← e]; simp [renderFrom]
    rw [e1, preProcess_append _ c r (clearBefore_member m (hwf m (by simp))) h1 h2, ← e, ih,
      preProcess_member m 44 (Or.inl rfl) (hwf m (by simp)) (fun h => absurd h (by decide))]
    simp [renderFrom]

theorem preProcess_renderObject (ms : List Member) (hwf : ∀ m ∈ ms, m.wellFormed)
    (hlast : ∀ code, ms.getLast? ≠ some (.levelCode code)) :
    preProcess (renderObject ms) = renderObject (ms.map Member.normalize) := by
  have h := preProcess_renderFrom ms hwf hlast
  unfold preProcess at h ⊢
  unfold renderObject
  rw [Replace_cons_pass 123 _ (by decide), ReplaceAllString_cons_pass 123 _ (by decide), h]

/-! ## The decoder model obeys the law of the decoder -/

theorem foldl_inString (name : List Nat) (r : MakoJSON) : ∀ (s acc : List Nat),
    (∀ b ∈ s, plainByte b) →
    s.foldl decodeStep (.inString name acc, r) = (.inString name (acc ++ s), r)
  | [], acc, _ => by simp
  | b :: s, acc, h => by
    have hb := h b (by simp)
    have h34 : b ≠ 34 := hb.2.2.1
    rw [List.foldl_cons]
    have e : decodeStep (.inString name acc, r) b = (.inString name (acc ++ [b]), r) := by
      simp [decodeStep, h34, hb]
    rw [e, foldl_inString name r s (acc ++ [b]) (fun x hx => h x (by simp [hx]))]
    simp

theorem foldl_inNumber (name : List Nat) (r : MakoJSON) : ∀ (d acc : List Nat),
    (∀ b ∈ d, digitByte b) → acc ≠ [] → (d ≠ [] → acc ≠ [48]) →
    d.foldl decodeStep (.inNumber name acc, r) = (.inNumber name (acc ++ d), r)
  | [], acc, _, _, _ => by simp
  | b :: d, acc, h, hne, h48 => by
    have hb := h b (by simp)
    rw [List.foldl_cons]
    have e : decodeStep (.inNumber name acc, r) b = (.inNumber name (acc ++ [b]), r) := by
      simp [decodeStep, hb, h48 (by simp)]
    rw [e, foldl_inNumber name r d (acc ++ [b]) (fun x hx => h x (by simp [hx])) (by simp)
      (fun _ h1 => by
        have := congrArg List.length h1
        have hl := List.length_pos.mpr hne
        rw [List.length_append, List.length_singleton, List.length_singleton] at this
        omega)]
    simp

/-- The decoder model on a member with a string value, from the place where a
member name may start. -/
theorem foldl_string (name s rest : List Nat) (t : Nat) (r r' : MakoJSON) (st : DecodeState)
    (hst : st = .first ∨ st = .key) (ht : t = 44 ∨ t = 125)
    (hname : ∀ b ∈ name, plainByte b) (hs : ∀ b ∈ s, plainByte b)
    (hstore : storeString r name s = some r') :
    (34 :: name ++ 34 :: 58 :: (quoted s ++ t :: rest)).foldl decodeStep (st, r)
      = rest.foldl decodeStep (if t = 44 then .key else .done, r') := by
  have e0 : decodeStep (st, r) 34 = (.inKey [], r) := by
    rcases hst with rfl | rfl <;> simp [decodeStep]
  have hk : ∀ (n acc : List Nat), (∀ b ∈ n, plainByte b) →
      n.foldl decodeStep (.inKey acc, r) = (.inKey (acc ++ n), r) := by
    intro n
    induction n with
    | nil => intro acc _; simp
    | cons b n ih =>
      intro acc h
      have hb := h b (by simp)
      have h34 : b ≠ 34 := hb.2.2.1
      rw [List.foldl_cons]
      have e : decodeStep (.inKey acc, r) b = (.inKey (acc ++ [b]), r) := by
        simp [decodeStep, h34, hb]
      rw [e, ih (acc ++ [b]) (fun x hx => h x (by simp [hx]))]
      simp
  have e1 : decodeStep (.inKey name, r) 34 = (.colon name, r) := by simp [decodeStep]
  have e2 : decodeStep (.colon name, r) 58 = (.value name, r) := by simp [decodeStep]
  have e3 : decodeStep (.value name, r) 34 = (.inString name [], r) := by simp [decodeStep]
  have e4 : decodeStep (.inString name s, r) 34 = (.next, r') := by
    simp [decodeStep, hstore]
  have e5 : decodeStep (.next, r') t = (if t = 44 then .key else .done, r') := by
    rcases ht with rfl | rfl <;> simp [decodeStep]
  simp only [quoted, List.cons_append, List.foldl_cons, List.foldl_append, List.append_assoc,
    List.nil_append]
  rw [e0, hk name [] hname]
  simp only [List.nil_append, List.foldl_cons]
  rw [e1, e2, e3, foldl_inString name r s [] hs]
  simp only [List.nil_append, List.foldl_cons]
  rw [e4, e5]

/-- The decoder model on a member with a number as its value. -/
theorem foldl_number (name d rest : List Nat) (t : Nat) (r r' : MakoJSON) (st : DecodeState)
    (hst : st = .first ∨ st = .key) (ht : t = 44 ∨ t = 125)
    (hname : ∀ b ∈ name, plainByte b) (hd : plainNumber d)
    (hstore : storeNumber r name d = some r') :
    (34 :: name ++ 34 :: 58 :: (d ++ t :: rest)).foldl decodeStep (st, r)
      = rest.foldl decodeStep (if t = 44 then .key else .done, r') := by
  have e0 : decodeStep (st, r) 34 = (.inKey [], r) := by
    rcases hst with rfl | rfl <;> simp [decodeStep]
  have hk : ∀ (n acc : List Nat), (∀ b ∈ n, plainByte b) →
      n.foldl decodeStep (.inKey acc, r) = (.inKey (acc ++ n), r) := by
    intro n
    induction n with
    | nil => intro acc _; simp
    | cons b n ih =>
      intro acc h
      have hb := h b (by simp)
      have h34 : b ≠ 34 := hb.2.2.1
      rw [List.foldl_cons]
      have e : decodeStep (.inKey acc, r) b = (.inKey (acc ++ [b]), r) := by
        simp [decodeStep, h34, hb]
      rw [e, ih (acc ++ [b]) (fun x hx => h x (by simp [hx]))]
      simp
  obtain ⟨hne, hdig, _, hz⟩ := hd
  cases d with
  | nil => exact absurd rfl hne
  | cons c d =>
    have hc := hdig c (by simp)
    have hc34 : c ≠ 34 := fun h => by rw [h] at hc; exact absurd hc (by decide)
    have e1 : decodeStep (.inKey name, r) 34 = (.colon name, r) := by simp [decodeStep]
    have e2 : decodeStep (.colon name, r) 58 = (.value name, r) := by simp [decodeStep]
    have e3 : decodeStep (.value name, r) c = (.inNumber name [c], r) := by
      simp [decodeStep, hc34, hc]
    have ht1 : ¬ digitByte t := by rcases ht with rfl | rfl <;> decide
    have e4 : decodeStep (.inNumber name (c :: d), r) t
        = (if t = 44 then .key else .done, r') := by
      simp [decodeStep, ht1, ht, hstore]
    simp only [List.cons_append, List.foldl_cons, List.foldl_append, List.append_assoc,
      List.nil_append]
    rw [e0, hk name [] hname]
    simp only [List.nil_append, List.foldl_cons]
    rw [e1, e2, e3, foldl_inNumber name r d [c] (fun x hx => hdig x (by simp [hx])) (by simp)
      (fun hd1 h1 => by
        have : c = 48 := by simpa using h1
        have h2 := hz (by simp [this])
        simp at h2
        exact hd1 h2.2)]
    simp only [List.singleton_append, List.foldl_cons]
    rw [e4]

/-- The decoder model on one member in normal form and the separator after it. -/
theorem foldl_member (m : Member) (rest : List Nat) (t : Nat) (r : MakoJSON) (st : DecodeState)
    (hst : st = .first ∨ st = .key) (ht : t = 44 ∨ t = 125)
    (hm : m.wellFormed) (hn : m.normalize = m) :
    (m.render ++ t :: rest).foldl decodeStep (st, r)
      = rest.foldl decodeStep (if t = 44 then .key else .done, m.store r) := by
  cases m with
  | timestamp legacy s =>
    cases legacy with
    | true => simp [Member.normalize] at hn
    | false =>
      have := foldl_string (bytesOf "timestamp") s rest t r _ st hst ht (by decide)
        (show plainValue s from hm).1 rfl
      simpa [Member.render, bytesOf, quoted] using this
  | versionText legacy s => simp [Member.normalize] at hn
  | versionNumber legacy d =>
    cases legacy with
    | true => simp [Member.normalize] at hn
    | false =>
      have := foldl_number (bytesOf "version") d rest t r _ st hst ht (by decide)
        (show plainNumber d from hm) rfl
      simpa [Member.render, bytesOf] using this
  | levelCode code => simp [Member.normalize] at hn
  | levelName s =>
    have := foldl_string (bytesOf "level") s rest t r _ st hst ht (by decide)
      (show plainValue s from hm).1 rfl
    simpa [Member.render, bytesOf, quoted] using this
  | message s =>
    have := foldl_string (bytesOf "message") s rest t r _ st hst ht (by decide)
      (show plainValue s from hm).1 rfl
    simpa [Member.render, bytesOf, quoted] using this
  | loggerName s =>
    have := foldl_string (bytesOf "loggerName") s rest t r _ st hst ht (by decide)
      (show plainValue s from hm).1 rfl
    simpa [Member.render, bytesOf, quoted] using this

/-- The decoder model on the members of an object in normal form: it ends in
the accepting state with every member stored in turn. -/
theorem foldl_renderFrom : ∀ (ms : List Member) (st : DecodeState) (r : MakoJSON),
    (∀ m ∈ ms, m.wellFormed ∧ m.normalize = m) →
    (st = .first ∨ (st = .key ∧ ms ≠ [])) →
    (renderFrom ms).foldl decodeStep (st, r) = (.done, ms.foldl Member.store r)
  | [], st, r, _, hst => by
    rcases hst with rfl | ⟨_, h⟩
    · rfl
    · exact absurd rfl h
  | [m], st, r, h, hst => by
    have hst' : st = .first ∨ st = .key := hst.imp id (fun x => x.1)
    have := foldl_member m [] 125 r st hst' (Or.inr rfl) (h m (by simp)).1 (h m (by simp)).2
    simpa [renderFrom] using this
  | m :: m' :: ms, st, r, h, hst => by
    have hst' : st = .first ∨ st = .key := hst.imp id (fun x => x.1)
    have h1 := foldl_member m (renderFrom (m' :: ms)) 44 r st hst' (Or.inl rfl)
      (h m (by simp)).1 (h m (by simp)).2
    have ih := foldl_renderFrom (m' :: ms) .key (m.store r) (fun x hx => h x (by simp [hx]))
      (Or.inr ⟨rfl, by simp⟩)
    show (m.render ++ 44 :: renderFrom (m' :: ms)).foldl decodeStep (st, r) = _
    rw [h1]
    simpa using ih

theorem store_fields : ∀ (ms : List Member) (r : MakoJSON),
    (ms.foldl Member.store r).Timestamp
        = ms.foldl (fun acc m => match m with | .timestamp _ s => s | _ => acc) r.Timestamp
    ∧ (ms.foldl Member.store r).Level
        = ms.foldl (fun acc m => match m with | .levelName s => s | _ => acc) r.Level
    ∧ (ms.foldl Member.store r).Message
        = ms.foldl (fun acc m => match m with | .message s => s | _ => acc) r.Message
    ∧ (ms.foldl Member.store r).LoggerName
        = ms.foldl (fun acc m => match m with | .loggerName s => s | _ => acc) r.LoggerName
  | [], r => ⟨rfl, rfl, rfl, rfl⟩
  | m :: ms, r => by
    have ih := store_fields ms (m.store r)
    simp only [List.foldl_cons]
    cases m <;> exact ih

/-- The decoder model accepts every object of well-formed members in normal
form and stores the last value of each name. -/
theorem decodeMako_members (ms : List Member) (h : ∀ m ∈ ms, m.wellFormed ∧ m.normalize = m) :
    decodeMako (renderObject ms) = (ms.foldl Member.store MakoJSON.zero, none) := by
  unfold decodeMako renderObject
  rw [List.foldl_cons]
  have e : decodeStep (.start, MakoJSON.zero) 123 = (.first, MakoJSON.zero) := rfl
  rw [e, foldl_renderFrom ms .first _ h (Or.inl rfl)]

theorem makoEnv_decodesMembers (year : Int) : decodesMembers (makoEnv year) := by
  intro ms h
  refine ⟨ms.foldl Member.store MakoJSON.zero, decodeMako_members ms h, ?_⟩
  exact store_fields ms MakoJSON.zero

/-! ## Parse on a line `hdr host app[pid]: payload` -/

theorem hostnameEnd_scan (buff : List Nat) : ∀ (host pre rest : List Nat) (fuel : Nat),
    buff = pre ++ host ++ 32 :: rest → (∀ b ∈ host, b ≠ 32) → host.length < fuel →
    hostnameEnd buff buff.length fuel pre.length = .ok (pre.length + host.length)
  | [], pre, rest, fuel, hbuf, _, hfuel => by
    obtain ⟨f, rfl⟩ : ∃ f, fuel = f + 1 := ⟨fuel - 1, by simp at hfuel; omega⟩
    have hget : buff[pre.length]? = some 32 := getElem?_mid pre rest 32 (by simpa using hbuf) rfl
    have hlt : pre.length < buff.length := by
      have := congrArg List.length hbuf
      simp at this
      omega
    simp [hostnameEnd, hget, hlt]
  | b :: host, pre, rest, fuel, hbuf, hh, hfuel => by
    obtain ⟨f, rfl⟩ : ∃ f, fuel = f + 1 := ⟨fuel - 1, by simp at hfuel; omega⟩
    have hget : buff[pre.length]? = some b :=
      getElem?_mid pre (host ++ 32 :: rest) b (by simpa using hbuf) rfl
    have hlt : pre.length < buff.length := by
      have := congrArg List.length hbuf
      simp at this
      omega
    have hb : b ≠ 32 := hh b (by simp)
    have ih := hostnameEnd_scan buff host (pre ++ [b]) rest f (by simpa using hbuf)
      (fun x hx => hh x (by simp [hx])) (by simp at hfuel; omega)
    rw [hostnameEnd]
    simp only [hlt, if_true, hget, hb, if_false]
    simp only [List.length_append, List.length_singleton] at ih
    rw [ih]
    simp only [List.length_cons]
    congr 1
    omega

theorem parseHostname_scan (line pre host rest : List Nat)
    (hline : line = pre ++ host ++ 32 :: rest) (hh : ∀ b ∈ host, b ≠ 32) :
    parseHostname (parserAt line pre.length)
      = .ok ((host, none), parserAt line (pre.length + host.length + 1)) := by
  have hlen : line.length = pre.length + host.length + 1 + rest.length := by
    rw [hline]; simp; omega
  have hend := hostnameEnd_scan line host pre rest (line.length - pre.length) hline hh
    (by omega)
  have hsl : slice line pre.length (pre.length + host.length) = .ok host :=
    slice_mid pre host (32 :: rest) hline rfl rfl
  have hlt : pre.length + host.length < line.length := by omega
  simp [parseHostname, parserAt, NewParser, ParseHostname, hend, hsl, hlt]

theorem parseApp_scan_bracketed (text pre tag pid rest : List Nat)
    (hline : text = pre ++ tag ++ [91] ++ pid ++ [93] ++ [58] ++ 32 :: rest)
    (htag : ∀ b ∈ tag, plain b) (hpid : ∀ b ∈ pid, plain b) :
    parseApp (parserAt text pre.length)
      = .ok ((tag, pid, none), parserAt text (pre.length + tag.length + pid.length + 4)) := by
  have hfuel : text.length - pre.length + 1
      = tag.length + ((pid.length + (((rest.length + 1) + 2) + 1)) + 1) := by
    have hlen := congrArg List.length hline
    simp only [List.length_append, List.length_singleton, List.length_cons,
      List.length_nil] at hlen
    omega
  have hloop := parseAppLoop_bracketed text pre tag pid (32 :: rest) 58 ((rest.length + 1) + 2)
    hline htag hpid
  have hget : text[pre.length + tag.length + 1 + pid.length + 2]? = some 32 :=
    getElem?_mid (pre ++ tag ++ [91] ++ pid ++ [93] ++ [58]) rest 32 hline (by simp; omega)
  have e : parseApp (parserAt text pre.length)
      = match parseAppLoop text (text.length - pre.length + 1)
          ⟨pre.length, pre.length, [], [], false, false⟩ with
        | .fault f => .fault f
        | .ok s =>
          match skipSpace text text.length s.cursor with
          | .fault f => .fault f
          | .ok c => .ok ((s.app, s.pid, none), parserAt text c) := rfl
  rw [e, hfuel, hloop]
  simp only [skipSpace_eq, hget, if_true]
  congr 3
  omega

theorem trimSpace_id (s : List Nat) (hhead : s.head? ≠ some 32) (hlast : s.getLast? ≠ some 32) :
    trimSpace s = s := by
  have hl : ∀ x : List Nat, x.head? ≠ some 32 → trimLeftByte 32 x = x := by
    intro x hx
    cases x with
    | nil => rfl
    | cons b bs =>
      have : b ≠ 32 := fun h => hx (by simp [h])
      simp [trimLeftByte, this]
  have hr : trimRightByte 32 s = s := by
    unfold trimRightByte
    rw [hl s.reverse (by simpa [List.head?_reverse] using hlast)]
    simp
  unfold trimSpace
  rw [hr, hl s hhead]

theorem parseContent_rest (line pre payload : List Nat) (hline : line = pre ++ payload)
    (hhead : payload.head? ≠ some 32) (hlast : payload.getLast? ≠ some 32) :
    parseContent (parserAt line pre.length)
      = .ok ((payload, some .ErrEOL), parserAt line line.length) := by
  have hsl : slice line pre.length line.length = .ok payload := by
    have := @slice_mid line pre.length line.length pre payload []
      (by simpa using hline) rfl (by rw [hline]; simp)
    exact this
  have hle : ¬ pre.length > line.length := by rw [hline]; simp
  have hlen : pre.length + payload.length = line.length := by rw [hline]; simp
  simp [parseContent, parserAt, NewParser, hsl, hle, trimSpace_id payload hhead hlast, hlen]

theorem makoLine_length (hdr host app pid payload : List Nat) :
    (makoLine hdr host app pid payload).length
      = hdr.length + host.length + app.length + pid.length + payload.length + 6 := by
  simp [makoLine, bytesOf]
  omega

/-- `Parse` on a line `hdr host app[pid]: payload` with a header time of fifteen
bytes, a host name without a space, an app name and a process id without
delimiters and a payload without a space at either end. -/
theorem Parse_makoLine (env : Env) (hdr host app pid payload : List Nat)
    (hhdr : hdr.length = 15) (hhost : ∀ b ∈ host, b ≠ 32)
    (happ : ∀ b ∈ app, plain b) (hpid : ∀ b ∈ pid, plain b)
    (hhead : payload.head? ≠ some 32) (hlast : payload.getLast? ≠ some 32) :
    Parse env (NewParser (makoLine hdr host app pid payload))
      = match parseLayouts env hdr with
        | none => .ok (some .ErrTimestampUnknownFormat,
            parserAt (makoLine hdr host app pid payload) 16)
        | some t =>
          match env.jsonDecode (preProcess payload) with
          | (_, some tag) => .ok (some (.library tag),
              parserAt (makoLine hdr host app pid payload)
                (makoLine hdr host app pid payload).length)
          | (mako, none) =>
            .ok (none, { parserAt (makoLine hdr host app pid payload)
                (makoLine hdr host app pid payload).length with
              version := env.NoVersion,
              header := { timestamp := fixTimestampIfNeeded env t, hostname := host },
              message := { app := app, pid := pid, content := payload, mako := mako } }) := by
  have hlen := makoLine_length hdr host app pid payload
  have hget15 : (makoLine hdr host app pid payload)[15]? = some 32 :=
    getElem?_mid hdr (host ++ 32 :: app ++ 91 :: pid ++ bytesOf "]: " ++ payload) 32
      (by simp [makoLine]) hhdr.symm
  have h1 := parseHostname_scan (makoLine hdr host app pid payload) (hdr ++ [32]) host
    (app ++ 91 :: pid ++ bytesOf "]: " ++ payload) (by simp [makoLine]) hhost
  have h2 := parseApp_scan_bracketed (makoLine hdr host app pid payload)
    (hdr ++ 32 :: host ++ [32]) app pid payload (by simp [makoLine, bytesOf]) happ hpid
  have h3 := parseContent_rest (makoLine hdr host app pid payload)
    (hdr ++ 32 :: host ++ 32 :: app ++ 91 :: pid ++ bytesOf "]: ") payload
    (by simp [makoLine]) hhead hlast
  have hb : ∃ b, (makoLine hdr host app pid payload)[16 + host.length + 1]? = some b
      ∧ b ≠ 32 := by
    cases app with
    | nil =>
      exact ⟨91, getElem?_mid (hdr ++ 32 :: host ++ [32]) (pid ++ bytesOf "]: " ++ payload) 91
        (by simp [makoLine]) (by simp [hhdr]; omega), by decide⟩
    | cons a app =>
      exact ⟨a, getElem?_mid (hdr ++ 32 :: host ++ [32])
        (app ++ 91 :: pid ++ bytesOf "]: " ++ payload) a
        (by simp [makoLine]) (by simp [hhdr]; omega), (happ a (by simp)).2.2.2⟩
  obtain ⟨b, hbget, hb32⟩ := hb
  have e1 : (hdr ++ [32]).length = 16 := by simp [hhdr]
  have e2 : (hdr ++ 32 :: host ++ [32]).length = 16 + host.length + 1 := by simp [hhdr]; omega
  have e3 : (hdr ++ 32 :: host ++ 32 :: app ++ 91 :: pid ++ bytesOf "]: ").length
      = 16 + host.length + 1 + app.length + pid.length + 4 := by
    simp [hhdr, bytesOf]; omega
  rw [e1] at h1
  rw [e2] at h2
  rw [e3] at h3
  exact Parse_steps env (makoLine hdr host app pid payload) hdr host app pid payload
    16 16 (16 + host.length + 1) (16 + host.length + 1 + app.length + pid.length + 4)
    (makoLine hdr host app pid payload).length b
    (by simp [NewParser, hlen]; omega)
    (by simp [NewParser, makoLine, hhdr, List.take_append_eq_append_take])
    (by simp [NewParser, parserAt, hget15])
    (by simp [NewParser, parserAt, hget15])
    h1 (by simpa [parserAt, NewParser] using hbget) hb32 h2 h3

/-! ## The members after the normalization -/

theorem normalize_wellFormed (m : Member) (h : m.wellFormed) :
    m.normalize.wellFormed ∧ m.normalize.normalize = m.normalize := by
  cases m with
  | timestamp legacy s => exact ⟨h, rfl⟩
  | versionText legacy s =>
    refine ⟨?_, rfl⟩
    show plainNumber (bytesOf "0")
    exact ⟨by decide, by decide, by decide, by decide⟩
  | versionNumber legacy d => exact ⟨h, rfl⟩
  | levelCode code =>
    obtain ⟨name, hcn⟩ := h
    refine ⟨?_, rfl⟩
    show plainValue (nameOf code)
    rw [nameOf_eq code name hcn]
    simp only [severityTable, List.mem_cons, List.mem_singleton, Prod.mk.injEq,
      List.not_mem_nil, or_false] at hcn
    rcases hcn with ⟨_, rfl⟩ | ⟨_, rfl⟩ | ⟨_, rfl⟩ | ⟨_, rfl⟩ | ⟨_, rfl⟩ | ⟨_, rfl⟩ <;>
      (unfold plainValue; decide)
  | levelName s => exact ⟨h, rfl⟩
  | message s => exact ⟨h, rfl⟩
  | loggerName s => exact ⟨h, rfl⟩

theorem foldl_level_none : ∀ (l : List Member) (acc : List Nat),
    (∀ m ∈ l, m.isLevel = false) →
    (l.map Member.normalize).foldl (fun acc m => match m with | .levelName s => s | _ => acc) acc
      = acc
  | [], _, _ => rfl
  | m :: l, acc, h => by
    have hm := h m (by simp)
    have ih := foldl_level_none l acc (fun x hx => h x (by simp [hx]))
    cases m <;> first
      | (simp [Member.isLevel] at hm; done)
      | simpa [Member.normalize] using ih

theorem foldl_normalize : ∀ (l : List Member) (a b c : List Nat),
    (l.map Member.normalize).foldl
        (fun acc m => match m with | .timestamp _ s => s | _ => acc) a
      = l.foldl (fun acc m => match m with | .timestamp _ s => s | _ => acc) a
    ∧ (l.map Member.normalize).foldl
        (fun acc m => match m with | .message s => s | _ => acc) b
      = l.foldl (fun acc m => match m with | .message s => s | _ => acc) b
    ∧ (l.map Member.normalize).foldl
        (fun acc m => match m with | .loggerName s => s | _ => acc) c
      = l.foldl (fun acc m => match m with | .loggerName s => s | _ => acc) c
  | [], _, _, _ => ⟨rfl, rfl, rfl⟩
  | m :: l, a, b, c => by
    cases m <;> simp only [List.map_cons, List.foldl_cons, Member.normalize] <;>
      exact foldl_normalize l _ _ _

/-- The level name among the normalized members of a payload whose last level
member is the numeric code `code`. -/
theorem lastLevel_normalize (pre post : List Member) (code : List Nat)
    (hpost : ∀ m ∈ post, m.isLevel = false) :
    lastLevel ((pre ++ .levelCode code :: post).map Member.normalize) = nameOf code := by
  unfold lastLevel
  rw [List.map_append, List.foldl_append, List.map_cons, List.foldl_cons]
  exact foldl_level_none post _ hpost

theorem renderFrom_last : ∀ ms : List Member, ∃ x, renderFrom ms = x ++ [125]
  | [] => ⟨[], rfl⟩
  | [m] => ⟨m.render, rfl⟩
  | m :: m' :: ms => by
    obtain ⟨x, hx⟩ := renderFrom_last (m' :: ms)
    exact ⟨m.render ++ 44 :: x, by simp [renderFrom, hx]⟩

theorem renderObject_ends (ms : List Member) :
    (renderObject ms).head? ≠ some 32 ∧ (renderObject ms).getLast? ≠ some 32 := by
  obtain ⟨x, hx⟩ := renderFrom_last ms
  constructor
  · simp [renderObject]
  · have : renderObject ms = (123 :: x) ++ [125] := by simp [renderObject, hx]
    rw [this, List.getLast?_append_of_ne_nil _ (by simp)]
    simp

theorem getLast_levelCode (pre post : List Member) (code : List Nat) (hne : post ≠ [])
    (hpost : ∀ m ∈ post, m.isLevel = false) :
    ∀ c, (pre ++ .levelCode code :: post).getLast? ≠ some (.levelCode c) := by
  intro c h
  have e : pre ++ .levelCode code :: post = (pre ++ [.levelCode code]) ++ post := by simp
  rw [e, List.getLast?_append_of_ne_nil _ hne] at h
  have hm := List.mem_of_getLast?_eq_some h
  have := hpost _ hm
  simp [Member.isLevel] at this

/-! ## End-to-end level decoding -/

/-- C7, as stated, fails: the decoder never sees the numeric code.  The lines
with `"level":50,` and `"level":60,` normalize to the same payload, so under no
library can `Parse` succeed on both with `level_value` equal to `50` on the one
and to `60` on the other. -/
theorem Parse_level_value_collapse :
    ¬ ∃ env : Env,
      (∃ p, Parse env (NewParser (sampleLine (bytesOf "50"))) = .ok (none, p)
        ∧ (Dump env p).get "level_value" = some (bytesOf "50"))
      ∧ (∃ p, Parse env (NewParser (sampleLine (bytesOf "60"))) = .ok (none, p)
        ∧ (Dump env p).get "level_value" = some (bytesOf "60")) := by
  rintro ⟨env, ⟨p, hp, hv⟩, ⟨q, hq, hw⟩⟩
  rw [Parse_sampleLine_eq env (bytesOf "50") (bytesOf "ERROR") (by decide)] at hp
  rw [Parse_sampleLine_eq env (bytesOf "60") (bytesOf "ERROR") (by decide)] at hq
  cases hlay : parseLayouts env (bytesOf "Oct 11 22:14:15") with
  | none => simp [hlay] at hp
  | some t =>
    rcases hdec : env.jsonDecode (sampleNormalized (bytesOf "ERROR")) with ⟨mako, _ | tag⟩
    · simp only [hlay, hdec, Run.ok.injEq, Prod.mk.injEq, true_and] at hp hq
      subst hp hq
      have h50 : (Dump env (sampleParsed env (bytesOf "50") (fixTimestampIfNeeded env t) mako)).get
          "level_value" = some (Itoa mako.LevelValue) := rfl
      have h60 : (Dump env (sampleParsed env (bytesOf "60") (fixTimestampIfNeeded env t) mako)).get
          "level_value" = some (Itoa mako.LevelValue) := rfl
      rw [h50] at hv
      rw [h60] at hw
      rw [hv] at hw
      exact absurd hw (by decide)
    · simp [hlay, hdec] at hp

/-- C7, amended: take a line `hdr host app[pid]: payload` whose header time a
layout parses, whose host name has no space, whose app name and process id have
none of `[`, `]`, `:` and space, and whose payload is an object of well-formed
members (timestamp, version, level, message, logger name; no level-value
member) in which the last level member is `"level":N` with `N` a code of the
severity table and is not the last member.  Under every library whose decoder
obeys `decodesMembers`, `Parse` returns nil, the decoder is given the payload
with every member in normal form (so `"level":N,` reads `"level":"NAME",`), and
`Dump` gives `level` = NAME, `message` and `logger_name` = the values of the
last such members, `hostname`, `app_name`, `proc_id` and `content` = the parts
of the line.  `level_value` is the decimal rendering of the level value that
the decoder returned for the normalized payload, in which `N` does not stand:
it is not determined by `N`.  The `timestamp` is the epoch rendering of the
last timestamp member when it parses as RFC 3339 and of the header time
otherwise. -/
theorem Parse_level_dump (env : Env) (hdr host app pid code name : List Nat) (t : Time)
    (ms pre post : List Member)
    (hlaw : decodesMembers env)
    (hcn : (code, name) ∈ severityTable)
    (ht : hdr.length = 15 ∧ parseLayouts env hdr = some t)
    (hline : (∀ b ∈ host, b ≠ 32) ∧ (∀ b ∈ app, b ≠ 91 ∧ b ≠ 93 ∧ b ≠ 58 ∧ b ≠ 32)
      ∧ (∀ b ∈ pid, b ≠ 91 ∧ b ≠ 93 ∧ b ≠ 58 ∧ b ≠ 32))
    (hms : ms = pre ++ .levelCode code :: post ∧ ∀ m ∈ ms, m.wellFormed)
    (hpost : post ≠ [] ∧ ∀ m ∈ post, m.isLevel = false) :
    ∃ p mako,
      Parse env (NewParser (makoLine hdr host app pid (renderObject ms))) = .ok (none, p)
      ∧ preProcess (renderObject ms) = renderObject (ms.map Member.normalize)
      ∧ env.jsonDecode (renderObject (ms.map Member.normalize)) = (mako, none)
      ∧ (Dump env p).get "level" = some name
      ∧ (Dump env p).get "level_value" = some (Itoa mako.LevelValue)
      ∧ (Dump env p).get "message" = some (lastMessage ms)
      ∧ (Dump env p).get "logger_name" = some (lastLoggerName ms)
      ∧ (Dump env p).get "hostname" = some host
      ∧ (Dump env p).get "app_name" = some app
      ∧ (Dump env p).get "proc_id" = some pid
      ∧ (Dump env p).get "content" = some (renderObject ms)
      ∧ (Dump env p).get "timestamp"
          = some (Epoch env ((env.parseRFC3339 (lastTimestamp ms)).getD
              (fixTimestampIfNeeded env t))) := by
  obtain ⟨hms, hwf⟩ := hms
  have hpre : preProcess (renderObject ms) = renderObject (ms.map Member.normalize) :=
    preProcess_renderObject ms hwf
      (by rw [hms]; exact getLast_levelCode pre post code hpost.1 hpost.2)
  obtain ⟨mako, hdec, hts, hlv, hmsg, hlog⟩ := hlaw (ms.map Member.normalize) (by
    intro m hm
    obtain ⟨m0, hm0, rfl⟩ := List.mem_map.mp hm
    exact normalize_wellFormed m0 (hwf m0 hm0))
  have hnorm := foldl_normalize ms [] [] []
  have hlevel : mako.Level = name := by
    rw [hlv, hms, lastLevel_normalize pre post code hpost.2, nameOf_eq code name hcn]
  have hmsg1 : mako.Message = lastMessage ms := hmsg.trans hnorm.2.1
  have hlog1 : mako.LoggerName = lastLoggerName ms := hlog.trans hnorm.2.2
  have hts1 : mako.Timestamp = lastTimestamp ms := hts.trans hnorm.1
  have hP := Parse_makoLine env hdr host app pid (renderObject ms) ht.1 hline.1 hline.2.1
    hline.2.2 (renderObject_ends ms).1 (renderObject_ends ms).2
  rw [ht.2, hpre, hdec] at hP
  refine ⟨_, mako, hP, hpre, hdec, ?_, rfl, ?_, ?_, rfl, rfl, rfl, rfl, ?_⟩
  · exact congrArg some hlevel
  · exact congrArg some hmsg1
  · exact congrArg some hlog1
  · rw [← hts1]
    cases hr : env.parseRFC3339 mako.Timestamp with
    | none => simp [Dump, LogParts.get, List.lookup, hr]
    | some ts => simp [Dump, LogParts.get, List.lookup, hr]

/-- C7, amended, at the example line with `"level":40,` and the library
`makoEnv 2003`, whose decoder is the model `decodeMako`: `Parse` returns nil,
the decoder is given the normalized payload, `level` is `WARN`, `message` is
`m`, `logger_name` is `L`, `app_name` is `app`, `proc_id` is `123`, the host is
`mymachine`, and `timestamp` is `1065910455`. -/
theorem Parse_level_dump_witness :
    ∃ p mako,
      Parse (makoEnv 2003) (NewParser (sampleLine (bytesOf "40"))) = .ok (none, p)
      ∧ preProcess (samplePayload (bytesOf "40")) = sampleNormalized (bytesOf "WARN")
      ∧ (makoEnv 2003).jsonDecode (sampleNormalized (bytesOf "WARN")) = (mako, none)
      ∧ (Dump (makoEnv 2003) p).get "level" = some (bytesOf "WARN")
      ∧ (Dump (makoEnv 2003) p).get "level_value" = some (Itoa mako.LevelValue)
      ∧ (Dump (makoEnv 2003) p).get "message" = some (bytesOf "m")
      ∧ (Dump (makoEnv 2003) p).get "logger_name" = some (bytesOf "L")
      ∧ (Dump (makoEnv 2003) p).get "hostname" = some (bytesOf "mymachine")
      ∧ (Dump (makoEnv 2003) p).get "app_name" = some (bytesOf "app")
      ∧ (Dump (makoEnv 2003) p).get "proc_id" = some (bytesOf "123")
      ∧ (Dump (makoEnv 2003) p).get "content" = some (samplePayload (bytesOf "40"))
      ∧ (Dump (makoEnv 2003) p).get "timestamp" = some (bytesOf "1065910455") :=
  Parse_level_dump (makoEnv 2003) (bytesOf "Oct 11 22:14:15") (bytesOf "mymachine")
    (bytesOf "app") (bytesOf "123") (bytesOf "40") (bytesOf "WARN") ⟨0, 10, 11, 22, 14, 15, 0⟩
    (sampleMembers (bytesOf "40"))
    [.timestamp true (bytesOf "2003-10-11T22:14:15Z"), .versionText true (bytesOf "1")]
    [.message (bytesOf "m"), .loggerName (bytesOf "L")]
    (makoEnv_decodesMembers 2003) (by decide) ⟨by decide, by decide⟩
    ⟨by decide, by decide, by decide⟩
    ⟨rfl, by
      intro m hm
      simp only [sampleMembers, List.mem_cons, List.mem_singleton, List.not_mem_nil,
        or_false] at hm
      rcases hm with rfl | rfl | rfl | rfl | rfl
      · exact (by decide : plainValue (bytesOf "2003-10-11T22:14:15Z"))
      · exact ⟨(by decide : plainValue (bytesOf "1")), by decide⟩
      · exact ⟨bytesOf "WARN", by decide⟩
      · exact (by decide : plainValue (bytesOf "m"))
      · exact (by decide : plainValue (bytesOf "L"))⟩
    ⟨by decide, by decide⟩

/-! ## Dump -/

theorem lookup_isSome_iff (l : LogParts) (k : String) :
    (l.lookup k).isSome ↔ k ∈ l.map Prod.fst := by
  induction l with
  | nil => simp
  | cons kv l ih =>
    obtain ⟨a, v⟩ := kv
    by_cases h : k = a
    · simp [List.lookup, h]
    · have h2 : (k == a) = false := by simpa using h
      simp [List.lookup, h2, ih, h]

/-- C8: the `timestamp` entry of `Dump` is the epoch rendering of the payload's
timestamp when that text parses as RFC 3339, and the epoch rendering of the
header's timestamp when it does not; in both cases it is the decimal rendering of
a Unix time, written over the initial `"0"`. -/
theorem Dump_timestamp (env : Env) (p : Parser) :
    (∀ ts, env.parseRFC3339 p.message.mako.Timestamp = some ts →
      (Dump env p).get "timestamp" = some (Epoch env ts)) ∧
    (env.parseRFC3339 p.message.mako.Timestamp = none →
      (Dump env p).get "timestamp" = some (Epoch env p.header.timestamp)) ∧
    (∃ t, (t = p.header.timestamp ∨ env.parseRFC3339 p.message.mako.Timestamp = some t) ∧
      (Dump env p).get "timestamp" = some (Itoa (env.unix t))) := by
  refine ⟨?_, ?_, ?_⟩
  · intro ts h
    simp [Dump, LogParts.get, List.lookup, h]
  · intro h
    simp [Dump, LogParts.get, List.lookup, h]
  · cases h : env.parseRFC3339 p.message.mako.Timestamp with
    | none => exact ⟨p.header.timestamp, Or.inl rfl, by simp [Dump, LogParts.get, List.lookup, h, Epoch]⟩
    | some t => exact ⟨t, Or.inr rfl, by simp [Dump, LogParts.get, List.lookup, h, Epoch]⟩

/-- C9: `Dump` has exactly the 15 field names of the output record as its keys,
each once; `hostname`, `app_name`, `proc_id` and `content` are the stored header
and message fields, the string fields of the payload are copied as they are, and
`level_value` and `version` are the decimal renderings of the payload's numbers. -/
theorem Dump_shape (env : Env) (p : Parser) :
    (∀ k, ((Dump env p).get k).isSome ↔ k ∈ dumpKeys) ∧
    ((Dump env p).map Prod.fst).Nodup ∧
    (Dump env p).get "hostname" = some p.header.hostname ∧
    (Dump env p).get "app_name" = some p.message.app ∧
    (Dump env p).get "proc_id" = some p.message.pid ∧
    (Dump env p).get "content" = some p.message.content ∧
    (Dump env p).get "logger_name" = some p.message.mako.LoggerName ∧
    (Dump env p).get "level" = some p.message.mako.Level ∧
    (Dump env p).get "level_value" = some (bytesOf (toString p.message.mako.LevelValue)) ∧
    (Dump env p).get "message" = some p.message.mako.Message ∧
    (Dump env p).get "service_environment" = some p.message.mako.ServiceEnvironment ∧
    (Dump env p).get "service_name" = some p.message.mako.ServiceName ∧
    (Dump env p).get "service_pipeline" = some p.message.mako.ServicePipeline ∧
    (Dump env p).get "service_version" = some p.message.mako.ServiceVersion ∧
    (Dump env p).get "thread_name" = some p.message.mako.ThreadName ∧
    (Dump env p).get "version" = some (bytesOf (toString p.message.mako.Version)) := by
  have hkeys : (Dump env p).map Prod.fst = dumpKeys := rfl
  refine ⟨?_, ?_, rfl, rfl, rfl, rfl, rfl, rfl, rfl, rfl, rfl, rfl, rfl, rfl, rfl, rfl⟩
  · intro k
    rw [← hkeys]
    exact lookup_isSome_iff _ k
  · rw [hkeys]; decide

/-! ## The cursor after parseTimestamp -/

/-- C10: the cursor after `parseTimestamp`.  When 15 bytes remain and one of the
two layouts parses them, the scan succeeds and the cursor is 15 further, one
more when the byte there exists and is a space.  When fewer than 15 bytes remain
or no layout parses them, the scan fails with `ErrTimestampUnknownFormat` and
the cursor is 15, one more when the byte at index 15 exists and is a space. -/
theorem parseTimestamp_cursor (env : Env) (p : Parser) (hl : p.l = p.buff.length) :
    ((p.cursor + 15 ≤ p.buff.length ∧
        ∃ tsFmt ∈ tsFmts, (env.parseInLocation tsFmt ((p.buff.drop p.cursor).take 15)).isSome) →
      ∃ ts, parseTimestamp env p
        = .ok ((ts, none),
            { p with cursor := p.cursor + 15
                + if p.buff[p.cursor + 15]? = some 32 then 1 else 0 })) ∧
    (¬ (p.cursor + 15 ≤ p.buff.length ∧
        ∃ tsFmt ∈ tsFmts, (env.parseInLocation tsFmt ((p.buff.drop p.cursor).take 15)).isSome) →
      parseTimestamp env p
        = .ok ((Time.zero, some .ErrTimestampUnknownFormat),
            { p with cursor := 15 + if p.buff[15]? = some 32 then 1 else 0 })) := by
  have hlen1 : (bytesOf "Jan 02 15:04:05").length = 15 := by decide
  have hlen2 : (bytesOf "Jan  2 15:04:05").length = 15 := by decide
  by_cases hroom : p.cursor + 15 ≤ p.buff.length
  · have hsl := slice_window hroom
    have hnot : ¬ (p.cursor + 15 > p.buff.length) := by omega
    cases h1 : env.parseInLocation (bytesOf "Jan 02 15:04:05") ((p.buff.drop p.cursor).take 15) with
    | some t1 =>
      constructor
      · intro _
        exact ⟨fixTimestampIfNeeded env t1, by
          simp [parseTimestamp, tsFmts, tsLoop, hl, hlen1, hnot, hsl, h1, skipSpace_eq]⟩
      · intro hno
        exact absurd ⟨hroom, bytesOf "Jan 02 15:04:05", by simp [tsFmts], by simp [h1]⟩ hno
    | none =>
      cases h2 : env.parseInLocation (bytesOf "Jan  2 15:04:05")
          ((p.buff.drop p.cursor).take 15) with
      | some t2 =>
        constructor
        · intro _
          exact ⟨fixTimestampIfNeeded env t2, by
            simp [parseTimestamp, tsFmts, tsLoop, hl, hlen1, hlen2, hnot, hsl, h1, h2,
              skipSpace_eq]⟩
        · intro hno
          exact absurd ⟨hroom, bytesOf "Jan  2 15:04:05", by simp [tsFmts], by simp [h2]⟩ hno
      | none =>
        constructor
        · rintro ⟨_, tsFmt, hmem, hsome⟩
          simp only [tsFmts, List.mem_cons, List.mem_singleton, List.not_mem_nil, or_false]
            at hmem
          rcases hmem with rfl | rfl
          · simp [h1] at hsome
          · simp [h2] at hsome
        · intro _
          simp [parseTimestamp, tsFmts, tsLoop, hl, hlen1, hlen2, hnot, hsl, h1, h2,
            skipSpace_eq]
  · constructor
    · rintro ⟨h, _⟩; exact absurd h hroom
    · intro _
      have hgt : p.cursor + 15 > p.buff.length := by omega
      simp [parseTimestamp, tsFmts, tsLoop, hl, hlen1, hlen2, hgt, skipSpace_eq]


/-- C10, at the example line (cursor 16 after the scan) and at the text `abc`
(failure, cursor 15). -/
theorem parseTimestamp_cursor_witness :
    (∃ ts, parseTimestamp sampleEnv (NewParser (sampleLine (bytesOf "40")))
      = .ok ((ts, none), { NewParser (sampleLine (bytesOf "40")) with cursor := 16 })) ∧
    parseTimestamp sampleEnv (NewParser (bytesOf "abc"))
      = .ok ((Time.zero, some .ErrTimestampUnknownFormat),
          { NewParser (bytesOf "abc") with cursor := 15 }) :=
  ⟨(parseTimestamp_cursor sampleEnv (NewParser (sampleLine (bytesOf "40"))) rfl).1
      ⟨by decide, bytesOf "Jan 02 15:04:05", by decide, by decide⟩,
   (parseTimestamp_cursor sampleEnv (NewParser (bytesOf "abc")) rfl).2 (by decide)⟩

/-! ## What the steps leave untouched, and how Parse is put together -/

theorem parseTimestamp_frame (env : Env) (p p1 : Parser) (r : Time × Option GoError)
    (h : parseTimestamp env p = .ok (r, p1)) : ∃ c, p1 = { p with cursor := c } := by
  unfold parseTimestamp at h
  split at h
  · simp at h
  · split at h
    · split at h
      · simp at h
      · simp only [Run.ok.injEq, Prod.mk.injEq] at h
        exact ⟨_, h.2.symm⟩
    · split at h
      · simp at h
      · simp only [Run.ok.injEq, Prod.mk.injEq] at h
        exact ⟨_, h.2.symm⟩

theorem parseHostname_frame (p p1 : Parser) (r : List Nat × Option GoError)
    (h : parseHostname p = .ok (r, p1)) : ∃ c, p1 = { p with cursor := c } := by
  unfold parseHostname at h
  split at h
  · simp only [Run.ok.injEq, Prod.mk.injEq] at h
    exact ⟨p.cursor, by rw [← h.2]⟩
  · split at h
    · simp at h
    · simp only [Run.ok.injEq, Prod.mk.injEq] at h
      exact ⟨_, h.2.symm⟩

theorem parseApp_frame (p p1 : Parser) (r : List Nat × List Nat × Option GoError)
    (h : parseApp p = .ok (r, p1)) : r.2.2 = none ∧ ∃ c, p1 = { p with cursor := c } := by
  unfold parseApp at h
  split at h
  · simp at h
  · split at h
    · simp at h
    · simp only [Run.ok.injEq, Prod.mk.injEq] at h
      exact ⟨by rw [← h.1], _, h.2.symm⟩

theorem parseContent_frame (p p1 : Parser) (r : List Nat × Option GoError)
    (h : parseContent p = .ok (r, p1)) :
    r.2 = some .ErrEOL ∧ ∃ c, p1 = { p with cursor := c } := by
  unfold parseContent at h
  split at h
  · simp only [Run.ok.injEq, Prod.mk.injEq] at h
    exact ⟨by rw [← h.1], p.cursor, by rw [← h.2]⟩
  · split at h
    · simp at h
    · simp only [Run.ok.injEq, Prod.mk.injEq] at h
      exact ⟨by rw [← h.1], _, h.2.symm⟩

theorem parseTimestamp_error (env : Env) (p p1 : Parser) (ts : Time) (err : GoError)
    (h : parseTimestamp env p = .ok ((ts, some err), p1)) :
    err = .ErrTimestampUnknownFormat := by
  unfold parseTimestamp at h
  split at h
  · simp at h
  · split at h
    · split at h
      · simp at h
      · simp only [Run.ok.injEq, Prod.mk.injEq, Option.some.injEq] at h
        exact h.1.2.symm
    · split at h
      · simp at h
      · simp at h

theorem parseHostname_error (p p1 : Parser) (hn : List Nat) (e : Option GoError)
    (h : parseHostname p = .ok ((hn, e), p1)) : e = none := by
  unfold parseHostname at h
  split at h
  · simp only [Run.ok.injEq, Prod.mk.injEq] at h
    exact h.1.2.symm
  · split at h
    · simp at h
    · rename_i r c hP
      simp only [Run.ok.injEq, Prod.mk.injEq] at h
      unfold ParseHostname at hP
      split at hP
      · simp at hP
      · split at hP
        · simp at hP
        · simp only [Run.ok.injEq, Prod.mk.injEq] at hP
          have := hP.1.trans h.1
          simp only [Prod.mk.injEq] at this
          exact this.2.symm

theorem parseMessage_inv (env : Env) (p p3 : Parser) (msg : rfc3164Message)
    (e : Option GoError) (h : parseMessage env p = .ok ((msg, e), p3)) :
    ∃ app pid p1 content mako d,
      parseApp p = .ok ((app, pid, none), p1)
      ∧ parseContent p1 = .ok ((content, some .ErrEOL), p3)
      ∧ env.jsonDecode (preProcess content) = (mako, d)
      ∧ msg = { app := app, pid := pid, content := content, mako := mako }
      ∧ e = (match d with
              | some tag => some (.library tag)
              | none => some .ErrEOL) := by
  unfold parseMessage at h
  cases ha : parseApp p with
  | fault f => simp [ha] at h
  | ok ra =>
    obtain ⟨⟨app, pid, e0⟩, p1⟩ := ra
    have he0 : e0 = none := (parseApp_frame p p1 _ ha).1
    subst he0
    simp only [ha] at h
    cases hc : parseContent p1 with
    | fault f => simp [hc] at h
    | ok rc =>
      obtain ⟨⟨content, e1⟩, p2⟩ := rc
      have he1 : e1 = some .ErrEOL := (parseContent_frame p1 p2 _ hc).1
      subst he1
      simp only [hc, ne_eq, not_true_eq_false, if_false] at h
      rcases hd : env.jsonDecode (preProcess content) with ⟨mako, _ | tag⟩
      · simp only [hd, Run.ok.injEq, Prod.mk.injEq] at h
        exact ⟨app, pid, p1, content, mako, none, rfl, by rw [← h.2]; exact hc, hd, h.1.1.symm,
          h.1.2.symm⟩
      · simp only [hd, Run.ok.injEq, Prod.mk.injEq] at h
        exact ⟨app, pid, p1, content, mako, some tag, rfl, by rw [← h.2]; exact hc, hd, h.1.1.symm,
          h.1.2.symm⟩

theorem Parse_inv (env : Env) (p p' : Parser) (r : Option GoError)
    (h : Parse env p = .ok (r, p')) :
    ∃ ts e1 p1, parseTimestamp env p = .ok ((ts, e1), p1) ∧
      ((∃ err, e1 = some err ∧ r = some err ∧ p' = p1)
      ∨ (e1 = none ∧ ∃ hn p2, parseHostname p1 = .ok ((hn, none), p2) ∧
          ∃ b, p2.buff[p2.cursor]? = some b ∧
          ∃ msg e3 p3,
            parseMessage env (if b = 32 then { p2 with cursor := p2.cursor + 1 } else p2)
              = .ok ((msg, e3), p3)
            ∧ ((e3 ≠ some .ErrEOL ∧ r = e3 ∧ p' = p3)
              ∨ (e3 = some .ErrEOL ∧ r = none
                  ∧ p' = { p3 with version := env.NoVersion,
                                   header := { timestamp := ts, hostname := hn },
                                   message := msg })))) := by
  unfold Parse parseHeader at h
  cases ht : parseTimestamp env p with
  | fault f => simp [ht] at h
  | ok rt =>
    obtain ⟨⟨ts, e1⟩, p1⟩ := rt
    refine ⟨ts, e1, p1, rfl, ?_⟩
    cases e1 with
    | some err =>
      simp only [ht, Run.ok.injEq, Prod.mk.injEq] at h
      exact Or.inl ⟨err, rfl, h.1.symm, h.2.symm⟩
    | none =>
      right
      refine ⟨rfl, ?_⟩
      simp only [ht] at h
      cases hh : parseHostname p1 with
      | fault f => simp [hh] at h
      | ok rh =>
        obtain ⟨⟨hn, e2⟩, p2⟩ := rh
        have he2 : e2 = none := parseHostname_error p1 p2 hn e2 hh
        subst he2
        refine ⟨hn, p2, rfl, ?_⟩
        simp only [hh] at h
        cases hb : p2.buff[p2.cursor]? with
        | none => simp [hb] at h
        | some b =>
          refine ⟨b, rfl, ?_⟩
          simp only [hb] at h
          cases hm : parseMessage env
              (if b = 32 then { p2 with cursor := p2.cursor + 1 } else p2) with
          | fault f => simp [hm] at h
          | ok rm =>
            obtain ⟨⟨msg, e3⟩, p3⟩ := rm
            refine ⟨msg, e3, p3, rfl, ?_⟩
            simp only [hm] at h
            by_cases he3 : e3 = some .ErrEOL
            · right
              simp only [he3, ne_eq, not_true_eq_false, if_false, Run.ok.injEq,
                Prod.mk.injEq] at h
              exact ⟨he3, h.1.symm, h.2.symm⟩
            · left
              simp only [ne_eq, he3, not_false_eq_true, if_true, Run.ok.injEq,
                Prod.mk.injEq] at h
              exact ⟨he3, h.1.symm, h.2.symm⟩

/-! ## Pinned host name -/

/-- C12: with a non-empty host name pinned by `Hostname`, `parseHostname` returns
that name with a nil error and leaves the parser, cursor included, as it was, for
every buffer and cursor; and the header of a successful `Parse` carries that name. -/
theorem parseHostname_pinned (env : Env) (p : Parser) (h : List Nat) (hh : h ≠ []) :
    parseHostname (Hostname p h) = .ok ((h, none), Hostname p h)
    ∧ ∀ p', Parse env (Hostname p h) = .ok (none, p') → p'.header.hostname = h := by
  constructor
  · simp [parseHostname, Hostname, hh]
  · intro p' hp
    obtain ⟨ts, e1, p1, ht, hcase⟩ := Parse_inv env _ p' none hp
    rcases hcase with ⟨err, _, hr, _⟩ | ⟨_, hn, p2, hhost, b, _, msg, e3, p3, hmsg, hfin⟩
    · exact absurd hr (by simp)
    · obtain ⟨c, hp1⟩ := parseTimestamp_frame env _ p1 _ ht
      have hpin : p1.hostname = h := by rw [hp1]; rfl
      have hhn : hn = h := by
        have hne : p1.hostname ≠ [] := by rw [hpin]; exact hh
        simp only [parseHostname, hne, ne_eq, not_false_eq_true, if_true, Run.ok.injEq,
          Prod.mk.injEq] at hhost
        rw [← hhost.1.1, hpin]
      rcases hfin with ⟨_, hr, _⟩ | ⟨_, _, hp'⟩
      · obtain ⟨_, _, _, _, _, d, _, _, _, _, he3⟩ := parseMessage_inv env _ p3 msg e3 hmsg
        rw [← hr] at he3
        cases d <;> simp at he3
      · rw [hp', hhn]

/-- C12, at the example line without a host name and the pinned name `pinned`:
the hostname step hands back `pinned` without moving the cursor, and `Parse`
succeeds with that name in the header. -/
theorem parseHostname_pinned_witness :
    parseHostname (Hostname (parserAt pinnedLine 16) (bytesOf "pinned"))
      = .ok ((bytesOf "pinned", none), Hostname (parserAt pinnedLine 16) (bytesOf "pinned"))
    ∧ ∃ p', Parse sampleEnv (Hostname (NewParser pinnedLine) (bytesOf "pinned")) = .ok (none, p')
        ∧ p'.header.hostname = bytesOf "pinned" := by
  refine ⟨(parseHostname_pinned sampleEnv (parserAt pinnedLine 16) (bytesOf "pinned")
    (by decide)).1, ?_⟩
  have hrun : ∃ p', Parse sampleEnv (Hostname (NewParser pinnedLine) (bytesOf "pinned"))
      = .ok (none, p') := ⟨_, rfl⟩
  obtain ⟨p', hp'⟩ := hrun
  exact ⟨p', hp', (parseHostname_pinned sampleEnv (NewParser pinnedLine) (bytesOf "pinned")
    (by decide)).2 p' hp'⟩

/-! ## Text without triggers -/

theorem preProcess_noTrigger (text : List Nat) (hkey : ∀ n, ¬ keyAt text n)
    (hver : ∀ n, ¬ versionStrungAt text n) : preProcess text = text := by
  unfold preProcess
  rw [Replace_id text (fun a r har => lookup_none_of_noKey text a r har (hkey _))]
  exact ReplaceAllString_id text
    (fun a r har => matchVersionStrung_none_of_noVersion text a r har (hver _))

/-- C14: a text that holds none of the replacer's old strings (`"level":10,` to
`"level":60,`, `"@timestamp"`, `"@version"`) and no quoted-string version
`"version":"v"` comes back from `preProcess` exactly as it went in. -/
theorem preProcess_normalized (text : List Nat) (hkey : ∀ n, ¬ keyAt text n)
    (hver : ∀ n, ¬ versionStrungAt text n) : preProcess text = text :=
  preProcess_noTrigger text hkey hver

/-- C14, at the normalized example payload with level `INFO`. -/
theorem preProcess_normalized_witness :
    preProcess (sampleNormalized (bytesOf "INFO")) = sampleNormalized (bytesOf "INFO") :=
  preProcess_normalized (sampleNormalized (bytesOf "INFO"))
    (fun n h => by
      have key : ∀ m, m ≤ (sampleNormalized (bytesOf "INFO")).length →
          ¬ (lookup ((sampleNormalized (bytesOf "INFO")).drop m)).isSome = true := by decide
      obtain ⟨hle, hs⟩ := (keyAt_iff _ n).mp h
      exact key n hle hs)
    (fun n h => by
      have key : ∀ m, m ≤ (sampleNormalized (bytesOf "INFO")).length → ¬ (matchVersionStrung
          ((sampleNormalized (bytesOf "INFO")).drop m)).isSome = true := by decide
      obtain ⟨hle, hs⟩ := (versionStrungAt_iff _ n).mp h
      exact key n hle hs)

/-! ## The level as the last member -/

theorem lookup_levelBare (code name post : List Nat) (hcn : (code, name) ∈ severityTable)
    (hpost : post.head? ≠ some 44) : lookup (levelBare code ++ post) = none := by
  simp only [severityTable, List.mem_cons, List.mem_singleton, Prod.mk.injEq,
    List.not_mem_nil, or_false] at hcn
  cases post with
  | nil =>
    rcases hcn with ⟨rfl, rfl⟩ | ⟨rfl, rfl⟩ | ⟨rfl, rfl⟩ | ⟨rfl, rfl⟩ | ⟨rfl, rfl⟩ | ⟨rfl, rfl⟩ <;>
      decide
  | cons c post =>
    have hc : c ≠ 44 := by simpa using hpost
    rcases hcn with ⟨rfl, rfl⟩ | ⟨rfl, rfl⟩ | ⟨rfl, rfl⟩ | ⟨rfl, rfl⟩ | ⟨rfl, rfl⟩ | ⟨rfl, rfl⟩ <;>
      simp [lookup, replacerPairs, hasPrefix, levelBare, bytesOf, hc]

/-- C20: the severity rewrite needs the comma.  For each code of the table, a text
in which `"level":c` is followed by something other than a comma (or by nothing),
and which holds no replacer key elsewhere and no quoted-string version, comes back
from `preProcess` unchanged: the code is not replaced by a name. -/
theorem preProcess_level_last (code name pre post : List Nat)
    (hcn : (code, name) ∈ severityTable) (hpost : post.head? ≠ some 44)
    (hkey : ∀ n, n ≠ pre.length → ¬ keyAt (pre ++ levelBare code ++ post) n)
    (hver : ∀ n, ¬ versionStrungAt (pre ++ levelBare code ++ post) n) :
    preProcess (pre ++ levelBare code ++ post) = pre ++ levelBare code ++ post := by
  apply preProcess_noTrigger _ _ hver
  intro n hn
  by_cases h : n = pre.length
  · obtain ⟨_, hs⟩ := (keyAt_iff _ n).mp hn
    have hd : (pre ++ levelBare code ++ post).drop n = levelBare code ++ post := by
      rw [h]; simp
    rw [hd, lookup_levelBare code name post hcn hpost] at hs
    exact absurd hs (by simp)
  · exact hkey n h hn

/-- C20, at the payloads `{"message":"m","level":c}`: for `c = 30` through the
theorem, and for all six codes of the table by running `preProcess`. -/
theorem preProcess_level_last_witness :
    preProcess (bytesOf "\x7b\"message\":\"m\"," ++ levelBare (bytesOf "30") ++ bytesOf "\x7d")
      = bytesOf "\x7b\"message\":\"m\"," ++ levelBare (bytesOf "30") ++ bytesOf "\x7d"
    ∧ severityTable.map (fun cn => preProcess (levelLastPayload cn.1))
      = severityTable.map (fun cn => levelLastPayload cn.1) :=
  ⟨preProcess_level_last (bytesOf "30") (bytesOf "INFO") (bytesOf "\x7b\"message\":\"m\",")
      (bytesOf "\x7d") (by decide) (by decide)
      (fun n _ h => by
        have key : ∀ m, m ≤ (levelLastPayload (bytesOf "30")).length →
            ¬ (lookup ((levelLastPayload (bytesOf "30")).drop m)).isSome = true := by decide
        obtain ⟨hle, hs⟩ := (keyAt_iff _ n).mp h
        exact key n hle hs)
      (fun n h => by
        have key : ∀ m, m ≤ (levelLastPayload (bytesOf "30")).length →
            ¬ (matchVersionStrung ((levelLastPayload (bytesOf "30")).drop m)).isSome = true := by
          decide
        obtain ⟨hle, hs⟩ := (versionStrungAt_iff _ n).mp h
        exact key n hle hs),
   by decide⟩

/-! ## The scan of parseApp and the end of the buffer -/

theorem slice_ok (buff : List Nat) (lo hi : Nat) (h1 : lo ≤ hi) (h2 : hi ≤ buff.length) :
    slice buff lo hi = .ok ((buff.take hi).drop lo) := by
  simp [slice, h1, h2]

theorem parseAppLoop_step (buff : List Nat) (fuel b : Nat) (s : AppScan) (hinv : scanInv s)
    (hget : buff[s.cursor]? = some b) (hb : ¬ delimiter b) :
    ∃ s', parseAppLoop buff (fuel + 1) s = parseAppLoop buff fuel s'
      ∧ scanInv s' ∧ s'.cursor = s.cursor + 1 := by
  obtain ⟨h1, h2, h3⟩ := hinv
  have hlt : s.cursor < buff.length := by
    by_contra hge
    rw [List.getElem?_eq_none (by omega)] at hget
    exact absurd hget (by simp)
  have hb1 : b ≠ 93 := fun h => hb (Or.inr (Or.inr h))
  have hb2 : ¬ (b = 58 ∨ b = 32) := fun h => hb (h.elim Or.inl (fun h => Or.inr (Or.inl h)))
  rw [parseAppLoop]
  simp only [hget]
  by_cases h91 : b = 91
  · simp only [h91, if_true, slice_ok buff s.origin s.cursor h1 (by omega)]
    exact ⟨_, rfl, ⟨by simp, by simp, h3⟩, rfl⟩
  · simp only [h91, hb1, hb2, if_false]
    exact ⟨_, rfl, ⟨by simp only []; omega, fun hf => by
      have := h2 hf
      simp only []; omega, h3⟩, rfl⟩

theorem parseAppLoop_overrun (buff : List Nat) (n : Nat) :
    ∀ (s : AppScan) (fuel : Nat), scanInv s → n = buff.length - s.cursor →
      (∀ i b, s.cursor ≤ i → buff[i]? = some b → ¬ delimiter b) → n < fuel →
      parseAppLoop buff fuel s = .fault .indexOutOfRange := by
  induction n with
  | zero =>
    intro s fuel _ hn _ hf
    obtain ⟨k, rfl⟩ : ∃ k, fuel = k + 1 := ⟨fuel - 1, by omega⟩
    rw [parseAppLoop, List.getElem?_eq_none (by omega)]
  | succ n ih =>
    intro s fuel hinv hn hno hf
    obtain ⟨k, rfl⟩ : ∃ k, fuel = k + 1 := ⟨fuel - 1, by omega⟩
    have hlt : s.cursor < buff.length := by omega
    have hget : buff[s.cursor]? = some buff[s.cursor] := List.getElem?_eq_getElem hlt
    obtain ⟨s', hstep, hinv', hc⟩ :=
      parseAppLoop_step buff k _ s hinv hget (hno _ _ (Nat.le_refl _) hget)
    rw [hstep]
    exact ih s' k hinv' (by omega) (fun i b hi => hno i b (by omega)) (by omega)

theorem parseAppLoop_reaches (buff : List Nat) (n : Nat) :
    ∀ (s : AppScan) (fuel : Nat), scanInv s →
      (∀ i b, s.cursor ≤ i → i < s.cursor + n → buff[i]? = some b → ¬ delimiter b) →
      (∃ b, buff[s.cursor + n]? = some b ∧ delimiter b) → n < fuel →
      ∃ s', parseAppLoop buff fuel s = .ok s' := by
  induction n with
  | zero =>
    intro s fuel hinv _ hd hf
    obtain ⟨k, rfl⟩ : ∃ k, fuel = k + 1 := ⟨fuel - 1, by omega⟩
    obtain ⟨b, hget, hb⟩ := hd
    obtain ⟨h1, h2, h3⟩ := hinv
    have hlt : s.cursor < buff.length := by
      by_contra hge
      rw [Nat.add_zero, List.getElem?_eq_none (by omega)] at hget
      exact absurd hget (by simp)
    have h91 : b ≠ 91 := by
      rcases hb with h | h | h <;> simp [h]
    rw [parseAppLoop]
    simp only [Nat.add_zero] at hget
    simp only [hget, h91, if_false, h3]
    by_cases h93 : b = 93
    · simp only [h93, if_true]
      cases hfa : s.foundApp with
      | false => simp [slice_ok buff s.origin s.cursor h1 (by omega)]
      | true =>
        have := h2 hfa
        simp [slice_ok buff (s.origin + 1) s.cursor (by omega) (by omega)]
    · have hb2 : b = 58 ∨ b = 32 := by
        rcases hb with h | h | h
        · exact Or.inl h
        · exact Or.inr h
        · exact absurd h h93
      simp only [h93, hb2, if_true, if_false]
      cases hfa : s.foundApp with
      | false => simp [slice_ok buff s.origin s.cursor h1 (by omega)]
      | true => simp [slice_ok buff s.origin s.cursor h1 (by omega)]
  | succ n ih =>
    intro s fuel hinv hno hd hf
    obtain ⟨k, rfl⟩ : ∃ k, fuel = k + 1 := ⟨fuel - 1, by omega⟩
    obtain ⟨b, hgetd, hb⟩ := hd
    have hlt : s.cursor < buff.length := by
      by_contra hge
      rw [List.getElem?_eq_none (by omega)] at hgetd
      exact absurd hgetd (by simp)
    have hget : buff[s.cursor]? = some buff[s.cursor] := List.getElem?_eq_getElem hlt
    obtain ⟨s', hstep, hinv', hc⟩ :=
      parseAppLoop_step buff k _ s hinv hget (hno _ _ (Nat.le_refl _) (by omega) hget)
    rw [hstep]
    exact ih s' k hinv' (fun i b hi hi2 => hno i b (by omega) (by omega))
      ⟨b, by rw [hc, Nat.add_assoc, Nat.add_comm 1 n]; exact hgetd, hb⟩ (by omega)

/-- C16: `parseApp` does not always return.  Its scan stays inside the buffer
exactly when some byte at or after the cursor is `:`, a space or `]`: then it
returns, with a nil error; with no such byte (also when the cursor is already at
the end of the buffer) it reads one index past the end and the run ends in an
index-out-of-range panic. -/
theorem parseApp_scan (p : Parser) (hl : p.l = p.buff.length) :
    ((∃ i b, p.cursor ≤ i ∧ p.buff[i]? = some b ∧ delimiter b) →
        ∃ app pid p1, parseApp p = .ok ((app, pid, none), p1))
    ∧ ((∀ i b, p.cursor ≤ i → p.buff[i]? = some b → ¬ delimiter b) →
        parseApp p = .fault .indexOutOfRange) := by
  have hinv0 : scanInv ⟨p.cursor, p.cursor, [], [], false, false⟩ :=
    ⟨Nat.le_refl _, by simp, rfl⟩
  constructor
  · intro hex
    classical
    have hex' : ∃ i, p.cursor ≤ i ∧ ∃ b, p.buff[i]? = some b ∧ delimiter b := by
      obtain ⟨i, b, h1, h2, h3⟩ := hex
      exact ⟨i, h1, b, h2, h3⟩
    obtain ⟨hle, b, hget, hb⟩ := Nat.find_spec hex'
    have hmin : ∀ i, i < Nat.find hex' →
        ¬ (p.cursor ≤ i ∧ ∃ b, p.buff[i]? = some b ∧ delimiter b) :=
      fun i hi => Nat.find_min hex' hi
    have hlt : Nat.find hex' < p.buff.length := by
      by_contra hge
      rw [List.getElem?_eq_none (by omega)] at hget
      exact absurd hget (by simp)
    obtain ⟨s', hs'⟩ := parseAppLoop_reaches p.buff (Nat.find hex' - p.cursor)
      ⟨p.cursor, p.cursor, [], [], false, false⟩ (p.buff.length - p.cursor + 1) hinv0
      (fun i c hi hi2 hc hd => hmin i (by simp only [] at hi2; omega) ⟨hi, c, hc, hd⟩)
      ⟨b, by
        have : p.cursor + (Nat.find hex' - p.cursor) = Nat.find hex' := by omega
        simp only [this]; exact hget, hb⟩
      (by omega)
    unfold parseApp
    simp only [hs', hl, skipSpace_eq]
    exact ⟨_, _, _, rfl⟩
  · intro hno
    unfold parseApp
    rw [parseAppLoop_overrun p.buff (p.buff.length - p.cursor)
      ⟨p.cursor, p.cursor, [], [], false, false⟩ (p.buff.length - p.cursor + 1) hinv0 rfl
      hno (by omega)]

/-- C16, at the buffer `abc` (no delimiter: the run panics) and at `abc:` (it returns). -/
theorem parseApp_scan_witness :
    parseApp (NewParser (bytesOf "abc")) = .fault .indexOutOfRange
    ∧ ∃ app pid p1, parseApp (NewParser (bytesOf "abc:")) = .ok ((app, pid, none), p1) :=
  ⟨(parseApp_scan (NewParser (bytesOf "abc")) rfl).2 (by
      intro i b _ hget
      have key : ∀ j, j < 3 → ∀ c, (bytesOf "abc")[j]? = some c → ¬ delimiter c := by
        unfold delimiter; decide
      have hlt : i < 3 := by
        by_contra hge
        have hnone : (NewParser (bytesOf "abc")).buff[i]? = none :=
          List.getElem?_eq_none (by
            have : (NewParser (bytesOf "abc")).buff.length = 3 := by decide
            omega)
        rw [hnone] at hget
        exact absurd hget (by simp)
      exact key i hlt b hget),
   (parseApp_scan (NewParser (bytesOf "abc:")) rfl).1
      ⟨3, 58, by decide, by decide, Or.inl rfl⟩⟩

/-! ## Two open brackets -/

/-- C17: the open-bracket branch assigns `app` on every `[`.  On a buffer that
reads `t1[t2[t3]s...` from the cursor, with `t1`, `t2`, `t3` free of delimiters,
the returned app is `[t2`, the bytes from the first `[` up to the second, and not
`t1`; the pid is `t3`. -/
theorem parseApp_twoBrackets (p : Parser) (pre t1 t2 t3 rest : List Nat) (s : Nat)
    (hl : p.l = p.buff.length)
    (hbuf : p.buff = pre ++ t1 ++ [91] ++ t2 ++ [91] ++ t3 ++ [93] ++ [s] ++ rest)
    (hc : p.cursor = pre.length)
    (h1 : ∀ b ∈ t1, b ≠ 91 ∧ b ≠ 93 ∧ b ≠ 58 ∧ b ≠ 32)
    (h2 : ∀ b ∈ t2, b ≠ 91 ∧ b ≠ 93 ∧ b ≠ 58 ∧ b ≠ 32)
    (h3 : ∀ b ∈ t3, b ≠ 91 ∧ b ≠ 93 ∧ b ≠ 58 ∧ b ≠ 32) :
    parseApp p = .ok ((91 :: t2, t3, none),
      { p with cursor := p.cursor + t1.length + t2.length + t3.length + 4
          + if p.buff[p.cursor + t1.length + t2.length + t3.length + 4]? = some 32
            then 1 else 0 }) := by
  have hfuel : p.buff.length - p.cursor + 1
      = t1.length + ((t2.length + ((t3.length + ((rest.length + 2) + 1)) + 1)) + 1) := by
    have hlen := congrArg List.length hbuf
    simp only [List.length_append, List.length_singleton] at hlen
    omega
  have hg1 : p.buff[pre.length + t1.length]? = some 91 :=
    getElem?_mid (pre ++ t1) (t2 ++ [91] ++ t3 ++ [93] ++ [s] ++ rest) 91 (by simp [hbuf])
      (by simp)
  have hs1 : slice p.buff pre.length (pre.length + t1.length) = .ok t1 :=
    slice_mid pre t1 ([91] ++ t2 ++ [91] ++ t3 ++ [93] ++ [s] ++ rest) (by simp [hbuf]) rfl rfl
  have hg2 : p.buff[pre.length + t1.length + 1 + t2.length]? = some 91 :=
    getElem?_mid (pre ++ t1 ++ [91] ++ t2) (t3 ++ [93] ++ [s] ++ rest) 91 (by simp [hbuf])
      (by simp; omega)
  have hs2 : slice p.buff (pre.length + t1.length) (pre.length + t1.length + 1 + t2.length)
      = .ok (91 :: t2) :=
    slice_mid (pre ++ t1) (91 :: t2) ([91] ++ t3 ++ [93] ++ [s] ++ rest) (by simp [hbuf])
      (by simp) (by simp; omega)
  have hg3 : p.buff[pre.length + t1.length + 1 + t2.length + 1 + t3.length]? = some 93 :=
    getElem?_mid (pre ++ t1 ++ [91] ++ t2 ++ [91] ++ t3) ([s] ++ rest) 93 (by simp [hbuf])
      (by simp; omega)
  have hs3 : slice p.buff (pre.length + t1.length + 1 + t2.length + 1)
      (pre.length + t1.length + 1 + t2.length + 1 + t3.length) = .ok t3 :=
    slice_mid (pre ++ t1 ++ [91] ++ t2 ++ [91]) t3 ([93] ++ [s] ++ rest) (by simp [hbuf])
      (by simp; omega) (by simp; omega)
  unfold parseApp
  rw [hfuel, hc, parseAppLoop_plain p.buff t1 pre
    ([91] ++ t2 ++ [91] ++ t3 ++ [93] ++ [s] ++ rest) _ _ (by simp [hbuf]) h1 rfl]
  rw [parseAppLoop]
  simp only [hg1, hs1, if_true]
  rw [parseAppLoop_plain p.buff t2 (pre ++ t1 ++ [91]) ([91] ++ t3 ++ [93] ++ [s] ++ rest) _ _
    (by simp [hbuf]) h2 (by simp; omega)]
  rw [parseAppLoop]
  simp only [hg2, hs2, if_true]
  rw [parseAppLoop_plain p.buff t3 (pre ++ t1 ++ [91] ++ t2 ++ [91]) ([93] ++ [s] ++ rest) _ _
    (by simp [hbuf]) h3 (by simp; omega)]
  rw [parseAppLoop]
  simp only [hg3, hs3]
  have hcur : pre.length + t1.length + 1 + t2.length + 1 + t3.length + 2
      = pre.length + t1.length + t2.length + t3.length + 4 := by omega
  simp [hl, skipSpace_eq, hcur, hc]

/-- C17, at the line `a[b[c]: x`: the app is `[b`, not `a`. -/
theorem parseApp_twoBrackets_witness :
    parseApp (NewParser (bytesOf "a[b[c]: x"))
      = .ok ((bytesOf "[b", bytesOf "c", none),
          { NewParser (bytesOf "a[b[c]: x") with cursor := 8 }) :=
  (parseApp_twoBrackets (NewParser (bytesOf "a[b[c]: x")) [] (bytesOf "a")
    (bytesOf "b") (bytesOf "c") (bytesOf " x") 58 rfl (by decide) rfl (by decide) (by decide)
    (by decide)).trans (by decide)

/-! ## The read after the header -/

/-- C18: the read `p.buff[p.cursor]` that follows `parseHeader` in `Parse` has no
bounds test.  Whenever `parseHeader` succeeds and leaves the cursor at or beyond
the end of the buffer, `Parse` ends in an index-out-of-range panic. -/
theorem Parse_read_after_header (env : Env) (p p1 : Parser) (hdr : header)
    (hh : parseHeader env p = .ok ((hdr, none), p1))
    (hend : p1.buff.length ≤ p1.cursor) :
    Parse env p = .fault .indexOutOfRange := by
  unfold Parse
  rw [hh]
  simp only [List.getElem?_eq_none hend]

/-- C18, at the 15-byte buffer `Oct 11 22:14:15` with the pinned host name `h`:
the header is read, the cursor stands at 15, the length of the buffer, and
`Parse` panics.  The same happens without a pinned name on
`Oct 11 22:14:15 host`, where the host name runs to the end of the buffer. -/
theorem Parse_read_after_header_witness :
    parseHeader sampleEnv (Hostname (NewParser (bytesOf "Oct 11 22:14:15")) (bytesOf "h"))
      = .ok (({ timestamp := sampleTime, hostname := bytesOf "h" }, none),
          { Hostname (NewParser (bytesOf "Oct 11 22:14:15")) (bytesOf "h") with cursor := 15 })
    ∧ Parse sampleEnv (Hostname (NewParser (bytesOf "Oct 11 22:14:15")) (bytesOf "h"))
      = .fault .indexOutOfRange
    ∧ Parse sampleEnv (NewParser (bytesOf "Oct 11 22:14:15 host")) = .fault .indexOutOfRange :=
  ⟨by decide,
   Parse_read_after_header sampleEnv _ _ _
     (show parseHeader sampleEnv (Hostname (NewParser (bytesOf "Oct 11 22:14:15")) (bytesOf "h"))
        = .ok (({ timestamp := sampleTime, hostname := bytesOf "h" }, none),
            { Hostname (NewParser (bytesOf "Oct 11 22:14:15")) (bytesOf "h") with cursor := 15 })
      by decide) (by decide),
   Parse_read_after_header sampleEnv _ _ _
     (show parseHeader sampleEnv (NewParser (bytesOf "Oct 11 22:14:15 host"))
        = .ok (({ timestamp := sampleTime, hostname := bytesOf "host" }, none),
            parserAt (bytesOf "Oct 11 22:14:15 host") 20)
      by decide) (by decide)⟩

/-! ## How far the cursor goes -/

theorem parseAppLoop_cursor_le (buff : List Nat) (fuel : Nat) :
    ∀ s s' : AppScan, parseAppLoop buff fuel s = .ok s' → s'.cursor ≤ buff.length + 1 := by
  induction fuel with
  | zero => intro s s' h; simp [parseAppLoop] at h
  | succ fuel ih =>
    intro s s' h
    rw [parseAppLoop] at h
    cases hget : buff[s.cursor]? with
    | none => simp [hget] at h
    | some b =>
      have hlt : s.cursor < buff.length := by
        by_contra hge
        rw [List.getElem?_eq_none (by omega)] at hget
        exact absurd hget (by simp)
      simp only [hget] at h
      split at h
      · split at h
        · simp at h
        · exact ih _ _ h
      · split at h
        · split at h
          · split at h
            · simp at h
            · simp only [Run.ok.injEq] at h
              rw [← h]; simp only []; omega
          · split at h
            · split at h
              · simp at h
              · simp only [Run.ok.injEq] at h
                rw [← h]; simp only []; omega
            · simp only [Run.ok.injEq] at h
              rw [← h]; simp only []; omega
        · split at h
          · split at h
            · split at h
              · simp at h
              · simp only [Run.ok.injEq] at h
                rw [← h]; simp only []; omega
            · split at h
              · split at h
                · simp at h
                · simp only [Run.ok.injEq] at h
                  rw [← h]; simp only []; omega
              · simp only [Run.ok.injEq] at h
                rw [← h]; simp only []; omega
          · exact ih _ _ h

theorem skipSpace_le (buff : List Nat) (c : Nat) :
    (c + if buff[c]? = some 32 then 1 else 0) ≤ max c buff.length := by
  by_cases h : c < buff.length
  · split <;> omega
  · rw [List.getElem?_eq_none (by omega)]
    simp

theorem parseApp_cursor_le (p p1 : Parser) (r : List Nat × List Nat × Option GoError)
    (hl : p.l = p.buff.length) (h : parseApp p = .ok (r, p1)) :
    p1.cursor ≤ p.buff.length + 1 := by
  unfold parseApp at h
  cases hloop : parseAppLoop p.buff (p.buff.length - p.cursor + 1)
      ⟨p.cursor, p.cursor, [], [], false, false⟩ with
  | fault f => simp [hloop] at h
  | ok s =>
    have hs := parseAppLoop_cursor_le p.buff _ _ s hloop
    simp only [hloop, hl, skipSpace_eq, Run.ok.injEq, Prod.mk.injEq] at h
    rw [← h.2]
    have := skipSpace_le p.buff s.cursor
    simp only []
    omega

theorem hostnameEnd_le (buff : List Nat) (l fuel : Nat) :
    ∀ pos stop, hostnameEnd buff l fuel pos = .ok stop → stop ≤ max pos l := by
  induction fuel with
  | zero =>
    intro pos stop h
    simp only [hostnameEnd] at h
    split at h
    · simp at h
    · simp only [Run.ok.injEq] at h
      omega
  | succ fuel ih =>
    intro pos stop h
    rw [hostnameEnd] at h
    split at h
    · split at h
      · simp at h
      · split at h
        · simp only [Run.ok.injEq] at h
          omega
        · have := ih _ _ h
          omega
    · simp only [Run.ok.injEq] at h
      omega

theorem parseHostname_cursor_le (p p1 : Parser) (r : List Nat × Option GoError)
    (hl : p.l = p.buff.length) (hc : p.cursor ≤ p.buff.length)
    (h : parseHostname p = .ok (r, p1)) : p1.cursor ≤ p.buff.length := by
  unfold parseHostname at h
  split at h
  · simp only [Run.ok.injEq, Prod.mk.injEq] at h
    rw [← h.2]; exact hc
  · unfold ParseHostname at h
    cases he : hostnameEnd p.buff p.l (p.l - p.cursor) p.cursor with
    | fault f => simp [he] at h
    | ok stop =>
      have hstop := hostnameEnd_le p.buff p.l _ _ _ he
      simp only [he] at h
      cases hs : slice p.buff p.cursor stop with
      | fault f => simp [hs] at h
      | ok hn =>
        simp only [hs, Run.ok.injEq, Prod.mk.injEq] at h
        rw [← h.2]
        simp only []
        split <;> omega

theorem trimSpace_length_le (s : List Nat) : (trimSpace s).length ≤ s.length := by
  obtain ⟨a, b, _, _, hs, _⟩ := trimSpace_spec s
  have := congrArg List.length hs
  simp only [List.length_append] at this
  omega

theorem parseContent_cursor_le (p p1 : Parser) (r : List Nat × Option GoError)
    (hl : p.l = p.buff.length) (h : parseContent p = .ok (r, p1)) :
    (p.cursor ≤ p.buff.length → p1.cursor ≤ p.buff.length)
    ∧ (p.cursor ≤ p.buff.length + 1 → p1.cursor ≤ p.buff.length + 1) := by
  unfold parseContent at h
  split at h
  · simp only [Run.ok.injEq, Prod.mk.injEq] at h
    rw [← h.2]
    exact ⟨id, id⟩
  · rename_i hgt
    have hle : p.cursor ≤ p.buff.length := by omega
    rw [hl, slice_ok p.buff p.cursor p.buff.length hle (Nat.le_refl _)] at h
    simp only [Run.ok.injEq, Prod.mk.injEq] at h
    rw [← h.2]
    have := trimSpace_length_le (List.drop p.cursor (List.take p.buff.length p.buff))
    simp only [List.length_drop, List.length_take, Nat.min_self] at this
    simp only []
    constructor <;> intro _ <;> omega

/-- C15, as stated, fails in two places.  A failed timestamp scan sets the cursor
to 15 whatever the length: on `abc` it ends at 15, beyond the 3 bytes.  And the
closing bracket moves the cursor by two: on a line that ends with `app[1]`, of 32
bytes, `parseApp` leaves it at 33, where it still is when `Parse` returns. -/
theorem cursor_beyond_buffer :
    parseTimestamp sampleEnv (NewParser (bytesOf "abc"))
      = .ok ((Time.zero, some .ErrTimestampUnknownFormat), parserAt (bytesOf "abc") 15)
    ∧ (bytesOf "abc").length = 3
    ∧ parseApp (parserAt bracketEndLine 26)
      = .ok ((bytesOf "app", bytesOf "1", none), parserAt bracketEndLine 33)
    ∧ Parse sampleEnv (NewParser bracketEndLine)
      = .ok (some (.library 1), parserAt bracketEndLine 33)
    ∧ bracketEndLine.length = 32 := by
  decide

/-- C15, amended: for a parser with `l = len(buff)`, the cursor is at most
`len(buff)` after a successful timestamp scan and after the hostname step (which
keeps a cursor that was within the buffer within it), and at most `len(buff) + 1`
after `parseApp` and after `parseContent` (which keeps a cursor within the buffer
within it); after a failed timestamp scan the cursor is 15, or 16 when the buffer
has a byte at index 15. -/
theorem cursor_bounds (env : Env) (p : Parser) (hl : p.l = p.buff.length) :
    (∀ ts p1, parseTimestamp env p = .ok ((ts, none), p1) → p1.cursor ≤ p.buff.length)
    ∧ (∀ ts e p1, parseTimestamp env p = .ok ((ts, some e), p1) →
        p1.cursor = 15 ∨ (p1.cursor = 16 ∧ 16 ≤ p.buff.length))
    ∧ (∀ r p1, parseHostname p = .ok (r, p1) → p.cursor ≤ p.buff.length →
        p1.cursor ≤ p.buff.length)
    ∧ (∀ r p1, parseApp p = .ok (r, p1) → p1.cursor ≤ p.buff.length + 1)
    ∧ (∀ r p1, parseContent p = .ok (r, p1) →
        (p.cursor ≤ p.buff.length → p1.cursor ≤ p.buff.length)
        ∧ (p.cursor ≤ p.buff.length + 1 → p1.cursor ≤ p.buff.length + 1)) := by
  refine ⟨?_, ?_, ?_, ?_, ?_⟩
  · intro ts p1 h
    rw [parseTimestamp_eq env p hl] at h
    by_cases hroom : p.cursor + 15 ≤ p.buff.length
    · simp only [hroom, if_true] at h
      cases hlay : parseLayouts env ((p.buff.drop p.cursor).take 15) with
      | none => simp [hlay] at h
      | some t =>
        simp only [hlay, Run.ok.injEq, Prod.mk.injEq] at h
        rw [← h.2]
        have := skipSpace_le p.buff (p.cursor + 15)
        simp only []
        omega
    · simp [hroom] at h
  · intro ts e p1 h
    rw [parseTimestamp_eq env p hl] at h
    have hcur : p1.cursor = 15 + if p.buff[15]? = some 32 then 1 else 0 := by
      by_cases hroom : p.cursor + 15 ≤ p.buff.length
      · simp only [hroom, if_true] at h
        cases hlay : parseLayouts env ((p.buff.drop p.cursor).take 15) with
        | none =>
          simp only [hlay, Run.ok.injEq, Prod.mk.injEq] at h
          rw [← h.2]
        | some t => simp [hlay] at h
      · simp only [hroom, if_false, Run.ok.injEq, Prod.mk.injEq] at h
        rw [← h.2]
    by_cases h15 : 15 < p.buff.length
    · by_cases hb : p.buff[15]? = some 32
      · right; rw [hcur, if_pos hb]; omega
      · left; rw [hcur, if_neg hb]
    · left
      rw [hcur, List.getElem?_eq_none (by omega)]
      simp
  · intro r p1 h hc
    exact parseHostname_cursor_le p p1 r hl hc h
  · intro r p1 h
    exact parseApp_cursor_le p p1 r hl h
  · intro r p1 h
    exact parseContent_cursor_le p p1 r hl h

/-- C15, amended, at the steps of `Parse` on the example line: cursor 16 after the
timestamp, 26 after the host name, 36 after the tag, and the length of the line
after the content. -/
theorem cursor_bounds_witness :
    (∀ ts p1, parseTimestamp sampleEnv (NewParser (sampleLine (bytesOf "40")))
        = .ok ((ts, none), p1) → p1.cursor ≤ (sampleLine (bytesOf "40")).length)
    ∧ parseTimestamp sampleEnv (NewParser (sampleLine (bytesOf "40")))
        = .ok ((sampleTime, none), parserAt (sampleLine (bytesOf "40")) 16)
    ∧ parseHostname (parserAt (sampleLine (bytesOf "40")) 16)
        = .ok ((bytesOf "mymachine", none), parserAt (sampleLine (bytesOf "40")) 26)
    ∧ parseApp (parserAt (sampleLine (bytesOf "40")) 26)
        = .ok ((bytesOf "app", bytesOf "123", none), parserAt (sampleLine (bytesOf "40")) 36)
    ∧ parseContent (parserAt (sampleLine (bytesOf "40")) 36)
        = .ok ((samplePayload (bytesOf "40"), some .ErrEOL),
            parserAt (sampleLine (bytesOf "40")) (sampleLine (bytesOf "40")).length) :=
  ⟨(cursor_bounds sampleEnv (NewParser (sampleLine (bytesOf "40"))) rfl).1,
   by decide, by decide, by decide, by decide⟩

/-! ## The result of Parse -/

theorem ParseWith_ParseHostname (env : Env) (p : Parser) :
    ParseWith ParseHostname env p = Parse env p := rfl

theorem ParseWith_inv (scan : HostnameScan) (env : Env) (p p' : Parser) (r : Option GoError)
    (h : ParseWith scan env p = .ok (r, p')) :
    ∃ ts e1 p1, parseTimestamp env p = .ok ((ts, e1), p1) ∧
      ((∃ err, e1 = some err ∧ r = some err ∧ p' = p1)
      ∨ (e1 = none ∧ ∃ hn e2 p2, parseHostnameWith scan p1 = .ok ((hn, e2), p2) ∧
          ((∃ err, e2 = some err ∧ r = some err ∧ p' = p2)
          ∨ (e2 = none ∧ ∃ b, p2.buff[p2.cursor]? = some b ∧
            ∃ msg e3 p3,
              parseMessage env (if b = 32 then { p2 with cursor := p2.cursor + 1 } else p2)
                = .ok ((msg, e3), p3)
              ∧ ((e3 ≠ some .ErrEOL ∧ r = e3 ∧ p' = p3)
                ∨ (e3 = some .ErrEOL ∧ r = none
                    ∧ p' = { p3 with version := env.NoVersion,
                                     header := { timestamp := ts, hostname := hn },
                                     message := msg })))))) := by
  unfold ParseWith parseHeaderWith at h
  cases ht : parseTimestamp env p with
  | fault f => simp [ht] at h
  | ok rt =>
    obtain ⟨⟨ts, e1⟩, p1⟩ := rt
    refine ⟨ts, e1, p1, rfl, ?_⟩
    cases e1 with
    | some err =>
      simp only [ht, Run.ok.injEq, Prod.mk.injEq] at h
      exact Or.inl ⟨err, rfl, h.1.symm, h.2.symm⟩
    | none =>
      right
      refine ⟨rfl, ?_⟩
      simp only [ht] at h
      cases hh : parseHostnameWith scan p1 with
      | fault f => simp [hh] at h
      | ok rh =>
        obtain ⟨⟨hn, e2⟩, p2⟩ := rh
        refine ⟨hn, e2, p2, rfl, ?_⟩
        cases e2 with
        | some err =>
          simp only [hh, Run.ok.injEq, Prod.mk.injEq] at h
          exact Or.inl ⟨err, rfl, h.1.symm, h.2.symm⟩
        | none =>
          right
          refine ⟨rfl, ?_⟩
          simp only [hh] at h
          cases hb : p2.buff[p2.cursor]? with
          | none => simp [hb] at h
          | some b =>
            refine ⟨b, rfl, ?_⟩
            simp only [hb] at h
            cases hm : parseMessage env
                (if b = 32 then { p2 with cursor := p2.cursor + 1 } else p2) with
            | fault f => simp [hm] at h
            | ok rm =>
              obtain ⟨⟨msg, e3⟩, p3⟩ := rm
              refine ⟨msg, e3, p3, rfl, ?_⟩
              simp only [hm] at h
              by_cases he3 : e3 = some .ErrEOL
              · right
                simp only [he3, ne_eq, not_true_eq_false, if_false, Run.ok.injEq,
                  Prod.mk.injEq] at h
                exact ⟨he3, h.1.symm, h.2.symm⟩
              · left
                simp only [ne_eq, he3, not_false_eq_true, if_true, Run.ok.injEq,
                  Prod.mk.injEq] at h
                exact ⟨he3, h.1.symm, h.2.symm⟩

/-- C13: the result of `Parse`, for every function `scan` in the place of
`syslogparser.ParseHostname` (the root package is not among the sources; `Parse`
itself is `ParseWith ParseHostname`).  When `Parse` returns, it returns nil
exactly when the timestamp scan, the hostname scan and the decode of the
normalized content all succeed; an error of the timestamp scan, of the hostname
scan or of the decoder is returned as it is; and `ErrEOL` is returned only when
the hostname scan itself handed it back: the `ErrEOL` of the content extraction
never reaches the caller. -/
theorem ParseWith_result (scan : HostnameScan) (env : Env) (p p' : Parser)
    (r : Option GoError) (h : ParseWith scan env p = .ok (r, p')) :
    (r = none ↔ stepsSucceed scan env p)
    ∧ (∀ ts err p1, parseTimestamp env p = .ok ((ts, some err), p1) → r = some err)
    ∧ (∀ ts p1 hn err p2, parseTimestamp env p = .ok ((ts, none), p1) →
        parseHostnameWith scan p1 = .ok ((hn, some err), p2) → r = some err)
    ∧ (∀ ts p1 hn p2 b app pid p3 content p4 mako tag,
        parseTimestamp env p = .ok ((ts, none), p1) →
        parseHostnameWith scan p1 = .ok ((hn, none), p2) →
        p2.buff[p2.cursor]? = some b →
        parseApp (afterHeader p2 b) = .ok ((app, pid, none), p3) →
        parseContent p3 = .ok ((content, some .ErrEOL), p4) →
        env.jsonDecode (preProcess content) = (mako, some tag) →
        r = some (.library tag))
    ∧ (r = some .ErrEOL →
        ∃ ts p1 hn p2, parseTimestamp env p = .ok ((ts, none), p1)
          ∧ parseHostnameWith scan p1 = .ok ((hn, some .ErrEOL), p2)) := by
  obtain ⟨ts, e1, p1, ht, hcase⟩ := ParseWith_inv scan env p p' r h
  rcases hcase with ⟨err, he1, hr, _⟩ | ⟨he1, hn, e2, p2, hhost, hcase2⟩
  · -- the timestamp scan failed
    subst he1
    have herr := parseTimestamp_error env p p1 ts err ht
    refine ⟨?_, ?_, ?_, ?_, ?_⟩
    · constructor
      · intro hnone; rw [hr] at hnone; exact absurd hnone (by simp)
      · rintro ⟨ts', p1', _, _, _, _, _, _, _, _, _, ht', _⟩
        rw [ht] at ht'
        simp at ht'
    · intro ts' err' p1' ht'
      rw [ht] at ht'
      simp only [Run.ok.injEq, Prod.mk.injEq, Option.some.injEq] at ht'
      rw [hr, ht'.1.2]
    · intro ts' p1' _ _ _ ht'
      rw [ht] at ht'
      simp at ht'
    · intro ts' p1' _ _ _ _ _ _ _ _ _ _ ht'
      rw [ht] at ht'
      simp at ht'
    · intro hre
      rw [hr, herr] at hre
      simp at hre
  · subst he1
    rcases hcase2 with ⟨err, he2, hr, _⟩ | ⟨he2, b, hb, msg, e3, p3, hmsg, hfin⟩
    · -- the hostname scan failed
      subst he2
      refine ⟨?_, ?_, ?_, ?_, ?_⟩
      · constructor
        · intro hnone; rw [hr] at hnone; exact absurd hnone (by simp)
        · rintro ⟨ts', p1', hn', p2', _, _, _, _, _, _, _, ht', hh', _⟩
          rw [ht] at ht'
          simp only [Run.ok.injEq, Prod.mk.injEq, and_true] at ht'
          obtain ⟨_, rfl⟩ := ht'
          rw [hhost] at hh'
          simp at hh'
      · intro ts' err' p1' ht'
        rw [ht] at ht'
        simp at ht'
      · intro ts' p1' hn' err' p2' ht' hh'
        rw [ht] at ht'
        simp only [Run.ok.injEq, Prod.mk.injEq, and_true] at ht'
        obtain ⟨_, rfl⟩ := ht'
        rw [hhost] at hh'
        simp only [Run.ok.injEq, Prod.mk.injEq, Option.some.injEq] at hh'
        rw [hr, hh'.1.2]
      · intro ts' p1' hn' p2' _ _ _ _ _ _ _ _ ht' hh'
        rw [ht] at ht'
        simp only [Run.ok.injEq, Prod.mk.injEq, and_true] at ht'
        obtain ⟨_, rfl⟩ := ht'
        rw [hhost] at hh'
        simp at hh'
      · intro hre
        rw [hr] at hre
        simp only [Option.some.injEq] at hre
        subst hre
        exact ⟨ts, p1, hn, p2, ht, hhost⟩
    · -- the header was read
      subst he2
      obtain ⟨app, pid, p3', content, mako, d, happ, hcont, hdec, hmsgeq, he3⟩ :=
        parseMessage_inv env _ p3 msg e3 hmsg
      have hr : r = d.map GoError.library := by
        rcases hfin with ⟨hne, hr, _⟩ | ⟨heq, hr, _⟩
        · cases d with
          | none => exact absurd he3 hne
          | some tag => rw [hr, he3]; rfl
        · cases d with
          | none => exact hr
          | some tag => rw [he3] at heq; simp at heq
      -- any other reading of the steps is this one
      have same : ∀ ts' p1' hn' p2' b' app' pid' p3'' content' p4' mako' d',
          parseTimestamp env p = .ok ((ts', none), p1') →
          parseHostnameWith scan p1' = .ok ((hn', none), p2') →
          p2'.buff[p2'.cursor]? = some b' →
          parseApp (afterHeader p2' b') = .ok ((app', pid', none), p3'') →
          parseContent p3'' = .ok ((content', some .ErrEOL), p4') →
          env.jsonDecode (preProcess content') = (mako', d') → d' = d := by
        intro ts' p1' hn' p2' b' app' pid' p3'' content' p4' mako' d' ht' hh' hb' ha' hc' hd'
        rw [ht] at ht'
        simp only [Run.ok.injEq, Prod.mk.injEq, and_true] at ht'
        obtain ⟨_, rfl⟩ := ht'
        rw [hhost] at hh'
        simp only [Run.ok.injEq, Prod.mk.injEq, and_true] at hh'
        obtain ⟨_, rfl⟩ := hh'
        rw [hb] at hb'
        simp only [Option.some.injEq] at hb'
        subst hb'
        unfold afterHeader at ha'
        rw [happ] at ha'
        simp only [Run.ok.injEq, Prod.mk.injEq, and_true] at ha'
        obtain ⟨_, rfl⟩ := ha'
        rw [hcont] at hc'
        simp only [Run.ok.injEq, Prod.mk.injEq, and_true] at hc'
        obtain ⟨rfl, _⟩ := hc'
        rw [hdec] at hd'
        simp only [Prod.mk.injEq] at hd'
        exact hd'.2.symm
      refine ⟨?_, ?_, ?_, ?_, ?_⟩
      · constructor
        · intro hnone
          cases d with
          | none =>
            exact ⟨ts, p1, hn, p2, b, app, pid, p3', content, p3, mako, ht, hhost, hb, happ,
              hcont, hdec⟩
          | some tag => rw [hr] at hnone; simp at hnone
        · rintro ⟨ts', p1', hn', p2', b', app', pid', p3'', content', p4', mako', ht', hh', hb',
            ha', hc', hd'⟩
          have := same _ _ _ _ _ _ _ _ _ _ _ _ ht' hh' hb' ha' hc' hd'
          rw [hr, ← this]; rfl
      · intro ts' err' p1' ht'
        rw [ht] at ht'
        simp at ht'
      · intro ts' p1' hn' err' p2' ht' hh'
        rw [ht] at ht'
        simp only [Run.ok.injEq, Prod.mk.injEq, and_true] at ht'
        obtain ⟨_, rfl⟩ := ht'
        rw [hhost] at hh'
        simp at hh'
      · intro ts' p1' hn' p2' b' app' pid' p3'' content' p4' mako' tag ht' hh' hb' ha' hc' hd'
        have := same _ _ _ _ _ _ _ _ _ _ _ _ ht' hh' hb' ha' hc' hd'
        rw [hr, ← this]; rfl
      · intro hre
        rw [hr] at hre
        cases d <;> simp at hre

/-- C13, at the example line.  With `ParseHostname` as the scan `Parse` returns
nil, and so the three steps succeed.  With a scan that fails with a library
error, that error is what `Parse` returns; so is `ErrEOL` when the scan hands
that back.  On `abc` the error of the timestamp scan is returned. -/
theorem ParseWith_result_witness :
    stepsSucceed ParseHostname sampleEnv (NewParser (sampleLine (bytesOf "40")))
    ∧ ParseWith (failingScan (.library 7)) sampleEnv (NewParser (sampleLine (bytesOf "40")))
      = .ok (some (.library 7), parserAt (sampleLine (bytesOf "40")) 16)
    ∧ ParseWith (failingScan .ErrEOL) sampleEnv (NewParser (sampleLine (bytesOf "40")))
      = .ok (some .ErrEOL, parserAt (sampleLine (bytesOf "40")) 16)
    ∧ ParseWith ParseHostname sampleEnv (NewParser (bytesOf "abc"))
      = .ok (some .ErrTimestampUnknownFormat, parserAt (bytesOf "abc") 15) := by
  have hrun : ∃ p', ParseWith ParseHostname sampleEnv (NewParser (sampleLine (bytesOf "40")))
      = .ok (none, p') := ⟨_, rfl⟩
  obtain ⟨p', hp'⟩ := hrun
  exact ⟨(ParseWith_result ParseHostname sampleEnv _ p' none hp').1.mp rfl, by decide, by decide,
    by decide⟩

/-! ## The calendar of package time -/

theorem absYday_cycles (a b c e yd : Int) (hb0 : 0 ≤ b) (hb : b ≤ 3) (hc0 : 0 ≤ c)
    (hc : c ≤ 24) (he0 : 0 ≤ e) (he : e ≤ 3) (h0 : 0 ≤ yd) (h1 : yd ≤ 365)
    (h2 : yd = 365 → e = 3 ∧ (c ≠ 24 ∨ b = 3)) :
    absYday (146097 * a + 36524 * b + 1461 * c + 365 * e + yd)
      = (400 * a + 100 * b + 4 * c + e + 1, yd) := by
  have e1 : (146097 * a + 36524 * b + 1461 * c + 365 * e + yd) / 146097 = a := by omega
  have e2 : (146097 * a + 36524 * b + 1461 * c + 365 * e + yd) % 146097
      = 36524 * b + 1461 * c + 365 * e + yd := by omega
  have e3 : (36524 * b + 1461 * c + 365 * e + yd) / 36524
      - (36524 * b + 1461 * c + 365 * e + yd) / 36524 / 4 = b := by
    by_cases hx : 1461 * c + 365 * e + yd < 36524
    · have : (36524 * b + 1461 * c + 365 * e + yd) / 36524 = b := by omega
      rw [this]; omega
    · have : (36524 * b + 1461 * c + 365 * e + yd) / 36524 = 4 := by omega
      rw [this]; omega
  have e4 : (36524 * b + 1461 * c + 365 * e + yd - 36524 * b) = 1461 * c + 365 * e + yd := by
    omega
  have e5 : (1461 * c + 365 * e + yd) / 1461 = c := by omega
  have e6 : (1461 * c + 365 * e + yd) % 1461 = 365 * e + yd := by omega
  have e7 : (365 * e + yd) / 365 - (365 * e + yd) / 365 / 4 = e := by
    by_cases hx : yd < 365
    · have : (365 * e + yd) / 365 = e := by omega
      rw [this]; omega
    · have : (365 * e + yd) / 365 = 4 := by omega
      rw [this]; omega
  simp only [absYday, e1, e2, e3, e4, e5, e6, e7, Prod.mk.injEq]
  exact ⟨trivial, by omega⟩

/-- Day `yd` of year `year`, counted from the epoch, is read back as such. -/
theorem absYday_daysSinceEpoch (year yd : Int) (h0 : 0 ≤ yd) (h1 : yd ≤ 365)
    (h2 : yd = 365 → isLeap year = true) :
    absYday (daysSinceEpoch year + yd) = (year, yd) := by
  simp only [isLeap, decide_eq_true_eq] at h2
  unfold daysSinceEpoch
  rw [absYday_cycles _ _ _ _ _ (by omega) (by omega) (by omega) (by omega)
    (by omega) (by omega) h0 h1 (by omega)]
  simp only [Prod.mk.injEq, and_true]
  omega

theorem absMonthDay_table : ∀ leap : Bool, ∀ k : Nat, k < 12 → ∀ j : Nat, j < 32 →
    1 ≤ (j : Int) ∧ (j : Int) ≤ monthLength leap k →
    (0 ≤ ydayOf leap k j ∧ ydayOf leap k j ≤ 365 ∧ (ydayOf leap k j = 365 → leap = true))
      ∧ absMonthDay leap (ydayOf leap k j) = ((k : Int) + 1, (j : Int)) := by
  intro leap
  cases leap <;> decide

theorem norm_id (hi lo base : Int) (h0 : 0 ≤ lo) (h1 : lo < base) :
    norm hi lo base = (hi, lo) := by
  unfold norm
  have h2 : ¬ lo < 0 := by omega
  have h3 : ¬ lo ≥ base := by omega
  simp only [h2, if_false, h3]

theorem monthLength_le : ∀ leap : Bool, ∀ k : Nat, k < 12 →
    monthLength leap k ≤ 31 ∧ 28 ≤ monthLength leap k := by
  intro leap
  cases leap <;> decide

theorem daysIn_eq_monthLength (k : Nat) (y : Int) :
    daysIn ((k : Int) + 1) y = monthLength (isLeap y) k := by
  unfold daysIn monthLength
  have e1 : ((k : Int) + 1).toNat = k + 1 := by omega
  have e2 : ((k : Int) + 1 - 1).toNat = k := by omega
  rw [e1, e2]

/-- On fields that are a date and a time of day, `time.Date` is the time with
these fields. -/
theorem timeDate_fields (y mo d h mi s ns : Int)
    (hmo : 1 ≤ mo ∧ mo ≤ 12) (hd : 1 ≤ d ∧ d ≤ daysIn mo y)
    (hh : 0 ≤ h ∧ h < 24) (hmi : 0 ≤ mi ∧ mi < 60) (hs : 0 ≤ s ∧ s < 60)
    (hns : 0 ≤ ns ∧ ns < 1000000000) :
    timeDate y mo d h mi s ns = ⟨y, mo, d, h, mi, s, ns⟩ := by
  obtain ⟨k, rfl⟩ : ∃ k : Nat, mo = (k : Int) + 1 := ⟨(mo - 1).toNat, by omega⟩
  obtain ⟨j, rfl⟩ : ∃ j : Nat, d = (j : Int) := ⟨d.toNat, by omega⟩
  have hk : k < 12 := by omega
  rw [daysIn_eq_monthLength] at hd
  have hj : j < 32 := by have := (monthLength_le (isLeap y) k hk).1; omega
  have ht := absMonthDay_table (isLeap y) k hk j hj hd
  have n1 := norm_id y ((k : Int) + 1 - 1) 12 (by omega) (by omega)
  have n2 := norm_id s ns 1000000000 hns.1 hns.2
  have n3 := norm_id mi s 60 hs.1 hs.2
  have n4 := norm_id h mi 60 hmi.1 hmi.2
  have n5 := norm_id (j : Int) h 24 hh.1 hh.2
  have e2 : ((k : Int) + 1 - 1).toNat = k := by omega
  have e3 : ((k : Int) + 1 - 1 + 1 ≥ 3) = ((k : Int) + 1 ≥ 3) := by
    congr 1; omega
  have hy : daysBefore.getD k 0 + (if isLeap y = true ∧ ((k : Int) + 1 ≥ 3) then 1 else 0)
      + ((j : Int) - 1) = ydayOf (isLeap y) k j := rfl
  simp only [timeDate, n1, n2, n3, n4, n5, e2, e3]
  rw [add_assoc (daysSinceEpoch y), add_assoc (daysSinceEpoch y),
    hy, absYday_daysSinceEpoch y _ ht.1.1 ht.1.2.1 ht.1.2.2]
  simp only [ht.2]

/-- February 29 of a year that is not a leap year is March 1. -/
theorem timeDate_feb29 (y h mi s ns : Int) (hy : isLeap y = false)
    (hh : 0 ≤ h ∧ h < 24) (hmi : 0 ≤ mi ∧ mi < 60) (hs : 0 ≤ s ∧ s < 60)
    (hns : 0 ≤ ns ∧ ns < 1000000000) :
    timeDate y 2 29 h mi s ns = ⟨y, 3, 1, h, mi, s, ns⟩ := by
  have h1 := timeDate_fields y 3 1 h mi s ns (by decide) (by simp [daysIn, hy]; decide)
    hh hmi hs hns
  rw [← h1]
  have n2 := norm_id s ns 1000000000 hns.1 hns.2
  have n3 := norm_id mi s 60 hs.1 hs.2
  have n4 := norm_id h mi 60 hmi.1 hmi.2
  have n5 := norm_id 29 h 24 hh.1 hh.2
  have n6 := norm_id 1 h 24 hh.1 hh.2
  have n1 := norm_id y (2 - 1) 12 (by decide) (by decide)
  have n7 := norm_id y (3 - 1) 12 (by decide) (by decide)
  have hL : (daysSinceEpoch y + daysBefore.getD ((2 : Int) - 1).toNat 0
      + if false = true ∧ (2 : Int) - 1 + 1 ≥ 3 then 1 else 0) + (29 - 1)
      = daysSinceEpoch y + 59 := by
    simp [daysBefore]; omega
  have hR : (daysSinceEpoch y + daysBefore.getD ((3 : Int) - 1).toNat 0
      + if false = true ∧ (3 : Int) - 1 + 1 ≥ 3 then 1 else 0) + (1 - 1)
      = daysSinceEpoch y + 59 := by
    simp [daysBefore]
  simp only [timeDate, n1, n2, n3, n4, n5, n6, n7, hy, hL, hR]

theorem daysIn_of_ne_feb (mo y y0 : Int) (h : mo ≠ 2) : daysIn mo y = daysIn mo y0 := by
  simp [daysIn, h]

theorem daysIn_feb (y : Int) : daysIn 2 y = if isLeap y = true then 29 else 28 := by
  cases h : isLeap y <;> simp [daysIn, h]; decide

/-- `fixTimestampIfNeeded` on a valid time: a year other than 0 is kept with
every other field; year 0 becomes the current year, and the date is kept
unless it is February 29 and the current year has none, when it is March 1. -/
theorem fixTimestampIfNeeded_valid (env : Env) (t : Time) (hdate : env.date = timeDate)
    (hv : t.valid) :
    (t.year ≠ 0 → fixTimestampIfNeeded env t = t)
    ∧ (t.year = 0 → fixTimestampIfNeeded env t
        = if t.month = 2 ∧ t.day = 29 ∧ isLeap env.nowYear = false then
            ⟨env.nowYear, 3, 1, t.hour, t.minute, t.second, t.nanosecond⟩
          else ⟨env.nowYear, t.month, t.day, t.hour, t.minute, t.second, t.nanosecond⟩) := by
  obtain ⟨hmo, hd, hh, hmi, hs, hns⟩ := hv
  constructor
  · intro hy
    simp only [fixTimestampIfNeeded, hy, if_false, hdate]
    exact timeDate_fields _ _ _ _ _ _ _ hmo hd hh hmi hs hns
  · intro hy
    simp only [fixTimestampIfNeeded, hy, if_true, hdate]
    rw [hy] at hd
    by_cases hc : t.month = 2 ∧ t.day = 29 ∧ isLeap env.nowYear = false
    · rw [if_pos hc, hc.1, hc.2.1]
      exact timeDate_feb29 _ _ _ _ _ hc.2.2 hh hmi hs hns
    · rw [if_neg hc]
      refine timeDate_fields _ _ _ _ _ _ _ hmo ⟨hd.1, ?_⟩ hh hmi hs hns
      by_cases hm : t.month = 2
      · rw [hm, daysIn_feb] at hd ⊢
        have h0 : isLeap 0 = true := by decide
        rw [h0, if_pos rfl] at hd
        cases hl : isLeap env.nowYear
        · have : t.day ≠ 29 := fun h29 => hc ⟨hm, h29, hl⟩
          simp only [Bool.false_eq_true, if_false]
          omega
        · simp only [if_true]
          exact hd.2
      · rw [daysIn_of_ne_feb _ _ 0 hm]
        exact hd.2

theorem lookupName_lt (tab : List (List Nat)) (val : List Nat) (i : Nat) (r : List Nat)
    (h : lookupName tab val = some (i, r)) : i < tab.length := by
  induction tab generalizing i r with
  | nil => simp [lookupName] at h
  | cons v tab ih =>
    unfold lookupName at h
    split at h
    · simp only [Option.some.injEq, Prod.mk.injEq] at h
      simp [← h.1]
    · split at h
      · rename_i i1 r1 h1
        simp only [Option.some.injEq, Prod.mk.injEq] at h
        have := ih i1 r1 h1
        simp only [List.length_cons]
        omega
      · simp at h

theorem getnum_nonneg (s : List Nat) (fixed : Bool) (n : Int) (r : List Nat)
    (h : getnum s fixed = some (n, r)) : 0 ≤ n := by
  unfold getnum at h
  split at h
  · simp at h
  · split at h
    · split at h
      · simp at h
      · simp only [Option.some.injEq, Prod.mk.injEq] at h
        rw [← h.1]; exact Int.natCast_nonneg _
    · simp only [Option.some.injEq, Prod.mk.injEq] at h
      rw [← h.1]; exact Int.natCast_nonneg _

theorem atoi_bound (ds : List Nat) (acc : Nat) (h : ∀ c ∈ ds, c ≤ 57) :
    ds.foldl (fun acc c => acc * 10 + (c - 48)) acc + 1 ≤ (acc + 1) * 10 ^ ds.length := by
  induction ds generalizing acc with
  | nil => simp
  | cons c ds ih =>
    have hc : c ≤ 57 := h c (List.mem_cons_self _ _)
    have := ih (acc * 10 + (c - 48)) (fun x hx => h x (List.mem_cons_of_mem _ hx))
    simp only [List.foldl_cons, List.length_cons]
    refine le_trans this ?_
    rw [pow_succ, mul_comm (10 ^ ds.length) 10, ← mul_assoc]
    exact Nat.mul_le_mul_right _ (by omega)

theorem fraction_range (value : List Nat) :
    0 ≤ (fraction value).1 ∧ (fraction value).1 < 1000000000 := by
  unfold fraction
  split
  · split
    · rename_i c rest _
      simp only
      constructor
      · exact Int.natCast_nonneg _
      · have hds : ∀ x ∈ (rest.takeWhile (fun d => decide (48 ≤ d ∧ d ≤ 57))).take 9, x ≤ 57 := by
          intro x hx
          have := List.mem_takeWhile_imp (List.mem_of_mem_take hx)
          simp only [decide_eq_true_eq] at this
          exact this.2
        have hlen : ((rest.takeWhile (fun d => decide (48 ≤ d ∧ d ≤ 57))).take 9).length ≤ 9 := by
          simp only [List.length_take]; omega
        have hb := atoi_bound _ 0 hds
        generalize ((rest.takeWhile (fun d => decide (48 ≤ d ∧ d ≤ 57))).take 9) = ds at hb hlen
        have hp : 10 ^ ds.length * 10 ^ (9 - ds.length) = 1000000000 := by
          rw [← pow_add]
          have : ds.length + (9 - ds.length) = 9 := by omega
          rw [this]; norm_num
        have hlt : atoi ds * 10 ^ (9 - ds.length) < 10 ^ ds.length * 10 ^ (9 - ds.length) := by
          apply Nat.mul_lt_mul_of_lt_of_le
          · unfold atoi; omega
          · exact le_refl _
          · positivity
        rw [hp] at hlt
        exact_mod_cast hlt
    · simp
  · simp

theorem parseStamp_valid (zeroDay : Bool) (sep value : List Nat) (t : Time)
    (h : parseStamp zeroDay sep value = some t) : t.year = 0 ∧ t.valid := by
  unfold parseStamp at h
  repeat' split at h
  all_goals try (simp at h; done)
  rename_i x8 i v1 hm x7 v2 hs1 x6 day v3 hday x5 v4 hs2 x4 hour v5 hhour h24 x3 v6 hs3 x2 min v7
    hmin h60 x1 v8 hs4 x0 sec v9 hsec h60s hfr hdr
  have hi := lookupName_lt _ _ _ _ hm
  have hlen : shortMonthNames.length = 12 := rfl
  rw [hlen] at hi
  have hfrac := fraction_range v9
  have h1 := getnum_nonneg _ _ _ _ hhour
  have h2 := getnum_nonneg _ _ _ _ hmin
  have h3 := getnum_nonneg _ _ _ _ hsec
  have hd : 1 ≤ day ∧ day ≤ daysIn ((i : Int) + 1) 0 := by
    constructor <;> omega
  have hmo : 1 ≤ (i : Int) + 1 ∧ (i : Int) + 1 ≤ 12 := by omega
  have hh : 0 ≤ hour ∧ hour < 24 := ⟨h1, by omega⟩
  have hmi : 0 ≤ min ∧ min < 60 := ⟨h2, by omega⟩
  have hs : 0 ≤ sec ∧ sec < 60 := ⟨h3, by omega⟩
  rw [timeDate_fields 0 _ day hour min sec _ hmo hd hh hmi hs hfrac] at h
  simp only [Option.some.injEq] at h
  rw [← h]
  exact ⟨rfl, hmo, hd, hh, hmi, hs, hfrac⟩

/-- The parser of the two layouts keeps the law that the package relies on. -/
theorem calendarEnv_parsesYearless (year : Int) : parsesYearless (calendarEnv year) := by
  intro layout v t _ h
  simp only [calendarEnv, timeParseInLocation] at h
  split at h
  · exact parseStamp_valid _ _ _ _ h
  · split at h
    · exact parseStamp_valid _ _ _ _ h
    · simp at h

/-! ## The year back-fill -/

theorem parseLayouts_yearless (env : Env) (v : List Nat) (t : Time) (hparse : parsesYearless env)
    (h : parseLayouts env v = some t) : t.year = 0 ∧ t.valid := by
  unfold parseLayouts at h
  obtain ⟨layout, hmem, hl⟩ := List.exists_of_findSome?_eq_some h
  exact hparse layout v t hmem hl

theorem parseTimestamp_ok_inv (env : Env) (p p1 : Parser) (ts : Time)
    (hl : p.l = p.buff.length) (h : parseTimestamp env p = .ok ((ts, none), p1)) :
    ∃ t, parseLayouts env ((p.buff.drop p.cursor).take 15) = some t
      ∧ ts = fixTimestampIfNeeded env t := by
  rw [parseTimestamp_eq env p hl] at h
  split at h
  · rename_i t ht
    simp only [Run.ok.injEq, Prod.mk.injEq, and_true] at h
    split at ht
    · exact ⟨t, ht, h.1.symm⟩
    · simp at ht
  · simp at h

/-- C11: year back-fill.  The library is taken with `time.Date` as `timeDate`
and with the law that a value accepted under one of the two layouts is a valid
date of year 0.  Then the time returned by a successful `parseTimestamp` has the
current year as its year; and on every valid time `fixTimestampIfNeeded` puts
the current year for year 0 and keeps any other year as it is. -/
theorem parseTimestamp_year (env : Env) (p p1 : Parser) (ts : Time)
    (hl : p.l = p.buff.length) (hdate : env.date = timeDate) (hparse : parsesYearless env)
    (h : parseTimestamp env p = .ok ((ts, none), p1)) :
    ts.year = env.nowYear
    ∧ (∀ t : Time, t.valid → t.year = 0 → (fixTimestampIfNeeded env t).year = env.nowYear)
    ∧ (∀ t : Time, t.valid → t.year ≠ 0 → (fixTimestampIfNeeded env t).year = t.year) := by
  have hfix0 : ∀ t : Time, t.valid → t.year = 0 →
      (fixTimestampIfNeeded env t).year = env.nowYear := by
    intro t hv hy
    rw [(fixTimestampIfNeeded_valid env t hdate hv).2 hy]
    split <;> rfl
  refine ⟨?_, hfix0, ?_⟩
  · obtain ⟨t, ht, rfl⟩ := parseTimestamp_ok_inv env p p1 ts hl h
    have hlaw := parseLayouts_yearless env _ t hparse ht
    exact hfix0 t hlaw.2 hlaw.1
  · intro t hv hy
    rw [(fixTimestampIfNeeded_valid env t hdate hv).1 hy]

/-- C11, at the header `Oct 11 22:14:15` with 2024 as the current year: the
time returned is October 11, 2024, 22:14:15. -/
theorem parseTimestamp_year_witness :
    parseTimestamp (calendarEnv 2024) (NewParser (bytesOf "Oct 11 22:14:15"))
      = .ok ((⟨2024, 10, 11, 22, 14, 15, 0⟩, none), parserAt (bytesOf "Oct 11 22:14:15") 15)
    ∧ (⟨2024, 10, 11, 22, 14, 15, 0⟩ : Time).year = (calendarEnv 2024).nowYear :=
  ⟨by decide,
   (parseTimestamp_year (calendarEnv 2024) (NewParser (bytesOf "Oct 11 22:14:15"))
      (parserAt (bytesOf "Oct 11 22:14:15") 15) ⟨2024, 10, 11, 22, 14, 15, 0⟩ rfl rfl
      (calendarEnv_parsesYearless 2024) (by decide)).1⟩

/-- C19 as stated fails: in 2023, a year without a February 29, the header
`Feb 29 12:00:00` is accepted (the library reads it as February 29 of year 0)
and the time returned is March 1, 2023, 12:00:00. -/
theorem parseTimestamp_feb29 :
    parseLayouts (calendarEnv 2023) (bytesOf "Feb 29 12:00:00") = some ⟨0, 2, 29, 12, 0, 0, 0⟩
    ∧ parseTimestamp (calendarEnv 2023) (NewParser (bytesOf "Feb 29 12:00:00"))
      = .ok ((⟨2023, 3, 1, 12, 0, 0, 0⟩, none), parserAt (bytesOf "Feb 29 12:00:00") 15) := by
  decide

/-- C19, amended.  The library is taken as in C11.  A successful `parseTimestamp`
returns the hour, minute, second and nanosecond that the library read in the 15
bytes at the cursor; it returns the month and day read there too, unless these
are February 29 and the current year is not a leap year, when it returns
March 1. -/
theorem parseTimestamp_fields (env : Env) (p p1 : Parser) (ts : Time)
    (hl : p.l = p.buff.length) (hdate : env.date = timeDate) (hparse : parsesYearless env)
    (h : parseTimestamp env p = .ok ((ts, none), p1)) :
    ∃ t, parseLayouts env ((p.buff.drop p.cursor).take 15) = some t
      ∧ ts.hour = t.hour ∧ ts.minute = t.minute ∧ ts.second = t.second
      ∧ ts.nanosecond = t.nanosecond
      ∧ (¬ (t.month = 2 ∧ t.day = 29 ∧ isLeap env.nowYear = false) →
          ts.month = t.month ∧ ts.day = t.day)
      ∧ (t.month = 2 ∧ t.day = 29 ∧ isLeap env.nowYear = false → ts.month = 3 ∧ ts.day = 1) := by
  obtain ⟨t, ht, rfl⟩ := parseTimestamp_ok_inv env p p1 ts hl h
  have hlaw := parseLayouts_yearless env _ t hparse ht
  refine ⟨t, ht, ?_⟩
  rw [(fixTimestampIfNeeded_valid env t hdate hlaw.2).2 hlaw.1]
  by_cases hc : t.month = 2 ∧ t.day = 29 ∧ isLeap env.nowYear = false
  · rw [if_pos hc]
    exact ⟨rfl, rfl, rfl, rfl, fun hn => absurd hc hn, fun _ => ⟨rfl, rfl⟩⟩
  · rw [if_neg hc]
    exact ⟨rfl, rfl, rfl, rfl, fun _ => ⟨rfl, rfl⟩, fun hp => absurd hp hc⟩

/-- C19 amended, at the header `Feb 29 12:00:00` with the leap year 2024 as the
current year: the time returned is February 29, 12:00:00. -/
theorem parseTimestamp_fields_witness :
    parseTimestamp (calendarEnv 2024) (NewParser (bytesOf "Feb 29 12:00:00"))
      = .ok ((⟨2024, 2, 29, 12, 0, 0, 0⟩, none), parserAt (bytesOf "Feb 29 12:00:00") 15)
    ∧ ∃ t, parseLayouts (calendarEnv 2024) (bytesOf "Feb 29 12:00:00") = some t
      ∧ (12 : Int) = t.hour ∧ (0 : Int) = t.minute ∧ (0 : Int) = t.second
      ∧ (0 : Int) = t.nanosecond
      ∧ (¬ (t.month = 2 ∧ t.day = 29 ∧ isLeap 2024 = false) →
          (2 : Int) = t.month ∧ (29 : Int) = t.day)
      ∧ (t.month = 2 ∧ t.day = 29 ∧ isLeap 2024 = false → (2 : Int) = 3 ∧ (29 : Int) = 1) :=
  ⟨by decide,
   parseTimestamp_fields (calendarEnv 2024) (NewParser (bytesOf "Feb 29 12:00:00"))
      (parserAt (bytesOf "Feb 29 12:00:00") 15) ⟨2024, 2, 29, 12, 0, 0, 0⟩ rfl rfl
      (calendarEnv_parsesYearless 2024) (by decide)⟩

end Syslogmako
